import Mathlib

/-!
# Task-based parallel search algorithms: a shallow embedding

The development follows five of the repository's programs:

* `Task4-Sudoku-Solver/sudoku_solver.c` (namespace `Sudoku`),
* `Task6-N-Queens-Solver/nqueens_solver.c` (namespace `NQueens`),
* `Task5-Game-Tree-Search/game_tree_search.c` (namespace `GameTree`),
* `Task2-Parallel-Sorting/parallel_merge_sort.c` (namespace `MergeSort`),
* `Task3-File-Compressor/parallel_file_compressor.c` (namespace `Compressor`).

C arrays are functions on their index type, loops are recursions over the
list of loop indices, in-place mutation is explicit state passing, and a
recursive C function is a structural recursion on a fuel argument that
returns `none` only when the fuel runs out.  OpenMP tasks are modelled as
calls on the task's private copy of the state.
-/

set_option maxRecDepth 100000
set_option maxHeartbeats 4000000

/-! ## Machine integers -/

/-- The C constant `INT_MIN` of a 32-bit `int`. -/
def INT_MIN : Int := -2147483648

/-- The C constant `INT_MAX` of a 32-bit `int`. -/
def INT_MAX : Int := 2147483647

/-- Reduction of an integer to the 32-bit two's complement range. -/
def wrap32 (x : Int) : Int := (x + 2147483648) % 4294967296 - 2147483648

/-! ## Sudoku (`sudoku_solver.c`) -/

namespace Sudoku

/-- The board `int board[N][N]` with `N = 9`. -/
abbrev Board := Fin 9 → Fin 9 → Int

/-- The macro `UNASSIGNED`. -/
def UNASSIGNED : Int := 0

/-- The index range `0 .. N-1` of the `for` loops. -/
def idx : List (Fin 9) := [0, 1, 2, 3, 4, 5, 6, 7, 8]

/-- The offsets `0 .. 2` of the box loops. -/
def idx3 : List (Fin 3) := [0, 1, 2]

/-- The index `i + start` with `start = row - row % 3`, as used in the box
loop of `is_safe`. -/
def boxIdx (row : Fin 9) (i : Fin 3) : Fin 9 :=
  ⟨i.val + (row.val - row.val % 3), by have h1 := row.isLt; have h2 := i.isLt; omega⟩

/-- The assignment `board[row][col] = v`. -/
def setCell (board : Board) (row col : Fin 9) (v : Int) : Board :=
  fun i j => if i = row ∧ j = col then v else board i j

/-- The function `is_safe`: the row loop, the column loop, the box loops. -/
def is_safe (board : Board) (row col : Fin 9) (num : Int) : Bool :=
  if idx.any (fun x => board row x == num) then false
  else if idx.any (fun x => board x col == num) then false
  else if idx3.any (fun i => idx3.any (fun j => board (boxIdx row i) (boxIdx col j) == num))
  then false
  else true

/-- All cells in the order of the nested loops of `find_unassigned`. -/
def cells : List (Fin 9 × Fin 9) := idx.flatMap (fun r => idx.map (fun c => (r, c)))

/-- The function `find_unassigned`: the first empty cell in row-major order,
`none` for the return value 0. -/
def find_unassigned (board : Board) : Option (Fin 9 × Fin 9) :=
  cells.find? (fun p => board p.1 p.2 == UNASSIGNED)

/-- The digits tried by the solver, in the order of its `for` loop. -/
def digits : List Int := [1, 2, 3, 4, 5, 6, 7, 8, 9]

/-- The `for (num = 1; num <= 9; num++)` loop of `solve_sudoku_sequential_pure`,
with the recursive call passed in as `solve`. -/
def tryDigits (solve : Board → Option (Bool × Board)) (row col : Fin 9) :
    List Int → Board → Option (Bool × Board)
  | [], board => some (false, board)
  | num :: rest, board =>
    if is_safe board row col num then
      match solve (setCell board row col num) with
      | none => none
      | some (true, b1) => some (true, b1)
      | some (false, b1) => tryDigits solve row col rest (setCell b1 row col UNASSIGNED)
    else tryDigits solve row col rest board

/-- The body of `solve_sudoku_sequential_pure` with a bound on the recursion
depth; the result is the return value and the board left behind. -/
def solve_sudoku_sequential_pure_aux : Nat → Board → Option (Bool × Board)
  | 0, _ => none
  | fuel + 1, board =>
    match find_unassigned board with
    | none => some (true, board)
    | some (row, col) => tryDigits (solve_sudoku_sequential_pure_aux fuel) row col digits board

/-- The function `solve_sudoku_sequential_pure`; 82 levels are enough for the
81 cells of a board. -/
def solve_sudoku_sequential_pure (board : Board) : Option (Bool × Board) :=
  solve_sudoku_sequential_pure_aux 82 board

/-- The loop of `is_valid_board` over the cells, threading the board that is
temporarily modified and restored. -/
def is_valid_board_loop : List (Fin 9 × Fin 9) → Board → Bool × Board
  | [], board => (true, board)
  | (i, j) :: rest, board =>
    if board i j ≠ 0 then
      let num := board i j
      let b1 := setCell board i j 0
      if is_safe b1 i j num then is_valid_board_loop rest (setCell b1 i j num)
      else (false, setCell b1 i j num)
    else is_valid_board_loop rest board

/-- The function `is_valid_board`: return value and board left behind. -/
def is_valid_board (board : Board) : Bool × Board := is_valid_board_loop cells board

/-- The board given by its rows. -/
def ofRows (rows : List (List Int)) : Board :=
  fun i j => (rows.getD i.val []).getD j.val 0

/-- Cell `(i2, j2)` lies in the row, the column or the 3x3 box of `(i, j)`. -/
def inUnit (i j i2 j2 : Fin 9) : Prop :=
  i2 = i ∨ j2 = j ∨ (i2.val / 3 = i.val / 3 ∧ j2.val / 3 = j.val / 3)

instance (i j i2 j2 : Fin 9) : Decidable (inUnit i j i2 j2) := by
  unfold inUnit; infer_instance

/-- The number of empty cells of a board. -/
def emptyCount (board : Board) : Nat :=
  (Finset.univ.filter (fun p : Fin 9 × Fin 9 => board p.1 p.2 = 0)).card

/-- Board `g` is a result the search may accept for `b`: it has no empty cell,
keeps every non-empty cell of `b`, and every cell that is empty in `b` holds a
digit in 1..9 that differs from every other cell of `g` in its row, column and
box. -/
def Completes (b g : Board) : Prop :=
  (∀ i j, g i j ≠ 0) ∧ (∀ i j, b i j ≠ 0 → g i j = b i j) ∧
  ∀ i j, b i j = 0 → 1 ≤ g i j ∧ g i j ≤ 9 ∧
    ∀ i2 j2, (i2, j2) ≠ (i, j) → inUnit i j i2 j2 → g i2 j2 ≠ g i j

/-- A complete valid Sudoku grid: all digits in 1..9 and no digit repeated in
a row, a column or a 3x3 box. -/
def ValidGrid (g : Board) : Prop :=
  (∀ i j, 1 ≤ g i j ∧ g i j ≤ 9) ∧
  ∀ i j i2 j2, (i2, j2) ≠ (i, j) → inUnit i j i2 j2 → g i2 j2 ≠ g i j

/-- Board `g` agrees with `b` on every non-empty cell of `b`. -/
def Extends (b g : Board) : Prop := ∀ i j, b i j ≠ 0 → g i j = b i j

/-- What a call of the solver on `b` yields: either a completion of `b`, or the
board unchanged when `b` has no completion. -/
def SolveSpec (b : Board) (o : Option (Bool × Board)) : Prop :=
  ∃ res b1, o = some (res, b1) ∧ (res = true → Completes b b1) ∧
    (res = false → b1 = b ∧ ∀ g, ¬ Completes b g)

/-- A complete valid grid with the cells (4,4) and (8,8) emptied. -/
def almostSolved : Board := ofRows
  [[5, 3, 4, 6, 7, 8, 9, 1, 2], [6, 7, 2, 1, 9, 5, 3, 4, 8], [1, 9, 8, 3, 4, 2, 5, 6, 7],
   [8, 5, 9, 7, 6, 1, 4, 2, 3], [4, 2, 6, 8, 0, 3, 7, 9, 1], [7, 1, 3, 9, 2, 4, 8, 5, 6],
   [9, 6, 1, 5, 3, 7, 2, 8, 4], [2, 8, 7, 4, 1, 9, 6, 3, 5], [3, 4, 5, 2, 8, 6, 1, 7, 0]]

/-- The board `almostSolved` with 5 placed at (4,4) and then 9 at (8,8). -/
def almostSolvedResult : Board := setCell (setCell almostSolved 4 4 5) 8 8 9

/-- A complete valid grid with its entry at cell (0,0) replaced by 10. -/
def outOfRange : Board := ofRows
  [[10, 3, 4, 6, 7, 8, 9, 1, 2], [6, 7, 2, 1, 9, 5, 3, 4, 8], [1, 9, 8, 3, 4, 2, 5, 6, 7],
   [8, 5, 9, 7, 6, 1, 4, 2, 3], [4, 2, 6, 8, 5, 3, 7, 9, 1], [7, 1, 3, 9, 2, 4, 8, 5, 6],
   [9, 6, 1, 5, 3, 7, 2, 8, 4], [2, 8, 7, 4, 1, 9, 6, 3, 5], [3, 4, 5, 2, 8, 6, 1, 7, 9]]

/-- The globals `solution_found` and `solution_board`. -/
structure Shared where
  solution_found : Int
  solution_board : Board

/-- The function `copy_board`: every cell of `dest` is assigned from `src`, in
the order of the two nested loops. -/
def copy_board (dest src : Board) : Board :=
  cells.foldl (fun d p => setCell d p.1 p.2 (src p.1 p.2)) dest

/-- The commit step, executed under `solution_lock`:
`if (!solution_found) { solution_found = 1; copy_board(solution_board, candidate); }`. -/
def commit (g : Shared) (candidate : Board) : Shared :=
  if g.solution_found = 0 then
    { solution_found := 1, solution_board := copy_board g.solution_board candidate }
  else g

/-- The `for (num = 1; num <= 9; num++)` loop of `solve_sudoku_sequential`, with
the recursive call passed in as `solve`. The reads of `solution_found` are
given by `reads`: the read number `k` sees a non-zero flag when `reads k` is
true; `k` counts the reads made so far and is returned with the result. -/
def tryDigitsChecked (solve : Nat → Board → Option (Bool × Board × Nat)) (reads : Nat → Bool)
    (row col : Fin 9) : List Int → Nat → Board → Option (Bool × Board × Nat)
  | [], k, board => some (false, board, k)
  | num :: rest, k, board =>
    if reads k then some (false, board, k + 1)
    else if is_safe board row col num then
      match solve (k + 1) (setCell board row col num) with
      | none => none
      | some (true, b1, k1) => some (true, b1, k1)
      | some (false, b1, k1) =>
        tryDigitsChecked solve reads row col rest k1 (setCell b1 row col UNASSIGNED)
    else tryDigitsChecked solve reads row col rest (k + 1) board

/-- The body of `solve_sudoku_sequential` with a bound on the recursion depth;
the result is the return value, the board left behind and the number of
reads of `solution_found` made so far. -/
def solve_sudoku_sequential_aux : Nat → (Nat → Bool) → Nat → Board → Option (Bool × Board × Nat)
  | 0, _, _, _ => none
  | fuel + 1, reads, k, board =>
    if reads k then some (false, board, k + 1)
    else
      match find_unassigned board with
      | none => some (true, board, k + 1)
      | some (row, col) =>
        tryDigitsChecked (solve_sudoku_sequential_aux fuel reads) reads row col digits (k + 1)
          board

/-- The function `solve_sudoku_sequential` under the reads `reads` of
`solution_found`; 82 levels are enough for the 81 cells of a board. -/
def solve_sudoku_sequential (reads : Nat → Bool) (board : Board) : Option (Bool × Board × Nat) :=
  solve_sudoku_sequential_aux 82 reads 0 board

/-- The body of a task created by `solve_sudoku_parallel`, run to completion on
its private board `new_board` from the globals `g`: while the task runs
alone, each of its reads of `solution_found` sees the value in `g`. -/
def runTask (fuel : Nat) (g : Shared) (new_board : Board) : Option Shared :=
  let local_found := g.solution_found
  if local_found ≠ 0 then some g
  else
    match solve_sudoku_sequential_aux fuel (fun _ => decide (g.solution_found ≠ 0)) 0
        new_board with
    | none => none
    | some (true, b1, _) => some (commit g b1)
    | some (false, _, _) => some g

/-- Tasks run to completion one after the other, in the order of the list. -/
def runTasks (fuel : Nat) : Shared → List Board → Option Shared
  | g, [] => some g
  | g, t :: rest =>
    match runTask fuel g t with
    | none => none
    | some g1 => runTasks fuel g1 rest

/-- A task schedule. Before the creating thread makes its check of
`solution_found` for the digit `num`, the pending tasks `atCheck num pending`.1
are run, in that order, and the tasks `atCheck num pending`.2 stay pending; the
tasks still pending at the `taskwait`, or at the barrier that ends the
parallel region, are run in the order `atWait pending`. -/
structure Sched where
  atCheck : Int → List Board → List Board × List Board
  atWait : List Board → List Board

/-- The schedule runs every pending task once: it only chooses when and in
what order. -/
def SchedOK (sc : Sched) : Prop :=
  (∀ num pending, ((sc.atCheck num pending).1 ++ (sc.atCheck num pending).2).Perm pending) ∧
  ∀ pending, (sc.atWait pending).Perm pending

/-- The contents of the local array `new_board` before `copy_board` fills it. -/
def freshBoard : Board := fun _ _ => 0

/-- The `for` loop of `solve_sudoku_parallel` at `depth == 0`: one task is
created for each safe digit. The result tells whether the loop was left by
`return`, and gives the tasks still pending and the globals. -/
def forkLoop (fuel : Nat) (sc : Sched) (board : Board) (row col : Fin 9) :
    List Int → List Board → Shared → Option (Bool × List Board × Shared)
  | [], pending, g => some (false, pending, g)
  | num :: rest, pending, g =>
    match runTasks fuel g (sc.atCheck num pending).1 with
    | none => none
    | some g1 =>
      if g1.solution_found ≠ 0 then some (true, (sc.atCheck num pending).2, g1)
      else if is_safe board row col num then
        forkLoop fuel sc board row col rest
          ((sc.atCheck num pending).2 ++ [setCell (copy_board freshBoard board) row col num]) g1
      else forkLoop fuel sc board row col rest (sc.atCheck num pending).2 g1

/-- The `for` loop of `solve_sudoku_parallel` at `depth != 0`: each safe digit
is tried in place with `solve_sudoku_sequential`. -/
def inPlaceDigits (fuel : Nat) (row col : Fin 9) :
    List Int → Board → Shared → Option (Board × Shared)
  | [], board, g => some (board, g)
  | num :: rest, board, g =>
    if g.solution_found ≠ 0 then some (board, g)
    else if is_safe board row col num then
      match solve_sudoku_sequential_aux fuel (fun _ => decide (g.solution_found ≠ 0)) 0
          (setCell board row col num) with
      | none => none
      | some (true, b1, _) => some (b1, commit g b1)
      | some (false, b1, _) =>
        inPlaceDigits fuel row col rest (setCell b1 row col UNASSIGNED) g
    else inPlaceDigits fuel row col rest board g

/-- The function `solve_sudoku_parallel`, with the bound `fuel` on the
recursion depth of the sequential searches it starts. The result is the
caller's board, the tasks still pending when the function returns, and the
globals. -/
def solve_sudoku_parallel_aux (fuel : Nat) (sc : Sched) (g : Shared) (board : Board)
    (depth : Int) : Option (Board × List Board × Shared) :=
  if g.solution_found ≠ 0 then some (board, [], g)
  else
    match find_unassigned board with
    | none => some (board, [], commit g board)
    | some (row, col) =>
      if depth = 0 then
        match forkLoop fuel sc board row col digits [] g with
        | none => none
        | some (true, pending, g1) => some (board, pending, g1)
        | some (false, pending, g1) =>
          match runTasks fuel g1 (sc.atWait pending) with
          | none => none
          | some g2 => some (board, [], g2)
      else
        match inPlaceDigits fuel row col digits board g with
        | none => none
        | some (b1, g1) => some (b1, [], g1)

/-- The function `solve_sudoku_parallel_wrapper` called with the globals `g0`,
with the bound `fuel` on the recursion depth of the sequential searches. The
result is the return value, the caller's board and the globals. -/
def solve_sudoku_parallel_wrapper_aux (fuel : Nat) (sc : Sched) (g0 : Shared) (board : Board) :
    Option (Bool × Board × Shared) :=
  let g : Shared := { solution_found := 0, solution_board := g0.solution_board }
  match solve_sudoku_parallel_aux fuel sc g board 0 with
  | none => none
  | some (b1, pending, g1) =>
    match runTasks fuel g1 (sc.atWait pending) with
    | none => none
    | some g2 =>
      if g2.solution_found ≠ 0 then some (true, copy_board b1 g2.solution_board, g2)
      else some (false, b1, g2)

/-- The function `solve_sudoku_parallel_wrapper`; 82 levels are enough for the
81 cells of a board. -/
def solve_sudoku_parallel_wrapper (sc : Sched) (g0 : Shared) (board : Board) :
    Option (Bool × Board × Shared) :=
  solve_sudoku_parallel_wrapper_aux 82 sc g0 board

/-- A board with the empty cells (0,0) and (8,8): the digit 5 fits the first, and then no
digit fits the second, whose row lacks only 4 while its column holds 4. -/
def deadEnd : Board := ofRows
  [[0, 3, 4, 6, 7, 8, 9, 1, 2], [6, 7, 2, 1, 9, 5, 3, 4, 8], [1, 9, 8, 3, 4, 2, 5, 6, 7],
   [8, 5, 9, 7, 6, 1, 4, 2, 3], [4, 2, 6, 8, 5, 3, 7, 9, 1], [7, 1, 3, 9, 2, 4, 8, 5, 6],
   [9, 6, 1, 5, 3, 7, 2, 8, 4], [2, 8, 7, 4, 1, 9, 6, 3, 5], [3, 9, 5, 2, 8, 6, 1, 7, 0]]

/-- A complete grid. -/
def fullGrid : Board := ofRows
  [[5, 3, 4, 6, 7, 8, 9, 1, 2], [6, 7, 2, 1, 9, 5, 3, 4, 8], [1, 9, 8, 3, 4, 2, 5, 6, 7],
   [8, 5, 9, 7, 6, 1, 4, 2, 3], [4, 2, 6, 8, 5, 3, 7, 9, 1], [7, 1, 3, 9, 2, 4, 8, 5, 6],
   [9, 6, 1, 5, 3, 7, 2, 8, 4], [2, 8, 7, 4, 1, 9, 6, 3, 5], [3, 4, 5, 2, 8, 6, 1, 7, 9]]

/-- The board `t` is the private board of a task created for the cell `(r, c)` of `b`. -/
def TaskOf (b : Board) (r c : Fin 9) (t : Board) : Prop :=
  ∃ num : Int, 1 ≤ num ∧ num ≤ 9 ∧ is_safe b r c num = true ∧ t = setCell b r c num

/-- The board `t` has no completion. -/
def Fails (t : Board) : Prop := ∀ x, ¬ Completes t x

/-- The schedule that defers every task to the end and then runs the tasks in the reverse
of the order of their creation. -/
def lazySched : Sched :=
  { atCheck := fun _ pending => ([], pending), atWait := fun pending => pending.reverse }

/-- The schedule that runs each task as soon as it can. -/
def eagerSched : Sched :=
  { atCheck := fun _ pending => (pending, []), atWait := fun pending => pending }

/-- The globals `g` with `solution_board` replaced by `sb` as long as no commit has been
made. -/
def rebase (sb : Board) (g : Shared) : Shared :=
  if g.solution_found = 0 then { solution_found := 0, solution_board := sb } else g

/-- Grid `g1` is at most grid `g2` in the lexicographic order of the digits the two hold at
the empty cells of `b`, taken in row-major order: they hold the same digits there, or at the
first empty cell where they differ `g1` holds the smaller digit. -/
def LexLe (b g1 g2 : Board) : Prop :=
  (∀ i j, b i j = 0 → g1 i j = g2 i j) ∨
  ∃ (l1 : List (Fin 9 × Fin 9)) (p : Fin 9 × Fin 9) (l2 : List (Fin 9 × Fin 9)),
    cells = l1 ++ p :: l2 ∧ b p.1 p.2 = 0 ∧ g1 p.1 p.2 < g2 p.1 p.2 ∧
    ∀ q ∈ l1, b q.1 q.2 = 0 → g1 q.1 q.2 = g2 q.1 q.2

/-- The board with 1 in every cell. -/
def allOnes : Board := fun _ _ => 1

end Sudoku

/-! ## N-Queens (`nqueens_solver.c`) -/

namespace NQueens

/-- The array `int *board`: the column of the queen of each row. -/
abbrev Board := Nat → Int

/-- The C library function `abs` on a 32-bit `int`: the negation is reduced to
the range of `int`, so that `abs(INT_MIN)` is `INT_MIN`. -/
def c_abs (x : Int) : Int := if x < 0 then wrap32 (-x) else x

/-- The absolute value of a mathematical integer, used on the specification
side. -/
def absZ (x : Int) : Int := if x < 0 then -x else x

/-- The assignment `board[row] = v`. -/
def setRow (board : Board) (row : Nat) (v : Int) : Board :=
  fun i => if i = row then v else board i

/-- The board initialised by `for (i = 0; i < n; i++) board[i] = -1`. -/
def emptyBoard : Board := fun _ => -1

/-- The function `is_safe`: the loop over the previous rows.  The differences
`row - i` and `col - queen_col` are `int` subtractions, reduced to the range
of `int`. -/
def is_safe (board : Board) (row : Nat) (col : Int) : Bool :=
  (List.range row).all (fun i =>
    let queen_col := board i
    if queen_col = col then false
    else if c_abs (wrap32 ((row : Int) - (i : Int))) = c_abs (wrap32 (col - queen_col)) then false
    else true)

/-- The `for (col = 0; col < n; col++)` loop of
`solve_nqueens_sequential_helper`, with the recursive call passed in as
`solve`; the state is the board and the counter `*solution_count`. -/
def seqLoop (solve : Board → Int → Option (Board × Int)) (row : Nat) :
    List Nat → Board → Int → Option (Board × Int)
  | [], board, count => some (board, count)
  | col :: rest, board, count =>
    if is_safe board row col then
      match solve (setRow board row col) count with
      | none => none
      | some (b1, c1) => seqLoop solve row rest (setRow b1 row (-1)) c1
    else seqLoop solve row rest board count

/-- The body of `solve_nqueens_sequential_helper` with a bound on the
recursion depth.  The counter `*solution_count` is an `int`: the increment
`(*solution_count)++` is reduced to the range of `int`. -/
def solve_nqueens_sequential_helper_aux : Nat → Board → Nat → Nat → Int → Option (Board × Int)
  | 0, _, _, _, _ => none
  | fuel + 1, board, row, n, count =>
    if row = n then some (board, wrap32 (count + 1))
    else seqLoop (fun b c => solve_nqueens_sequential_helper_aux fuel b (row + 1) n c)
      row (List.range n) board count

/-- The function `solve_nqueens_sequential_helper`; from row `row` the
recursion is at most `n - row + 1` levels deep. -/
def solve_nqueens_sequential_helper (board : Board) (row n : Nat) (count : Int) :
    Option (Board × Int) :=
  solve_nqueens_sequential_helper_aux (n + 1 - row) board row n count

/-- The column loop of `solve_nqueens_parallel` on its sequential path: the
queen is placed in the caller's board and never retracted. -/
def inPlaceLoop (solve : Board → Int → Option (Board × Int)) (row : Nat) :
    List Nat → Board → Int → Option (Board × Int)
  | [], board, count => some (board, count)
  | col :: rest, board, count =>
    if is_safe board row col then
      match solve (setRow board row col) count with
      | none => none
      | some (b1, c1) => inPlaceLoop solve row rest b1 c1
    else inPlaceLoop solve row rest board count

/-- The tasks forked by one call of `solve_nqueens_parallel`, each run to
completion on its private copy `task_board` of the parent's board; only the
shared counter is passed on, the copy is freed. -/
def runTasks (solve : Board → Int → Option (Board × Int)) (row : Nat) (board : Board) :
    List Nat → Int → Option Int
  | [], count => some count
  | col :: rest, count =>
    match solve (setRow board row col) count with
    | none => none
    | some (_, c1) => runTasks solve row board rest c1

/-- The body of `solve_nqueens_parallel` with a bound on the recursion depth.
The test `depth < 2 && row < n - 2` does not change during the column loop, so
it selects between the loop that forks a task for every safe column and the
loop that recurses in place.  `sched` is the order in which the tasks forked
by a call are run before its `taskwait`.  The printing of solutions is left
out, and the counter is an `int` as in the sequential helper. -/
def solve_nqueens_parallel_aux (sched : Nat → Board → List Nat → List Nat) :
    Nat → Board → Nat → Nat → Int → Int → Option (Board × Int)
  | 0, _, _, _, _, _ => none
  | fuel + 1, board, row, n, count, depth =>
    if row = n then some (board, wrap32 (count + 1))
    else if depth < 2 ∧ (row : Int) < (n : Int) - 2 then
      match runTasks (fun b c => solve_nqueens_parallel_aux sched fuel b (row + 1) n c
          (wrap32 (depth + 1))) row board
          (sched row board ((List.range n).filter (fun col => is_safe board row col))) count with
      | none => none
      | some c1 => some (board, c1)
    else inPlaceLoop (fun b c => solve_nqueens_parallel_aux sched fuel b (row + 1) n c
      (wrap32 (depth + 1))) row (List.range n) board count

/-- The function `solve_nqueens_parallel`. -/
def solve_nqueens_parallel (sched : Nat → Board → List Nat → List Nat) (board : Board)
    (row n : Nat) (count depth : Int) : Option (Board × Int) :=
  solve_nqueens_parallel_aux sched (n + 1 - row) board row n count depth

/-- A placement `q` of one queen per row in which no two queens share a column
or a diagonal. -/
def Valid (n : Nat) (q : Fin n → Fin n) : Prop :=
  ∀ i j : Fin n, i < j →
    q i ≠ q j ∧ absZ ((i.val : Int) - j.val) ≠ absZ (((q i).val : Int) - (q j).val)

instance (n : Nat) (q : Fin n → Fin n) : Decidable (Valid n q) := by
  unfold Valid; infer_instance

/-- The number of valid placements of `n` queens. -/
def validCount (n : Nat) : Nat :=
  (Finset.univ.filter (fun q : Fin n → Fin n => Valid n q)).card

/-- The valid placements that agree with `board` on the rows below `row`. -/
def sols (n : Nat) (board : Board) (row : Nat) : Finset (Fin n → Fin n) :=
  Finset.univ.filter (fun q : Fin n → Fin n =>
    Valid n q ∧ ∀ i : Fin n, i.val < row → ((q i).val : Int) = board i.val)

/-- The queens recorded in the rows below `row` are on the board and do not
attack each other. -/
def PrefixOK (n : Nat) (board : Board) (row : Nat) : Prop :=
  (∀ i, i < row → 0 ≤ board i ∧ board i < n) ∧
  ∀ i j, i < j → j < row →
    board i ≠ board j ∧ absZ ((i : Int) - j) ≠ absZ (board i - board j)

/-- The task order in which a parent runs its tasks in the order of creation. -/
def fifo : Nat → Board → List Nat → List Nat := fun _ _ l => l

/-- The task order in which a parent runs its tasks in reverse order of
creation. -/
def lifo : Nat → Board → List Nat → List Nat := fun _ _ l => l.reverse

/-- What a call at row `row` yields: the `int` counter is advanced by the
number of valid placements that agree with the board below `row`, and the rows
below `row` are left as they were. -/
def CallSpec (n row : Nat) (solve : Board → Int → Option (Board × Int)) : Prop :=
  ∀ b c, PrefixOK n b row → INT_MIN ≤ c → c ≤ INT_MAX →
    ∃ b1, solve b c = some (b1, wrap32 (c + ((sols n b row).card : Int))) ∧
      ∀ i, i < row → b1 i = b i

/-- The number of valid placements below the placement of column `col` in row
`row` of board `B`. -/
def below (n : Nat) (B : Board) (row : Nat) (col : Nat) : Int :=
  ((sols n (setRow B row (col : Int)) (row + 1)).card : Int)

/-- The initialisation loop of `solve_nqueens`: `board[i] = -1` for `i < n`. -/
def initBoard (fresh : Board) (n : Nat) : Board :=
  (List.range n).foldl (fun b i => setRow b i (-1)) fresh

/-- The function `solve_nqueens`, with the printing left out. `alloc_ok` tells whether
`malloc` returned a block, `fresh` is the content of that block. The function makes no test
of `num_threads`: the value is printed and handed to the clause `num_threads(num_threads)`
of the parallel region. What becomes of the region is up to the OpenMP runtime, which is not
part of the program: `team_starts k` tells whether the runtime runs a region that asks for
`k` threads. If it does, the single construct makes one call of `solve_nqueens_parallel` and
the counter is returned; if it does not, the runtime ends the program and the function does
not return (`none`). -/
def solve_nqueens (sched : Nat → Board → List Nat → List Nat) (team_starts : Int → Bool)
    (alloc_ok : Bool) (fresh : Board) (n : Nat) (num_threads : Int) : Option Int :=
  if alloc_ok = false then some (-1)
  else if team_starts num_threads = false then none
  else
    match solve_nqueens_parallel sched (initBoard fresh n) 0 n 0 0 with
    | none => none
    | some (_, solution_count) => some solution_count

/-- A runtime in the manner of GNU libgomp: a request for 0 threads counts as no request
and the region runs with the default team, a positive request is served, and a negative
request, which the runtime reads as an unsigned number, ends the program. -/
def gomp_team_starts (num_threads : Int) : Bool := decide (0 ≤ num_threads)

/-- The placement `i ↦ (a * i + b) mod p` of `p` queens, one per row. -/
def linearQ (p : Nat) (hp : 0 < p) (a b : Nat) : Fin p → Fin p :=
  fun i => ⟨(a * i.val + b) % p, Nat.mod_lt _ hp⟩

end NQueens
/-! ## Game tree search (`game_tree_search.c`) -/

namespace GameTree

/-- The macro `EMPTY`. -/
def EMPTY : Int := 0

/-- The macro `PLAYER_X`. -/
def PLAYER_X : Int := 1

/-- The macro `PLAYER_O`. -/
def PLAYER_O : Int := 2

/-- The macro `TASK_DEPTH_THRESHOLD`. -/
def TASK_DEPTH_THRESHOLD : Int := 3

/-- The struct `GameState`: `int board[3][3]` and `int move_count`. -/
structure GameState where
  board : Fin 3 → Fin 3 → Int
  move_count : Int

/-- The struct `Move`. -/
structure Move where
  row : Int
  col : Int
  score : Int
  deriving DecidableEq

/-- The index range `0 .. BOARD_SIZE-1` of the `for` loops. -/
def idx : List (Fin 3) := [0, 1, 2]

/-- All cells in the order of the nested `for (i) for (j)` loops. -/
def cells : List (Fin 3 × Fin 3) := idx.flatMap (fun i => idx.map (fun j => (i, j)))

/-- The function `init_board`. -/
def init_board : GameState := { board := fun _ _ => EMPTY, move_count := 0 }

/-- The function `check_winner`: rows, then columns, then the two diagonals. -/
def check_winner (s : GameState) : Int :=
  match idx.find? (fun i => s.board i 0 != EMPTY && s.board i 0 == s.board i 1 &&
      s.board i 1 == s.board i 2) with
  | some i => s.board i 0
  | none =>
    match idx.find? (fun j => s.board 0 j != EMPTY && s.board 0 j == s.board 1 j &&
        s.board 1 j == s.board 2 j) with
    | some j => s.board 0 j
    | none =>
      if s.board 0 0 ≠ EMPTY ∧ s.board 0 0 = s.board 1 1 ∧ s.board 1 1 = s.board 2 2 then
        s.board 0 0
      else if s.board 0 2 ≠ EMPTY ∧ s.board 0 2 = s.board 1 1 ∧ s.board 1 1 = s.board 2 0 then
        s.board 0 2
      else 0

/-- The function `is_board_full`. -/
def is_board_full (s : GameState) : Bool := decide (s.move_count ≥ 3 * 3)

/-- The function `make_move`. -/
def make_move (s : GameState) (row col : Fin 3) (player : Int) : GameState :=
  if s.board row col = EMPTY then
    { board := fun i j => if i = row ∧ j = col then player else s.board i j,
      move_count := wrap32 (s.move_count + 1) }
  else s

/-- The function `undo_move`. -/
def undo_move (s : GameState) (row col : Fin 3) : GameState :=
  if s.board row col ≠ EMPTY then
    { board := fun i j => if i = row ∧ j = col then EMPTY else s.board i j,
      move_count := wrap32 (s.move_count - 1) }
  else s

/-- The function `evaluate_position`. -/
def evaluate_position (s : GameState) : Int :=
  let winner := check_winner s
  if winner = PLAYER_X then 10
  else if winner = PLAYER_O then -10
  else 0

/-- The value returned at a state with a winner:
`score - (is_maximizing ? depth : -depth)`, in 32-bit arithmetic. -/
def terminalScore (s : GameState) (depth : Int) (is_maximizing : Bool) : Int :=
  wrap32 (evaluate_position s - (if is_maximizing then depth else wrap32 (-depth)))

/-- The move loop of the maximizing branch of `minimax_sequential`, with the
recursive call passed in as `eval`; the state is threaded through
`make_move`, the call and `undo_move`. -/
def seqMaxLoop (eval : GameState → Int → Int → Option (Int × GameState)) :
    List (Fin 3 × Fin 3) → GameState → Int → Int → Int → Option (Int × GameState)
  | [], s, max_eval, _, _ => some (max_eval, s)
  | (i, j) :: rest, s, max_eval, alpha, beta =>
    if s.board i j = EMPTY then
      match eval (make_move s i j PLAYER_X) alpha beta with
      | none => none
      | some (e, s1) =>
        let s2 := undo_move s1 i j
        let max_eval1 := if e > max_eval then e else max_eval
        let alpha1 := if alpha > e then alpha else e
        if beta ≤ alpha1 then some (max_eval1, s2)
        else seqMaxLoop eval rest s2 max_eval1 alpha1 beta
    else seqMaxLoop eval rest s max_eval alpha beta

/-- The move loop of the minimizing branch of `minimax_sequential`. -/
def seqMinLoop (eval : GameState → Int → Int → Option (Int × GameState)) :
    List (Fin 3 × Fin 3) → GameState → Int → Int → Int → Option (Int × GameState)
  | [], s, min_eval, _, _ => some (min_eval, s)
  | (i, j) :: rest, s, min_eval, alpha, beta =>
    if s.board i j = EMPTY then
      match eval (make_move s i j PLAYER_O) alpha beta with
      | none => none
      | some (e, s1) =>
        let s2 := undo_move s1 i j
        let min_eval1 := if e < min_eval then e else min_eval
        let beta1 := if beta < e then beta else e
        if beta1 ≤ alpha then some (min_eval1, s2)
        else seqMinLoop eval rest s2 min_eval1 alpha beta1
    else seqMinLoop eval rest s min_eval alpha beta

/-- The body of `minimax_sequential` with a bound on the recursion depth; the
result is the returned score and the state left behind.  The statistics
counters are left out. -/
def minimax_sequential_aux :
    Nat → GameState → Int → Bool → Int → Int → Option (Int × GameState)
  | 0, _, _, _, _, _ => none
  | fuel + 1, s, depth, is_maximizing, alpha, beta =>
    if check_winner s ≠ 0 then some (terminalScore s depth is_maximizing, s)
    else if is_board_full s then some (0, s)
    else if is_maximizing then
      seqMaxLoop (fun s1 a b => minimax_sequential_aux fuel s1 (wrap32 (depth + 1)) false a b)
        cells s INT_MIN alpha beta
    else
      seqMinLoop (fun s1 a b => minimax_sequential_aux fuel s1 (wrap32 (depth + 1)) true a b)
        cells s INT_MAX alpha beta

/-- The function `minimax_sequential`; ten levels are enough for nine cells. -/
def minimax_sequential (s : GameState) (depth : Int) (is_maximizing : Bool)
    (alpha beta : Int) : Option (Int × GameState) :=
  minimax_sequential_aux 10 s depth is_maximizing alpha beta

/-- The cells collected into `moves[]`: the empty cells in loop order. -/
def emptyCells (s : GameState) : List (Fin 3 × Fin 3) :=
  cells.filter (fun p => s.board p.1 p.2 == EMPTY)

/-- The tasks created for the collected moves: each one copies the state,
makes its move on the copy, evaluates the copy with `eval` and stores the
score in its own slot of `moves[]`. -/
def runTasks (eval : GameState → Option Int) (s : GameState) (player : Int) :
    List (Fin 3 × Fin 3) → Option (List Int)
  | [] => some []
  | (i, j) :: rest =>
    match eval (make_move s i j player) with
    | none => none
    | some e =>
      match runTasks eval s player rest with
      | none => none
      | some es => some (e :: es)

/-- The loop `if (moves[m].score > max_eval) max_eval = moves[m].score`. -/
def maxScore (scores : List Int) (max_eval : Int) : Int :=
  scores.foldl (fun m e => if e > m then e else m) max_eval

/-- The loop `if (moves[m].score < min_eval) min_eval = moves[m].score`. -/
def minScore (scores : List Int) (min_eval : Int) : Int :=
  scores.foldl (fun m e => if e < m then e else m) min_eval

/-- The body of `minimax_parallel` with a bound on the recursion depth.  The
updates of the local `alpha` and `beta` after the `taskwait` have no effect
and are left out, as are the statistics counters and the printing. -/
def minimax_parallel_aux :
    Nat → GameState → Int → Bool → Int → Int → Int → Option (Int × GameState)
  | 0, _, _, _, _, _, _ => none
  | fuel + 1, s, depth, is_maximizing, alpha, beta, task_depth =>
    if check_winner s ≠ 0 then some (terminalScore s depth is_maximizing, s)
    else if is_board_full s then some (0, s)
    else if task_depth ≥ TASK_DEPTH_THRESHOLD then
      minimax_sequential_aux (fuel + 1) s depth is_maximizing alpha beta
    else if is_maximizing then
      match runTasks (fun s1 => (minimax_parallel_aux fuel s1 (wrap32 (depth + 1)) false
          alpha beta (wrap32 (task_depth + 1))).map Prod.fst) s PLAYER_X (emptyCells s) with
      | none => none
      | some scores => some (maxScore scores INT_MIN, s)
    else
      match runTasks (fun s1 => (minimax_parallel_aux fuel s1 (wrap32 (depth + 1)) true
          alpha beta (wrap32 (task_depth + 1))).map Prod.fst) s PLAYER_O (emptyCells s) with
      | none => none
      | some scores => some (minScore scores INT_MAX, s)

/-- The function `minimax_parallel`. -/
def minimax_parallel (s : GameState) (depth : Int) (is_maximizing : Bool)
    (alpha beta task_depth : Int) : Option (Int × GameState) :=
  minimax_parallel_aux 10 s depth is_maximizing alpha beta task_depth

/-- The entry of `moves[]` for a cell and its score. -/
def mkMove (p : Fin 3 × Fin 3) (score : Int) : Move :=
  { row := (p.1.val : Int), col := (p.2.val : Int), score := score }

/-- The selection loop of `find_best_move_parallel`. -/
def selectBest (player : Int) : List Move → Move → Move
  | [], best => best
  | m :: rest, best =>
    if player = PLAYER_X then
      selectBest player rest (if m.score > best.score then m else best)
    else
      selectBest player rest (if m.score < best.score then m else best)

/-- The scores the root tasks of `find_best_move_parallel` store in `moves[]`,
in the order of the collected moves. -/
def rootScores (s : GameState) (player : Int) : Option (List Int) :=
  runTasks (fun s1 => (minimax_parallel s1 1 (if player = PLAYER_X then false else true)
    INT_MIN INT_MAX 1).map Prod.fst) s player (emptyCells s)

/-- The function `find_best_move_parallel`. -/
def find_best_move_parallel (s : GameState) (player : Int) : Option Move :=
  match rootScores s player with
  | none => none
  | some scores =>
    some (selectBest player (List.zipWith mkMove (emptyCells s) scores)
      { row := -1, col := -1, score := if player = PLAYER_X then INT_MIN else INT_MAX })

/-- The state given by the rows of its board and its move count. -/
def ofRows (rows : List (List Int)) (move_count : Int) : GameState :=
  { board := fun i j => (rows.getD i.val []).getD j.val 0, move_count := move_count }

/-- The maximizing move loop of alpha-beta search as a function of the state
alone: the same moves, bounds and cut-off as `seqMaxLoop`, each child being
`make_move` applied to the fixed state `s`. -/
def abMaxLoop (eval : GameState → Int → Int → Int) (s : GameState) :
    List (Fin 3 × Fin 3) → Int → Int → Int → Int
  | [], max_eval, _, _ => max_eval
  | (i, j) :: rest, max_eval, alpha, beta =>
    if s.board i j = EMPTY then
      let e := eval (make_move s i j PLAYER_X) alpha beta
      let max_eval1 := if e > max_eval then e else max_eval
      let alpha1 := if alpha > e then alpha else e
      if beta ≤ alpha1 then max_eval1
      else abMaxLoop eval s rest max_eval1 alpha1 beta
    else abMaxLoop eval s rest max_eval alpha beta

/-- The minimizing move loop of alpha-beta search as a function of the state
alone. -/
def abMinLoop (eval : GameState → Int → Int → Int) (s : GameState) :
    List (Fin 3 × Fin 3) → Int → Int → Int → Int
  | [], min_eval, _, _ => min_eval
  | (i, j) :: rest, min_eval, alpha, beta =>
    if s.board i j = EMPTY then
      let e := eval (make_move s i j PLAYER_O) alpha beta
      let min_eval1 := if e < min_eval then e else min_eval
      let beta1 := if beta < e then beta else e
      if beta1 ≤ alpha then min_eval1
      else abMinLoop eval s rest min_eval1 alpha beta1
    else abMinLoop eval s rest min_eval alpha beta

/-- The score computed by `minimax_sequential`, as a function of the state
alone (no state is passed back). -/
def alphabeta : Nat → GameState → Int → Bool → Int → Int → Int
  | 0, _, _, _, _, _ => 0
  | fuel + 1, s, depth, is_maximizing, alpha, beta =>
    if check_winner s ≠ 0 then terminalScore s depth is_maximizing
    else if is_board_full s then 0
    else if is_maximizing then
      abMaxLoop (fun s1 a b => alphabeta fuel s1 (wrap32 (depth + 1)) false a b)
        s cells INT_MIN alpha beta
    else
      abMinLoop (fun s1 a b => alphabeta fuel s1 (wrap32 (depth + 1)) true a b)
        s cells INT_MAX alpha beta

/-- The pruning-free minimax value, with the terminal scores and the move
enumeration of `minimax_sequential`. -/
def mm : Nat → GameState → Int → Bool → Int
  | 0, _, _, _ => 0
  | fuel + 1, s, depth, is_maximizing =>
    if check_winner s ≠ 0 then terminalScore s depth is_maximizing
    else if is_board_full s then 0
    else if is_maximizing then
      maxScore ((emptyCells s).map
        (fun p => mm fuel (make_move s p.1 p.2 PLAYER_X) (wrap32 (depth + 1)) false)) INT_MIN
    else
      minScore ((emptyCells s).map
        (fun p => mm fuel (make_move s p.1 p.2 PLAYER_O) (wrap32 (depth + 1)) true)) INT_MAX

/-- The number of empty cells of a state. -/
def emptyCount (s : GameState) : Nat :=
  (Finset.univ.filter (fun p : Fin 3 × Fin 3 => s.board p.1 p.2 = EMPTY)).card

/-- The number of marks (non-empty cells) of a state. -/
def markCount (s : GameState) : Nat :=
  (Finset.univ.filter (fun p : Fin 3 × Fin 3 => s.board p.1 p.2 ≠ EMPTY)).card

/-- The field `move_count` holds a value of the C type `int`. -/
def InRange (s : GameState) : Prop := INT_MIN ≤ s.move_count ∧ s.move_count ≤ INT_MAX

instance (s : GameState) : Decidable (InRange s) := by
  unfold InRange; infer_instance

/-- The relation between the result `v` of an alpha-beta search with window
`(a, b)` and the minimax value `m`: a result at or below the window bounds the
value from above, a result inside the window is the value, a result at or
above the window bounds the value from below. -/
def Bounds (v m a b : Int) : Prop :=
  (v ≤ a → m ≤ v) ∧ (a < v → v < b → m = v) ∧ (b ≤ v → v ≤ m)

/-- The values of the children of `s` for the moves of `player` on the empty
cells among `l`. -/
def childVals (val : GameState → Int) (s : GameState) (player : Int)
    (l : List (Fin 3 × Fin 3)) : List Int :=
  (l.filter (fun p => s.board p.1 p.2 == EMPTY)).map
    (fun p => val (make_move s p.1 p.2 player))

/-- The state of Test 2 of `run_automated_test`. -/
def test2State : GameState := ofRows [[2, 2, 0], [0, 1, 0], [0, 0, 0]] 3

/-- The eight lines of the board, in the order in which `check_winner`
inspects them. -/
def lines : List ((Fin 3 × Fin 3) × (Fin 3 × Fin 3) × (Fin 3 × Fin 3)) :=
  [((0, 0), (0, 1), (0, 2)), ((1, 0), (1, 1), (1, 2)), ((2, 0), (2, 1), (2, 2)),
   ((0, 0), (1, 0), (2, 0)), ((0, 1), (1, 1), (2, 1)), ((0, 2), (1, 2), (2, 2)),
   ((0, 0), (1, 1), (2, 2)), ((0, 2), (1, 1), (2, 0))]

/-- The three cells of a line. -/
def cellsOf (l : (Fin 3 × Fin 3) × (Fin 3 × Fin 3) × (Fin 3 × Fin 3)) : List (Fin 3 × Fin 3) :=
  [l.1, l.2.1, l.2.2]

/-- The line consists of three equal non-empty marks. -/
def lineFull (s : GameState) (l : (Fin 3 × Fin 3) × (Fin 3 × Fin 3) × (Fin 3 × Fin 3)) : Bool :=
  s.board l.1.1 l.1.2 != EMPTY && s.board l.1.1 l.1.2 == s.board l.2.1.1 l.2.1.2 &&
    s.board l.2.1.1 l.2.1.2 == s.board l.2.2.1 l.2.2.2

/-- The score `find_best_move_parallel` computes for the top-level move of
`player` on cell `p`: the minimax value of the state after the move. -/
def topScore (s : GameState) (player : Int) (p : Fin 3 × Fin 3) : Int :=
  mm 10 (make_move s p.1 p.2 player) 1 (if player = PLAYER_X then false else true)

/-- The field `move_count` is the number of marks on the board. -/
def CountOK (s : GameState) : Prop := s.move_count = (markCount s : Int)

instance (s : GameState) : Decidable (CountOK s) := by
  unfold CountOK; infer_instance

/-- Cell `c` is empty and completes a line whose other two cells hold X. -/
def Completing (s : GameState) (c : Fin 3 × Fin 3) : Prop :=
  s.board c.1 c.2 = EMPTY ∧
    ∃ l ∈ lines, c ∈ cellsOf l ∧ ∀ p ∈ cellsOf l, p ≠ c → s.board p.1 p.2 = PLAYER_X

instance (s : GameState) (c : Fin 3 × Fin 3) : Decidable (Completing s c) := by
  unfold Completing; infer_instance

/-- The state of Test 1 of `run_automated_test`. -/
def test1State : GameState := ofRows [[1, 1, 0], [2, 2, 0], [0, 0, 0]] 4

/-- The state of Test 1 after X has completed the top row. -/
def wonState : GameState := ofRows [[1, 1, 1], [2, 2, 0], [0, 0, 0]] 5

/-- A state in which two cells complete a line of X. -/
def tieState : GameState := ofRows [[0, 0, 0], [1, 1, 2], [1, 2, 2]] 6

/-- A state in which X can win at once and can also set up a double threat. -/
def forkState : GameState := ofRows [[0, 0, 0], [2, 1, 2], [1, 2, 1]] 6

/-- A state in which O threatens to complete the bottom row. -/
def blockState : GameState := ofRows [[0, 0, 0], [0, 0, 1], [0, 2, 2]] 3

end GameTree

/-! ## Merge sort (`parallel_merge_sort.c`): definitions -/

namespace MergeSort

/-- The constant `PARALLEL_THRESHOLD`. -/
def PARALLEL_THRESHOLD : Nat := 5000

/-- The constant `MAX_TASK_DEPTH`. -/
def MAX_TASK_DEPTH : Int := 5

/-- An `int` array, as the value held at each index. Indices are natural numbers: every
call made by the sorting functions has `0 <= left <= mid < right`. -/
abbrev Arr := Nat → Int

/-- The assignment `arr[k] = v`. -/
def setAt (arr : Arr) (k : Nat) (v : Int) : Arr := fun t => if t = k then v else arr t

/-- The call `memcpy(&dst[k], &src[i], cnt * sizeof(int))` on arrays that do not overlap. -/
def memcpy (dst : Arr) (k : Nat) (src : Arr) (i cnt : Nat) : Arr :=
  fun t => if k ≤ t ∧ t < k + cnt then src (i + (t - k)) else dst t

/-- The contents of a temporary array before it is filled. -/
def freshArr : Arr := fun _ => 0

/-- The statement `arr[k++] = (L[i] <= R[j]) ? L[i++] : R[j++];` on the state
`(i, j, k, arr)`. -/
def mergeStep (L R : Arr) (st : Nat × Nat × Nat × Arr) : Nat × Nat × Nat × Arr :=
  if L st.1 ≤ R st.2.1 then (st.1 + 1, st.2.1, st.2.2.1 + 1, setAt st.2.2.2 st.2.2.1 (L st.1))
  else (st.1, st.2.1 + 1, st.2.2.1 + 1, setAt st.2.2.2 st.2.2.1 (R st.2.1))

/-- The loop `while (i < n1 && j < n2)` of `merge`, with its branch that runs the statement
four times, on the state `(i, j, k, arr)` and with a bound on the number of rounds. -/
def mergeLoop (L R : Arr) (n1 n2 : Nat) :
    Nat → Nat × Nat × Nat × Arr → Option (Nat × Nat × Nat × Arr)
  | 0, _ => none
  | fuel + 1, st =>
    if st.1 < n1 ∧ st.2.1 < n2 then
      if st.1 + 3 < n1 ∧ st.2.1 + 3 < n2 then
        mergeLoop L R n1 n2 fuel (mergeStep L R (mergeStep L R (mergeStep L R (mergeStep L R st))))
      else mergeLoop L R n1 n2 fuel (mergeStep L R st)
    else some st

/-- The function `merge`. The temporary arrays `L` and `R` are on the stack or on the heap
according to their sizes, which makes no difference to the values; allocation is taken to
succeed. Every round of the loop advances `i` or `j`, so `n1 + n2 + 1` rounds are enough. -/
def merge (arr : Arr) (left mid right : Nat) : Option Arr :=
  let n1 := mid - left + 1
  let n2 := right - mid
  let L := memcpy freshArr 0 arr left n1
  let R := memcpy freshArr 0 arr (mid + 1) n2
  match mergeLoop L R n1 n2 (n1 + n2 + 1) (0, 0, left, arr) with
  | none => none
  | some (i, j, k, a1) =>
    let a2 := if i < n1 then memcpy a1 k L i (n1 - i) else a1
    let a3 := if j < n2 then memcpy a2 k R j (n2 - j) else a2
    some a3

/-- The body of `merge_sort_sequential` with a bound on the recursion depth. -/
def merge_sort_sequential_aux : Nat → Arr → Nat → Nat → Option Arr
  | 0, _, _, _ => none
  | fuel + 1, arr, left, right =>
    if left < right then
      let mid := left + (right - left) / 2
      match merge_sort_sequential_aux fuel arr left mid with
      | none => none
      | some a1 =>
        match merge_sort_sequential_aux fuel a1 (mid + 1) right with
        | none => none
        | some a2 => merge a2 left mid right
    else some arr

/-- The function `merge_sort_sequential`; the recursion is at most `right - left + 1` levels
deep. -/
def merge_sort_sequential (arr : Arr) (left right : Nat) : Option Arr :=
  merge_sort_sequential_aux (right - left + 1) arr left right

/-- The body of `merge_sort_parallel_helper` with a bound on the recursion depth; the two
tasks are run as calls, one after the other, before the `taskwait`. -/
def merge_sort_parallel_helper_aux : Nat → Arr → Nat → Nat → Int → Option Arr
  | 0, _, _, _, _ => none
  | fuel + 1, arr, left, right, depth =>
    if left ≥ right then some arr
    else if right - left + 1 < PARALLEL_THRESHOLD ∨ depth ≥ MAX_TASK_DEPTH then
      merge_sort_sequential arr left right
    else
      let mid := left + (right - left) / 2
      match merge_sort_parallel_helper_aux fuel arr left mid (depth + 1) with
      | none => none
      | some a1 =>
        match merge_sort_parallel_helper_aux fuel a1 (mid + 1) right (depth + 1) with
        | none => none
        | some a2 => merge a2 left mid right

/-- The function `merge_sort_parallel_helper`. -/
def merge_sort_parallel_helper (arr : Arr) (left right : Nat) (depth : Int) : Option Arr :=
  merge_sort_parallel_helper_aux (right - left + 1) arr left right depth

/-- The function `merge_sort_parallel`. -/
def merge_sort_parallel (arr : Arr) (left right : Nat) : Option Arr :=
  merge_sort_parallel_helper arr left right 0

/-- The function `parallel_merge_sort`, with the printing left out. -/
def parallel_merge_sort (arr : Arr) (size : Nat) : Option Arr :=
  merge_sort_parallel arr 0 (size - 1)

/-- The function `is_sorted`. -/
def is_sorted (arr : Arr) (size : Nat) : Bool :=
  (List.range (size - 1)).all (fun i => !(decide (arr i > arr (i + 1))))

/-- The array given by a list (0 beyond its end). -/
def ofList (l : List Int) : Arr := fun i => l.getD i 0

/-- The first `n` values of the array from index `lo` on. -/
def seg (arr : Arr) (lo n : Nat) : List Int := (List.range n).map (fun t => arr (lo + t))

/-- The array is in non-decreasing order on the indices `lo <= t < hi`. -/
def Sorted (arr : Arr) (lo hi : Nat) : Prop := ∀ a b, lo ≤ a → a ≤ b → b < hi → arr a ≤ arr b

/-- The invariant of the loop of `merge` on the state `(i, j, k, arr)`: `k = left + i + j`,
the array is as at the call outside `left <= t < k`, and the part `left <= t < k` holds the
first `i` values of `L` and the first `j` values of `R`, in order, none above the values of
`L` and `R` still to come. -/
def MInv (arr0 L R : Arr) (left n1 n2 : Nat) (st : Nat × Nat × Nat × Arr) : Prop :=
  st.1 ≤ n1 ∧ st.2.1 ≤ n2 ∧ st.2.2.1 = left + st.1 + st.2.1 ∧
  (∀ t, (t < left ∨ st.2.2.1 ≤ t) → st.2.2.2 t = arr0 t) ∧
  (seg st.2.2.2 left (st.1 + st.2.1)).Perm (seg L 0 st.1 ++ seg R 0 st.2.1) ∧
  Sorted st.2.2.2 left st.2.2.1 ∧
  ∀ a, left ≤ a → a < st.2.2.1 →
    (st.1 < n1 → st.2.2.2 a ≤ L st.1) ∧ (st.2.1 < n2 → st.2.2.2 a ≤ R st.2.1)

/-- What a sorting call on `arr[left..right]` yields: an array whose part `left..right` is
sorted and holds the values it held in `arr`, and which is `arr` elsewhere. -/
def SortSpec (arr : Arr) (left right : Nat) (o : Option Arr) : Prop :=
  ∃ a, o = some a ∧ Sorted a left (right + 1) ∧
    (seg a left (right + 1 - left)).Perm (seg arr left (right + 1 - left)) ∧
    ∀ t, (t < left ∨ right < t) → a t = arr t

/-- The test that `arr[lo] <= arr[lo+1] <= ... ` up to index `hi - 1`, pair by pair. -/
def sortedCheck (arr : Arr) (lo hi : Nat) : Bool :=
  (List.range (hi - lo - 1)).all (fun t => decide (arr (lo + t) ≤ arr (lo + t + 1)))

end MergeSort

/-! ## Run-length compression (`parallel_file_compressor.c`): definitions -/

namespace Compressor

/-- The constant `CHUNK_SIZE`. -/
def CHUNK_SIZE : Nat := 1024

/-- A block of bytes, each held as the value of an `unsigned char`. -/
abbrev Bytes := Nat → Nat

/-- The assignment `output[pos] = v` into a buffer of `max_output_size` bytes; `none` when
`pos` is outside the buffer. -/
def store (max_output_size : Nat) (output : Bytes) (pos : Nat) (v : Nat) : Option Bytes :=
  if pos < max_output_size then some (fun t => if t = pos then v else output t) else none

/-- Consecutive stores of the bytes of a list from `pos` on. -/
def storeList (max_output_size : Nat) : Bytes → Nat → List Nat → Option Bytes
  | output, _, [] => some output
  | output, pos, v :: rest =>
    match store max_output_size output pos v with
    | none => none
    | some o1 => storeList max_output_size o1 (pos + 1) rest

/-- The call `snprintf(output + out_pos, size, "@%c%c", a, b)`: it writes what fits into
`size` bytes of the three characters `@`, `a`, `b` followed by a NUL (nothing when `size` is
0; a negative `size`, converted to an unsigned size, is no limit). Its return value is 3
whatever was written, so only the buffer is given here. -/
def snprintf_marker (max_output_size : Nat) (output : Bytes) (out_pos : Nat) (size : Int)
    (a b : Nat) : Option Bytes :=
  if size = 0 then some output
  else
    storeList max_output_size output out_pos
      (([64, a, b] : List Nat).take (if size < 0 then 3 else min 3 (size - 1).toNat) ++ [0])

/-- The loop `while (i + count < input_size && input[i + count] == current && count < 255)
count++`; 255 steps are enough. -/
def countRun (input : Bytes) (input_size i current : Nat) : Nat → Nat → Nat
  | 0, count => count
  | fuel + 1, count =>
    if i + count < input_size ∧ input (i + count) = current ∧ count < 255 then
      countRun input input_size i current fuel (count + 1)
    else count

/-- The loop `for (j = 0; j < count && out_pos < max_output_size - 1; j++)
output[out_pos++] = current`, by the number of rounds left. -/
def writeRun (max_output_size : Nat) (current : Nat) : Nat → Nat → Bytes → Option (Nat × Bytes)
  | 0, out_pos, output => some (out_pos, output)
  | left + 1, out_pos, output =>
    if (out_pos : Int) < (max_output_size : Int) - 1 then
      match store max_output_size output out_pos current with
      | none => none
      | some o1 => writeRun max_output_size current left (out_pos + 1) o1
    else some (out_pos, output)

/-- What one round of the main loop of `compress_rle` writes for a run of `count` bytes
`current`: the new `out_pos` and the buffer. -/
def emitRun (max_output_size : Nat) (count current : Nat) (out_pos : Nat) (output : Bytes) :
    Option (Nat × Bytes) :=
  if count ≥ 3 then
    if count ≤ 9 ∧ current ≠ 64 then
      match store max_output_size output out_pos (48 + count) with
      | none => none
      | some o1 =>
        match store max_output_size o1 (out_pos + 1) current with
        | none => none
        | some o2 => some (out_pos + 2, o2)
    else
      match snprintf_marker max_output_size output out_pos
          ((max_output_size : Int) - (out_pos : Int)) (count % 256) current with
      | none => none
      | some o1 => some (out_pos + 3, o1)
  else if current = 64 then
    match snprintf_marker max_output_size output out_pos
        ((max_output_size : Int) - (out_pos : Int)) (count % 256) current with
    | none => none
    | some o1 => some (out_pos + 3, o1)
  else writeRun max_output_size current count out_pos output

/-- The main loop of `compress_rle` with a bound on the number of rounds; the result is the
final `i`, the final `out_pos` and the buffer. The result `none` stands for a store outside
the buffer, or for an exhausted bound. -/
def rleLoop (input : Bytes) (input_size max_output_size : Nat) :
    Nat → Nat → Nat → Bytes → Option (Nat × Nat × Bytes)
  | 0, _, _, _ => none
  | fuel + 1, i, out_pos, output =>
    if i < input_size ∧ (out_pos : Int) < (max_output_size : Int) - 10 then
      match emitRun max_output_size (countRun input input_size i (input i) 255 1) (input i)
          out_pos output with
      | none => none
      | some (p, o1) =>
        rleLoop input input_size max_output_size fuel
          (i + countRun input input_size i (input i) 255 1) p o1
    else some (i, out_pos, output)

/-- The function `compress_rle`: the return value and the output buffer. Every round of the
main loop consumes at least one byte, so `input_size + 1` rounds are enough. -/
def compress_rle (input : Bytes) (input_size : Nat) (output : Bytes) (max_output_size : Nat) :
    Option (Nat × Bytes) :=
  if input_size = 0 then some (0, output)
  else
    match rleLoop input input_size max_output_size (input_size + 1) 0 0 output with
    | none => none
    | some (_, out_pos, o1) =>
      match store max_output_size o1 out_pos 0 with
      | none => none
      | some o2 => some (out_pos, o2)

/-- The bytes of a list as a block (0 beyond its end). -/
def ofList (l : List Nat) : Bytes := fun i => l.getD i 0

/-- The input of the example of the documentation, "AAABBBCC". -/
def exampleInput : Bytes := ofList [65, 65, 65, 66, 66, 66, 67, 67]

/-- The bytes `compress_rle` emits for a run of `count` bytes `current`. -/
def runCode (count current : Nat) : List Nat :=
  if count ≥ 3 then
    if count ≤ 9 ∧ current ≠ 64 then [48 + count, current]
    else [64, count % 256, current]
  else if current = 64 then [64, count % 256, current]
  else List.replicate count current

/-- The output of `compress_rle` when no limit of the output buffer interferes: the codes of
the runs the main loop finds from index `i` on. -/
def encodeFrom (input : Bytes) (input_size : Nat) : Nat → Nat → List Nat
  | 0, _ => []
  | fuel + 1, i =>
    if i < input_size then
      runCode (countRun input input_size i (input i) 255 1) (input i) ++
        encodeFrom input input_size fuel (i + countRun input input_size i (input i) 255 1)
    else []

/-- The first bytes of the buffer `output` are the bytes of the list `acc`. -/
def Holds (output : Bytes) (acc : List Nat) : Prop :=
  ∀ t, t < acc.length → output t = acc.getD t 0

/-- The bound on `out_pos` that the main loop of `compress_rle` keeps at index `i`: two
bytes of output for each byte of input, and one more right after a single `@`, which a byte
other than `@` follows. -/
def PosInv (input : Bytes) (input_size i out_pos : Nat) : Prop :=
  out_pos ≤ 2 * i ∨ (out_pos ≤ 2 * i + 1 ∧ (i < input_size → input i ≠ 64))

/-- The input "AAA". -/
def inputAAA : Bytes := ofList [65, 65, 65]

/-- The input "3A". -/
def input3A : Bytes := ofList [51, 65]

end Compressor

/-! ## Sudoku: properties -/

namespace Sudoku

theorem mem_idx (x : Fin 9) : x ∈ idx := by
  revert x; decide

theorem mem_cells (p : Fin 9 × Fin 9) : p ∈ cells := by
  revert p; decide

theorem boxIdx_surj (row i2 : Fin 9) (h : i2.val / 3 = row.val / 3) :
    ∃ i ∈ idx3, boxIdx row i = i2 := by
  revert row i2; decide

theorem boxIdx_div (row : Fin 9) (i : Fin 3) : (boxIdx row i).val / 3 = row.val / 3 := by
  revert row i; decide

theorem is_safe_iff (b : Board) (r c : Fin 9) (n : Int) :
    is_safe b r c n = true ↔ ∀ i2 j2, inUnit r c i2 j2 → b i2 j2 ≠ n := by
  unfold is_safe
  constructor
  · intro h i2 j2 hu
    split_ifs at h with h1 h2 h3
    simp only [List.any_eq_true, not_exists, not_and, beq_iff_eq] at h1 h2 h3
    rcases hu with hu | hu | ⟨hu1, hu2⟩
    · subst hu; exact h1 j2 (mem_idx _)
    · subst hu; exact h2 i2 (mem_idx _)
    · obtain ⟨i, hi, rfl⟩ := boxIdx_surj r i2 hu1
      obtain ⟨j, hj, rfl⟩ := boxIdx_surj c j2 hu2
      exact h3 i hi j hj
  · intro h
    have h1 : ¬ (idx.any (fun x => b r x == n) = true) := by
      simp only [List.any_eq_true, not_exists, not_and, beq_iff_eq]
      intro x _; exact h r x (Or.inl rfl)
    have h2 : ¬ (idx.any (fun x => b x c == n) = true) := by
      simp only [List.any_eq_true, not_exists, not_and, beq_iff_eq]
      intro x _; exact h x c (Or.inr (Or.inl rfl))
    have h3 : ¬ (idx3.any (fun i => idx3.any (fun j => b (boxIdx r i) (boxIdx c j) == n))
        = true) := by
      simp only [List.any_eq_true, not_exists, not_and, beq_iff_eq]
      intro i _ j _
      exact h _ _ (Or.inr (Or.inr ⟨boxIdx_div r i, boxIdx_div c j⟩))
    simp [h1, h2, h3]

theorem setCell_same (b : Board) (r c : Fin 9) (v : Int) : setCell b r c v r c = v := by
  simp [setCell]

theorem setCell_other (b : Board) (r c i j : Fin 9) (v : Int) (h : (i, j) ≠ (r, c)) :
    setCell b r c v i j = b i j := by
  have : ¬ (i = r ∧ j = c) := by
    rintro ⟨h1, h2⟩; exact h (by rw [h1, h2])
  simp [setCell, this]

theorem setCell_restore (b : Board) (r c : Fin 9) (v : Int) :
    setCell (setCell b r c v) r c (b r c) = b := by
  funext i j
  by_cases h : i = r ∧ j = c
  · obtain ⟨rfl, rfl⟩ := h; simp [setCell]
  · simp [setCell, h]

theorem inUnit_symm {i j i2 j2 : Fin 9} (h : inUnit i j i2 j2) : inUnit i2 j2 i j := by
  rcases h with h | h | ⟨h1, h2⟩
  · exact Or.inl h.symm
  · exact Or.inr (Or.inl h.symm)
  · exact Or.inr (Or.inr ⟨h1.symm, h2.symm⟩)

theorem inUnit_self (i j : Fin 9) : inUnit i j i j := Or.inl rfl

theorem find_unassigned_none {b : Board} (h : find_unassigned b = none) (i j : Fin 9) :
    b i j ≠ 0 := by
  unfold find_unassigned at h
  rw [List.find?_eq_none] at h
  have := h (i, j) (mem_cells _)
  simpa [UNASSIGNED] using this

theorem find_unassigned_some {b : Board} {r c : Fin 9} (h : find_unassigned b = some (r, c)) :
    b r c = 0 := by
  unfold find_unassigned at h
  have := List.find?_some h
  simpa [UNASSIGNED] using this

theorem emptyCount_setCell_lt (b : Board) (r c : Fin 9) (n : Int) (hb : b r c = 0)
    (hn : n ≠ 0) : emptyCount (setCell b r c n) < emptyCount b := by
  unfold emptyCount
  apply Finset.card_lt_card
  rw [Finset.ssubset_iff_of_subset]
  · refine ⟨(r, c), ?_, ?_⟩
    · simp [hb]
    · simp [setCell_same, hn]
  · intro p hp
    simp only [Finset.mem_filter, Finset.mem_univ, true_and] at hp ⊢
    by_cases h : p = (r, c)
    · subst h; exact hb
    · rw [setCell_other b r c p.1 p.2 n h] at hp; exact hp

theorem emptyCount_le (b : Board) : emptyCount b ≤ 81 := by
  unfold emptyCount
  calc (Finset.univ.filter (fun p : Fin 9 × Fin 9 => b p.1 p.2 = 0)).card
      ≤ (Finset.univ : Finset (Fin 9 × Fin 9)).card := Finset.card_filter_le _ _
    _ = 81 := by simp

theorem mem_digits {n : Int} (h1 : 1 ≤ n) (h9 : n ≤ 9) : n ∈ digits := by
  unfold digits
  have : n = 1 ∨ n = 2 ∨ n = 3 ∨ n = 4 ∨ n = 5 ∨ n = 6 ∨ n = 7 ∨ n = 8 ∨ n = 9 := by omega
  simp only [List.mem_cons, List.mem_singleton]
  tauto

theorem digits_range {n : Int} (h : n ∈ digits) : 1 ≤ n ∧ n ≤ 9 := by
  unfold digits at h
  simp only [List.mem_cons, List.mem_singleton, List.mem_nil_iff, or_false] at h
  omega

/-- Placing a safe digit on an empty cell and completing the result completes
the original board. -/
theorem Completes_of_setCell {b g : Board} {r c : Fin 9} {n : Int} (hb : b r c = 0)
    (h1 : 1 ≤ n) (h9 : n ≤ 9) (hs : is_safe b r c n = true)
    (hc : Completes (setCell b r c n) g) : Completes b g := by
  obtain ⟨hz, hag, hfill⟩ := hc
  rw [is_safe_iff] at hs
  have hn : n ≠ 0 := by omega
  have hrc : g r c = n := by
    have := hag r c (by rw [setCell_same]; exact hn)
    rw [this, setCell_same]
  refine ⟨hz, ?_, ?_⟩
  · intro i j hij
    have hne : (i, j) ≠ (r, c) := by
      rintro h; rw [Prod.mk.injEq] at h; obtain ⟨rfl, rfl⟩ := h; exact hij hb
    have := hag i j (by rw [setCell_other b r c i j n hne]; exact hij)
    rw [this, setCell_other b r c i j n hne]
  · intro i j hij
    by_cases hne : (i, j) = (r, c)
    · rw [Prod.mk.injEq] at hne; obtain ⟨rfl, rfl⟩ := hne
      refine ⟨by rw [hrc]; exact h1, by rw [hrc]; exact h9, ?_⟩
      intro i2 j2 hne2 hu
      by_cases hz2 : b i2 j2 = 0
      · have h3 := (hfill i2 j2 (by rw [setCell_other b i j i2 j2 n hne2]; exact hz2)).2.2
        exact fun e => h3 i j (Ne.symm hne2) (inUnit_symm hu) e.symm
      · have := hag i2 j2 (by rw [setCell_other b i j i2 j2 n hne2]; exact hz2)
        rw [this, setCell_other b i j i2 j2 n hne2, hrc]
        exact hs i2 j2 hu
    · exact hfill i j (by rw [setCell_other b r c i j n hne]; exact hij)

/-- A completion of a board with an empty cell passes through the digit it
holds at that cell. -/
theorem Completes_step {b g : Board} {r c : Fin 9} (hb : b r c = 0) (hc : Completes b g) :
    1 ≤ g r c ∧ g r c ≤ 9 ∧ is_safe b r c (g r c) = true ∧
      Completes (setCell b r c (g r c)) g := by
  obtain ⟨hz, hag, hfill⟩ := hc
  obtain ⟨h1, h9, hd⟩ := hfill r c hb
  refine ⟨h1, h9, ?_, hz, ?_, ?_⟩
  · rw [is_safe_iff]
    intro i2 j2 hu
    by_cases hne : (i2, j2) = (r, c)
    · rw [Prod.mk.injEq] at hne; obtain ⟨rfl, rfl⟩ := hne; rw [hb]; omega
    · by_cases hz2 : b i2 j2 = 0
      · rw [hz2]; omega
      · rw [← hag i2 j2 hz2]; exact hd i2 j2 hne hu
  · intro i j hij
    by_cases hne : (i, j) = (r, c)
    · rw [Prod.mk.injEq] at hne; obtain ⟨rfl, rfl⟩ := hne; rw [setCell_same]
    · rw [setCell_other b r c i j _ hne] at hij ⊢; exact hag i j hij
  · intro i j hij
    by_cases hne : (i, j) = (r, c)
    · rw [Prod.mk.injEq] at hne; obtain ⟨rfl, rfl⟩ := hne
      rw [setCell_same] at hij; omega
    · rw [setCell_other b r c i j _ hne] at hij; exact hfill i j hij

theorem tryDigits_spec (solve : Board → Option (Bool × Board)) (b : Board) (r c : Fin 9)
    (hb : b r c = 0)
    (hsolve : ∀ n : Int, 1 ≤ n → SolveSpec (setCell b r c n) (solve (setCell b r c n)))
    (nums : List Int) (hnums : ∀ n ∈ nums, 1 ≤ n ∧ n ≤ 9) :
    ∃ res b1, tryDigits solve r c nums b = some (res, b1) ∧
      (res = true → Completes b b1) ∧
      (res = false → b1 = b ∧
        ∀ n ∈ nums, is_safe b r c n = true → ∀ g, ¬ Completes (setCell b r c n) g) := by
  induction nums with
  | nil => exact ⟨false, b, rfl, by simp, fun _ => ⟨rfl, by simp⟩⟩
  | cons n rest ih =>
    have hn := hnums n (List.mem_cons_self _ _)
    have ih1 := ih (fun m hm => hnums m (List.mem_cons_of_mem _ hm))
    by_cases hs : is_safe b r c n = true
    · obtain ⟨res, b1, hres, ht, hf⟩ := hsolve n hn.1
      cases res with
      | true =>
        refine ⟨true, b1, ?_, fun _ => ?_, by simp⟩
        · simp [tryDigits, hs, hres]
        · exact Completes_of_setCell hb hn.1 hn.2 hs (ht rfl)
      | false =>
        obtain ⟨hb1, hno⟩ := hf rfl
        have hback : setCell b1 r c UNASSIGNED = b := by
          rw [hb1]
          have := setCell_restore b r c n
          rw [hb] at this; exact this
        obtain ⟨res2, b2, hres2, ht2, hf2⟩ := ih1
        refine ⟨res2, b2, ?_, ht2, fun h => ⟨(hf2 h).1, ?_⟩⟩
        · simp [tryDigits, hs, hres, hback, hres2]
        · intro m hm hsm
          rcases List.mem_cons.mp hm with rfl | hm
          · exact hno
          · exact (hf2 h).2 m hm hsm
    · obtain ⟨res2, b2, hres2, ht2, hf2⟩ := ih1
      refine ⟨res2, b2, ?_, ht2, fun h => ⟨(hf2 h).1, ?_⟩⟩
      · simp [tryDigits, hs, hres2]
      · intro m hm hsm
        rcases List.mem_cons.mp hm with rfl | hm
        · exact absurd hsm hs
        · exact (hf2 h).2 m hm hsm

theorem solve_aux_spec (fuel : Nat) : ∀ b : Board, emptyCount b < fuel →
    SolveSpec b (solve_sudoku_sequential_pure_aux fuel b) := by
  induction fuel with
  | zero => intro b h; omega
  | succ fuel ih =>
    intro b hfuel
    unfold solve_sudoku_sequential_pure_aux
    cases hfind : find_unassigned b with
    | none =>
      refine ⟨true, b, rfl, fun _ => ?_, by simp⟩
      refine ⟨find_unassigned_none hfind, fun _ _ _ => rfl, ?_⟩
      intro i j hij
      exact absurd hij (find_unassigned_none hfind i j)
    | some p =>
      obtain ⟨r, c⟩ := p
      have hb := find_unassigned_some hfind
      have hsolve : ∀ n : Int, 1 ≤ n → SolveSpec (setCell b r c n)
          (solve_sudoku_sequential_pure_aux fuel (setCell b r c n)) := by
        intro n hn
        apply ih
        have := emptyCount_setCell_lt b r c n hb (by omega)
        omega
      obtain ⟨res, b1, hres, ht, hf⟩ :=
        tryDigits_spec _ b r c hb hsolve digits (fun n hn => digits_range hn)
      refine ⟨res, b1, hres, ht, fun h => ⟨(hf h).1, ?_⟩⟩
      intro g hg
      obtain ⟨h1, h9, hs, hc⟩ := Completes_step hb hg
      exact (hf h).2 _ (mem_digits h1 h9) hs g hc

theorem solve_spec (b : Board) : SolveSpec b (solve_sudoku_sequential_pure b) :=
  solve_aux_spec 82 b (by have := emptyCount_le b; omega)

theorem is_valid_board_loop_spec (l : List (Fin 9 × Fin 9)) (b : Board) :
    (is_valid_board_loop l b).2 = b ∧
    ((is_valid_board_loop l b).1 = true ↔
      ∀ p ∈ l, b p.1 p.2 ≠ 0 → is_safe (setCell b p.1 p.2 0) p.1 p.2 (b p.1 p.2) = true) := by
  induction l with
  | nil => simp [is_valid_board_loop]
  | cons p rest ih =>
    obtain ⟨i, j⟩ := p
    by_cases hz : b i j = 0
    · simp only [is_valid_board_loop, hz, ne_eq, not_true_eq_false, if_false]
      refine ⟨ih.1, ?_⟩
      rw [ih.2]
      simp [hz]
    · have hres : setCell (setCell b i j 0) i j (b i j) = b := setCell_restore b i j 0
      by_cases hs : is_safe (setCell b i j 0) i j (b i j) = true
      · simp only [is_valid_board_loop, ne_eq, hz, not_false_eq_true, if_true, hs, hres]
        refine ⟨ih.1, ?_⟩
        rw [ih.2]
        simp [hs]
      · simp only [is_valid_board_loop, ne_eq, hz, not_false_eq_true, if_true, hs, hres]
        refine ⟨rfl, ?_⟩
        simp [hs, hz]

theorem is_valid_board_distinct {b : Board} (h : (is_valid_board b).1 = true)
    (i j i2 j2 : Fin 9) (hij : b i j ≠ 0) (hne : (i2, j2) ≠ (i, j))
    (hu : inUnit i j i2 j2) : b i2 j2 ≠ b i j := by
  have := ((is_valid_board_loop_spec cells b).2.1 h) (i, j) (mem_cells _) hij
  rw [is_safe_iff] at this
  have h2 := this i2 j2 hu
  rwa [setCell_other b i j i2 j2 0 hne] at h2

/-- On a board with entries in 0..9 that passes `is_valid_board`, the accepted
results are exactly the complete valid grids that extend the board. -/
theorem Completes_iff_valid {b : Board} (hrange : ∀ i j, 0 ≤ b i j ∧ b i j ≤ 9)
    (hvalid : (is_valid_board b).1 = true) (g : Board) :
    Completes b g ↔ ValidGrid g ∧ Extends b g := by
  constructor
  · rintro ⟨hz, hag, hfill⟩
    refine ⟨⟨?_, ?_⟩, hag⟩
    · intro i j
      by_cases h0 : b i j = 0
      · exact ⟨(hfill i j h0).1, (hfill i j h0).2.1⟩
      · rw [hag i j h0]; have := hrange i j; omega
    · intro i j i2 j2 hne hu
      by_cases h0 : b i j = 0
      · exact (hfill i j h0).2.2 i2 j2 hne hu
      · by_cases h2 : b i2 j2 = 0
        · exact fun e => (hfill i2 j2 h2).2.2 i j (Ne.symm hne) (inUnit_symm hu) e.symm
        · rw [hag i j h0, hag i2 j2 h2]
          exact is_valid_board_distinct hvalid i j i2 j2 h0 hne hu
  · rintro ⟨⟨hr, hd⟩, hext⟩
    refine ⟨fun i j => by have := hr i j; omega, hext, ?_⟩
    intro i j _
    exact ⟨(hr i j).1, (hr i j).2, hd i j⟩

/-- The return value of `is_valid_board` from the checks it makes. -/
theorem is_valid_board_of_checks {b : Board}
    (h : ∀ p ∈ cells, b p.1 p.2 ≠ 0 →
      is_safe (setCell b p.1 p.2 0) p.1 p.2 (b p.1 p.2) = true) :
    (is_valid_board b).1 = true :=
  (is_valid_board_loop_spec cells b).2.2 h

/-- C1 (soundness of the sequential Sudoku search): on a board with entries in
0..9, if `solve_sudoku_sequential_pure` returns 1 then the board it leaves has
no empty cell, keeps every cell that was non-zero in the input, and holds in
every cell that was empty a digit in 1..9 different from every other cell of
its row, column and box; if moreover the input passes `is_valid_board`, the
board left is a complete valid grid that extends the input. -/
theorem C1_sudoku_soundness (b b1 : Board) (hrange : ∀ i j, 0 ≤ b i j ∧ b i j ≤ 9)
    (h : solve_sudoku_sequential_pure b = some (true, b1)) :
    (∀ i j, b1 i j ≠ 0) ∧ (∀ i j, b i j ≠ 0 → b1 i j = b i j) ∧
    (∀ i j, b i j = 0 → 1 ≤ b1 i j ∧ b1 i j ≤ 9 ∧
      ∀ i2 j2, (i2, j2) ≠ (i, j) → inUnit i j i2 j2 → b1 i2 j2 ≠ b1 i j) ∧
    ((is_valid_board b).1 = true → ValidGrid b1 ∧ Extends b b1) := by
  obtain ⟨res, b2, hres, ht, _⟩ := solve_spec b
  rw [h] at hres
  simp only [Option.some.injEq, Prod.mk.injEq] at hres
  obtain ⟨rfl, rfl⟩ := hres
  have hc := ht rfl
  refine ⟨hc.1, hc.2.1, hc.2.2, fun hv => ?_⟩
  exact (Completes_iff_valid hrange hv b1).1 hc

theorem C1_sudoku_soundness_witness :
    (∀ i j, almostSolvedResult i j ≠ 0) ∧
    (∀ i j, almostSolved i j ≠ 0 → almostSolvedResult i j = almostSolved i j) ∧
    (∀ i j, almostSolved i j = 0 → 1 ≤ almostSolvedResult i j ∧ almostSolvedResult i j ≤ 9 ∧
      ∀ i2 j2, (i2, j2) ≠ (i, j) → inUnit i j i2 j2 →
        almostSolvedResult i2 j2 ≠ almostSolvedResult i j) ∧
    ((is_valid_board almostSolved).1 = true →
      ValidGrid almostSolvedResult ∧ Extends almostSolved almostSolvedResult) :=
  C1_sudoku_soundness almostSolved almostSolvedResult (by decide) rfl

/-- C2 (completeness of the sequential Sudoku search, for boards with entries
in 0..9): on a board with entries in 0..9 that passes `is_valid_board`,
`solve_sudoku_sequential_pure` returns 1 if and only if some complete valid
grid agrees with the input on every non-empty cell, and it returns 0 exactly
when no such grid exists. -/
theorem C2_sudoku_completeness (b : Board) (hrange : ∀ i j, 0 ≤ b i j ∧ b i j ≤ 9)
    (hvalid : (is_valid_board b).1 = true) :
    ((∃ b1, solve_sudoku_sequential_pure b = some (true, b1)) ↔
      ∃ g, ValidGrid g ∧ Extends b g) ∧
    ((∃ b1, solve_sudoku_sequential_pure b = some (false, b1)) ↔
      ¬ ∃ g, ValidGrid g ∧ Extends b g) := by
  obtain ⟨res, b2, hres, ht, hf⟩ := solve_spec b
  have key := Completes_iff_valid hrange hvalid
  cases res with
  | true =>
    have hg : ∃ g, ValidGrid g ∧ Extends b g := ⟨b2, (key b2).1 (ht rfl)⟩
    refine ⟨⟨fun _ => hg, fun _ => ⟨b2, hres⟩⟩, ⟨?_, fun h => absurd hg h⟩⟩
    rintro ⟨b1, h1⟩
    rw [hres] at h1
    simp at h1
  | false =>
    have hno : ¬ ∃ g, ValidGrid g ∧ Extends b g := by
      rintro ⟨g, hg⟩
      exact (hf rfl).2 g ((key g).2 hg)
    refine ⟨⟨?_, fun h => absurd h hno⟩, ⟨fun _ => hno, fun _ => ⟨b2, hres⟩⟩⟩
    rintro ⟨b1, h1⟩
    rw [hres] at h1
    simp at h1

theorem C2_sudoku_completeness_witness :
    ((∃ b1, solve_sudoku_sequential_pure almostSolved = some (true, b1)) ↔
      ∃ g, ValidGrid g ∧ Extends almostSolved g) ∧
    ((∃ b1, solve_sudoku_sequential_pure almostSolved = some (false, b1)) ↔
      ¬ ∃ g, ValidGrid g ∧ Extends almostSolved g) :=
  C2_sudoku_completeness almostSolved (by decide) (is_valid_board_of_checks (by decide))

/-- C2 as stated fails on a board with an entry outside 0..9: the board
`outOfRange` passes `is_valid_board` and `solve_sudoku_sequential_pure`
returns 1 on it, yet no complete valid grid agrees with it, since its cell
(0,0) holds 10. -/
theorem C2_counterexample :
    (is_valid_board outOfRange).1 = true ∧
    (∃ b1, solve_sudoku_sequential_pure outOfRange = some (true, b1)) ∧
    ¬ ∃ g, ValidGrid g ∧ Extends outOfRange g := by
  refine ⟨is_valid_board_of_checks (by decide), ⟨outOfRange, rfl⟩, ?_⟩
  rintro ⟨g, ⟨hr, _⟩, hext⟩
  have h1 := hext 0 0 (by decide)
  have h2 := (hr 0 0).2
  rw [h1] at h2
  revert h2
  decide

theorem div_eq_iff_box (row i2 : Fin 9) :
    i2.val / 3 = row.val / 3 ↔
      row.val - row.val % 3 ≤ i2.val ∧ i2.val < row.val - row.val % 3 + 3 := by
  revert row i2; decide

/-- C11: `is_safe board row col num` returns 1 exactly when `num` occurs in no cell of row
`row`, in no cell of column `col`, and in no cell of the 3x3 box whose top-left corner is
`(row - row % 3, col - col % 3)`. The function only reads the board: its result is a truth
value and the caller's board is the argument it was given. -/
theorem C11_sudoku_is_safe_oracle (board : Board) (row col : Fin 9) (num : Int) :
    is_safe board row col num = true ↔
      (∀ x : Fin 9, board row x ≠ num) ∧
      (∀ x : Fin 9, board x col ≠ num) ∧
      (∀ i j : Fin 9,
        row.val - row.val % 3 ≤ i.val → i.val < row.val - row.val % 3 + 3 →
        col.val - col.val % 3 ≤ j.val → j.val < col.val - col.val % 3 + 3 →
        board i j ≠ num) := by
  rw [is_safe_iff]
  constructor
  · intro h
    refine ⟨fun x => h row x (Or.inl rfl), fun x => h x col (Or.inr (Or.inl rfl)), ?_⟩
    intro i j h1 h2 h3 h4
    exact h i j (Or.inr (Or.inr ⟨(div_eq_iff_box row i).mpr ⟨h1, h2⟩,
      (div_eq_iff_box col j).mpr ⟨h3, h4⟩⟩))
  · rintro ⟨h1, h2, h3⟩ i2 j2 hu
    rcases hu with hu | hu | ⟨hu1, hu2⟩
    · subst hu; exact h1 j2
    · subst hu; exact h2 i2
    · have a := (div_eq_iff_box row i2).mp hu1
      have b := (div_eq_iff_box col j2).mp hu2
      exact h3 i2 j2 a.1 a.2 b.1 b.2

theorem foldl_setCell_apply (src : Board) (l : List (Fin 9 × Fin 9)) :
    ∀ (d : Board) (i j : Fin 9),
      (l.foldl (fun d p => setCell d p.1 p.2 (src p.1 p.2)) d) i j
        = if (i, j) ∈ l then src i j else d i j := by
  induction l with
  | nil => intro d i j; simp
  | cons p rest ih =>
    intro d i j
    rw [List.foldl_cons, ih]
    by_cases h1 : (i, j) ∈ rest
    · simp [h1]
    · by_cases h2 : (i, j) = p
      · subst h2; simp [h1, setCell]
      · have h3 : ¬ (i = p.1 ∧ j = p.2) := by
          rintro ⟨rfl, rfl⟩; exact h2 rfl
        simp [h1, h2, setCell, h3]

/-- After `copy_board(dest, src)` the array `dest` equals `src` cell for cell. -/
theorem copy_board_eq (dest src : Board) : copy_board dest src = src := by
  funext i j
  unfold copy_board
  rw [foldl_setCell_apply, if_pos (mem_cells (i, j))]

theorem commit_of_zero {g : Shared} (h : g.solution_found = 0) (c : Board) :
    commit g c = { solution_found := 1, solution_board := c } := by
  unfold commit
  rw [if_pos h, copy_board_eq]

theorem commit_of_ne_zero {g : Shared} (h : g.solution_found ≠ 0) (c : Board) :
    commit g c = g := by
  unfold commit
  rw [if_neg h]

theorem commit_found_ne_zero (g : Shared) (c : Board) : (commit g c).solution_found ≠ 0 := by
  by_cases h : g.solution_found = 0
  · rw [commit_of_zero h]; exact one_ne_zero
  · rw [commit_of_ne_zero h]; exact h

theorem foldl_commit_of_ne_zero (cs : List Board) :
    ∀ g : Shared, g.solution_found ≠ 0 → cs.foldl commit g = g := by
  induction cs with
  | nil => intro g _; rfl
  | cons c rest ih =>
    intro g h
    rw [List.foldl_cons, commit_of_ne_zero h]
    exact ih g h

/-- C15: the commit step maps the globals `(solution_found, solution_board)` and a candidate
board to `(1, candidate)`, an exact copy of the candidate, when `solution_found` was 0, and
leaves both globals as they were when `solution_found` was non-zero. -/
theorem C15_commit_semantics (g : Shared) (candidate : Board) :
    commit g candidate =
      if g.solution_found = 0 then { solution_found := 1, solution_board := candidate }
      else g := by
  by_cases h : g.solution_found = 0
  · rw [if_pos h, commit_of_zero h]
  · rw [if_neg h, commit_of_ne_zero h]

/-- C16: over any sequence of commit attempts, once `solution_found` is non-zero after some
of the attempts, the remaining attempts change neither `solution_found` nor
`solution_board`; and from `solution_found = 0` a non-empty sequence of attempts ends with
`solution_found = 1` and `solution_board` equal to the first candidate attempted. -/
theorem C16_single_winner (g : Shared) (done rest : List Board) :
    ((done.foldl commit g).solution_found ≠ 0 →
      (done ++ rest).foldl commit g = done.foldl commit g) ∧
    (g.solution_found = 0 → ∀ c : Board,
      ((c :: rest).foldl commit g).solution_found = 1 ∧
      ((c :: rest).foldl commit g).solution_board = c) := by
  constructor
  · intro h
    rw [List.foldl_append]
    exact foldl_commit_of_ne_zero rest _ h
  · intro h c
    rw [List.foldl_cons, commit_of_zero h, foldl_commit_of_ne_zero rest _ one_ne_zero]
    exact ⟨rfl, rfl⟩

theorem tryDigitsChecked_eq (solve1 : Nat → Board → Option (Bool × Board × Nat))
    (solve2 : Board → Option (Bool × Board)) (reads : Nat → Bool)
    (hr : ∀ k, reads k = false)
    (hs : ∀ k b, (solve1 k b).map (fun r => (r.1, r.2.1)) = solve2 b) (row col : Fin 9)
    (l : List Int) : ∀ (k : Nat) (b : Board),
      (tryDigitsChecked solve1 reads row col l k b).map (fun r => (r.1, r.2.1))
        = tryDigits solve2 row col l b := by
  induction l with
  | nil => intro k b; rfl
  | cons num rest ih =>
    intro k b
    unfold tryDigitsChecked tryDigits
    rw [hr k]
    simp only [Bool.false_eq_true, if_false]
    by_cases hsafe : is_safe b row col num = true
    · rw [if_pos hsafe, if_pos hsafe]
      have h := hs (k + 1) (setCell b row col num)
      cases h1 : solve1 (k + 1) (setCell b row col num) with
      | none => rw [h1] at h; rw [← h]; rfl
      | some r =>
        obtain ⟨res, b1, k1⟩ := r
        rw [h1] at h
        rw [← h]
        cases res with
        | true => rfl
        | false => exact ih k1 _
    · rw [if_neg hsafe, if_neg hsafe]
      exact ih (k + 1) b

/-- When every read of `solution_found` sees 0, `solve_sudoku_sequential` computes what
`solve_sudoku_sequential_pure` computes. -/
theorem sequential_aux_eq_pure (reads : Nat → Bool) (hr : ∀ k, reads k = false) (fuel : Nat) :
    ∀ (k : Nat) (b : Board),
      (solve_sudoku_sequential_aux fuel reads k b).map (fun r => (r.1, r.2.1))
        = solve_sudoku_sequential_pure_aux fuel b := by
  induction fuel with
  | zero => intro k b; rfl
  | succ fuel ih =>
    intro k b
    unfold solve_sudoku_sequential_aux solve_sudoku_sequential_pure_aux
    rw [hr k]
    simp only [Bool.false_eq_true, if_false]
    cases find_unassigned b with
    | none => rfl
    | some p =>
      obtain ⟨row, col⟩ := p
      exact tryDigitsChecked_eq _ _ reads hr ih row col digits (k + 1) b

/-- C19: when `solve_sudoku_sequential_pure` returns 0, the board after the call is the
board before the call, cell for cell. -/
theorem C19_restore_on_backtrack (board b1 : Board)
    (h : solve_sudoku_sequential_pure board = some (false, b1)) :
    ∀ i j, b1 i j = board i j := by
  obtain ⟨res, b2, hres, _, hf⟩ := solve_spec board
  rw [h] at hres
  simp only [Option.some.injEq, Prod.mk.injEq] at hres
  obtain ⟨rfl, rfl⟩ := hres
  intro i j
  rw [(hf rfl).1]

theorem C19_restore_on_backtrack_witness :
    solve_sudoku_sequential_pure deadEnd
      = some (false, setCell (setCell deadEnd 0 0 5) 0 0 UNASSIGNED) ∧
    ∀ i j, setCell (setCell deadEnd 0 0 5) 0 0 UNASSIGNED i j = deadEnd i j :=
  ⟨rfl, C19_restore_on_backtrack deadEnd (setCell (setCell deadEnd 0 0 5) 0 0 UNASSIGNED) rfl⟩

theorem runTask_of_ne_zero (fuel : Nat) {g : Shared} (h : g.solution_found ≠ 0) (t : Board) :
    runTask fuel g t = some g := by
  unfold runTask
  simp only [h, ne_eq, not_false_eq_true, if_true]

theorem runTasks_of_ne_zero (fuel : Nat) {g : Shared} (h : g.solution_found ≠ 0)
    (l : List Board) : runTasks fuel g l = some g := by
  induction l with
  | nil => rfl
  | cons t rest ih =>
    unfold runTasks
    rw [runTask_of_ne_zero fuel h]
    exact ih

/-- A task started with `solution_found = 0` either finds that its board has no completion
and leaves the globals alone, or commits a completion of its board. -/
theorem runTask_spec {fuel : Nat} (hf : 81 < fuel) {g : Shared} (h : g.solution_found = 0)
    (t : Board) :
    ∃ g1, runTask fuel g t = some g1 ∧
      ((g1 = g ∧ Fails t) ∨ (g1.solution_found = 1 ∧ Completes t g1.solution_board)) := by
  have hr : ∀ k : Nat, (fun _ : Nat => decide (g.solution_found ≠ 0)) k = false := by
    intro k; simp [h]
  have heq := sequential_aux_eq_pure _ hr fuel 0 t
  obtain ⟨res, b1, hres, ht, hfl⟩ :=
    solve_aux_spec fuel t (by have := emptyCount_le t; omega)
  rw [hres] at heq
  unfold runTask
  simp only [h, ne_eq, not_true_eq_false, if_false]
  simp only [h, ne_eq, not_true_eq_false] at heq
  cases hs : solve_sudoku_sequential_aux fuel (fun _ => decide False) 0 t with
  | none => rw [hs] at heq; simp at heq
  | some r =>
    obtain ⟨res2, b2, k2⟩ := r
    rw [hs] at heq
    simp only [Option.map_some', Option.some.injEq, Prod.mk.injEq] at heq
    obtain ⟨rfl, rfl⟩ := heq
    cases res2 with
    | true =>
      refine ⟨commit g b2, rfl, Or.inr ?_⟩
      rw [commit_of_zero h]
      exact ⟨rfl, ht rfl⟩
    | false => exact ⟨g, rfl, Or.inl ⟨rfl, (hfl rfl).2⟩⟩

theorem su_runTasks_spec {fuel : Nat} (hf : 81 < fuel) (l : List Board) :
    ∀ g : Shared, g.solution_found = 0 →
      ∃ g1, runTasks fuel g l = some g1 ∧
        ((g1 = g ∧ ∀ t ∈ l, Fails t) ∨
          (g1.solution_found = 1 ∧ ∃ t ∈ l, Completes t g1.solution_board)) := by
  induction l with
  | nil => intro g _; exact ⟨g, rfl, Or.inl ⟨rfl, by simp⟩⟩
  | cons t rest ih =>
    intro g h
    obtain ⟨g1, h1, hc⟩ := runTask_spec hf h t
    unfold runTasks
    rw [h1]
    rcases hc with ⟨rfl, hfail⟩ | ⟨hfound, hcomp⟩
    · obtain ⟨g2, h2, hc2⟩ := ih g1 h
      refine ⟨g2, h2, ?_⟩
      rcases hc2 with ⟨rfl, hall⟩ | ⟨hfound2, t2, ht2, hcomp2⟩
      · left
        refine ⟨rfl, ?_⟩
        intro t2 ht2
        rcases List.mem_cons.mp ht2 with rfl | ht2
        · exact hfail
        · exact hall t2 ht2
      · right
        exact ⟨hfound2, t2, List.mem_cons_of_mem _ ht2, hcomp2⟩
    · have hne : g1.solution_found ≠ 0 := by rw [hfound]; exact one_ne_zero
      refine ⟨g1, runTasks_of_ne_zero fuel hne rest, Or.inr ⟨hfound, t, ?_, hcomp⟩⟩
      exact List.mem_cons_self _ _

theorem SchedOK_mem_fst {sc : Sched} (h : SchedOK sc) (num : Int) (pending : List Board)
    {t : Board} (ht : t ∈ (sc.atCheck num pending).1) : t ∈ pending :=
  (h.1 num pending).mem_iff.mp (List.mem_append_left _ ht)

theorem SchedOK_mem_snd {sc : Sched} (h : SchedOK sc) (num : Int) (pending : List Board)
    {t : Board} (ht : t ∈ (sc.atCheck num pending).2) : t ∈ pending :=
  (h.1 num pending).mem_iff.mp (List.mem_append_right _ ht)

theorem SchedOK_mem_split {sc : Sched} (h : SchedOK sc) (num : Int) (pending : List Board)
    {t : Board} (ht : t ∈ pending) :
    t ∈ (sc.atCheck num pending).1 ∨ t ∈ (sc.atCheck num pending).2 :=
  List.mem_append.mp ((h.1 num pending).mem_iff.mpr ht)

/-- The task-creating loop started with `solution_found = 0`: either it runs to its end with
the globals untouched, every task it was given or created being still pending or having
failed, or a task has committed a completion of its board. -/
theorem forkLoop_spec {fuel : Nat} (hf : 81 < fuel) {sc : Sched} (hsc : SchedOK sc)
    (b : Board) (r c : Fin 9) (nums : List Int) (hnums : ∀ n ∈ nums, 1 ≤ n ∧ n ≤ 9) :
    ∀ (pending : List Board) (g : Shared), g.solution_found = 0 →
      (∀ t ∈ pending, TaskOf b r c t) →
      ∃ early pending1 g1, forkLoop fuel sc b r c nums pending g = some (early, pending1, g1) ∧
        (∀ t ∈ pending1, TaskOf b r c t) ∧
        ((g1 = g ∧ early = false ∧ (∀ t ∈ pending, t ∈ pending1 ∨ Fails t) ∧
            ∀ n ∈ nums, is_safe b r c n = true →
              setCell b r c n ∈ pending1 ∨ Fails (setCell b r c n)) ∨
          (g1.solution_found = 1 ∧ ∃ t, TaskOf b r c t ∧ Completes t g1.solution_board)) := by
  induction nums with
  | nil =>
    intro pending g _ hp
    exact ⟨false, pending, g, rfl, hp, Or.inl ⟨rfl, rfl, fun t ht => Or.inl ht, by simp⟩⟩
  | cons num rest ih =>
    intro pending g hg hp
    have hn := hnums num (List.mem_cons_self _ _)
    have ih1 := ih (fun m hm => hnums m (List.mem_cons_of_mem _ hm))
    have hlater : ∀ t ∈ (sc.atCheck num pending).2, TaskOf b r c t :=
      fun t ht => hp t (SchedOK_mem_snd hsc num pending ht)
    obtain ⟨g1, h1, hc⟩ := su_runTasks_spec hf (sc.atCheck num pending).1 g hg
    unfold forkLoop
    rw [h1]
    rcases hc with ⟨rfl, hfail⟩ | ⟨hfound, t, ht, hcomp⟩
    · simp only [hg, ne_eq, not_true_eq_false, if_false]
      by_cases hs : is_safe b r c num = true
      · rw [if_pos hs, copy_board_eq]
        have hp2 : ∀ t ∈ (sc.atCheck num pending).2 ++ [setCell b r c num], TaskOf b r c t := by
          intro t ht
          rcases List.mem_append.mp ht with ht | ht
          · exact hlater t ht
          · rw [List.mem_singleton] at ht
            exact ⟨num, hn.1, hn.2, hs, ht⟩
        obtain ⟨early, pending1, g2, h2, hp1, hc2⟩ := ih1 _ g1 hg hp2
        refine ⟨early, pending1, g2, h2, hp1, ?_⟩
        rcases hc2 with ⟨rfl, he, hpend, hnum⟩ | hwin
        · left
          refine ⟨rfl, he, ?_, ?_⟩
          · intro t ht
            rcases SchedOK_mem_split hsc num pending ht with ht | ht
            · exact Or.inr (hfail t ht)
            · exact hpend t (List.mem_append_left _ ht)
          · intro m hm hsm
            rcases List.mem_cons.mp hm with rfl | hm
            · exact hpend _ (List.mem_append_right _ (List.mem_singleton_self _))
            · exact hnum m hm hsm
        · exact Or.inr hwin
      · rw [if_neg hs]
        obtain ⟨early, pending1, g2, h2, hp1, hc2⟩ := ih1 _ g1 hg hlater
        refine ⟨early, pending1, g2, h2, hp1, ?_⟩
        rcases hc2 with ⟨rfl, he, hpend, hnum⟩ | hwin
        · left
          refine ⟨rfl, he, ?_, ?_⟩
          · intro t ht
            rcases SchedOK_mem_split hsc num pending ht with ht | ht
            · exact Or.inr (hfail t ht)
            · exact hpend t ht
          · intro m hm hsm
            rcases List.mem_cons.mp hm with rfl | hm
            · exact absurd hsm hs
            · exact hnum m hm hsm
        · exact Or.inr hwin
    · have hne : g1.solution_found ≠ 0 := by rw [hfound]; exact one_ne_zero
      simp only [hne, ne_eq, not_false_eq_true, if_true]
      refine ⟨true, (sc.atCheck num pending).2, g1, rfl, hlater, Or.inr ⟨hfound, t, ?_, hcomp⟩⟩
      exact hp t (SchedOK_mem_fst hsc num pending ht)

theorem Completes_self {b : Board} (h : find_unassigned b = none) : Completes b b :=
  ⟨find_unassigned_none h, fun _ _ _ => rfl,
    fun i j hij => absurd hij (find_unassigned_none h i j)⟩

theorem Completes_of_TaskOf {b : Board} {r c : Fin 9} (hb : b r c = 0) {t x : Board}
    (ht : TaskOf b r c t) (hx : Completes t x) : Completes b x := by
  obtain ⟨num, h1, h9, hs, rfl⟩ := ht
  exact Completes_of_setCell hb h1 h9 hs hx

theorem atWait_nil {sc : Sched} (h : SchedOK sc) : sc.atWait [] = [] :=
  List.Perm.eq_nil (h.2 [])

/-- What a call of the wrapper yields: it returns 1 with a completion of the input in the
caller's board and in `solution_board`, or it returns 0 with the caller's board and
`solution_board` untouched when the input has no completion. -/
theorem wrapper_aux_spec {fuel : Nat} (hf : 81 < fuel) {sc : Sched} (hsc : SchedOK sc)
    (g0 : Shared) (b : Board) :
    ∃ res b1 g1, solve_sudoku_parallel_wrapper_aux fuel sc g0 b = some (res, b1, g1) ∧
      (res = true → Completes b b1 ∧ g1.solution_found = 1 ∧ g1.solution_board = b1) ∧
      (res = false → b1 = b ∧ (∀ x, ¬ Completes b x) ∧
        g1.solution_found = 0 ∧ g1.solution_board = g0.solution_board) := by
  have hg : ({ solution_found := 0, solution_board := g0.solution_board } : Shared).solution_found
      = 0 := rfl
  generalize hgdef : ({ solution_found := 0, solution_board := g0.solution_board } : Shared)
    = g at hg
  have hgb : g.solution_board = g0.solution_board := by rw [← hgdef]
  have win : ∀ (g1 : Shared) (l : List Board), g1.solution_found = 1 →
      Completes b g1.solution_board →
      ∃ res b1 g2,
        (match runTasks fuel g1 l with
          | none => none
          | some g2 =>
            if g2.solution_found ≠ 0 then some (true, copy_board b g2.solution_board, g2)
            else some (false, b, g2)) = some (res, b1, g2) ∧
        (res = true → Completes b b1 ∧ g2.solution_found = 1 ∧ g2.solution_board = b1) ∧
        (res = false → b1 = b ∧ (∀ x, ¬ Completes b x) ∧
          g2.solution_found = 0 ∧ g2.solution_board = g0.solution_board) := by
    intro g1 l h1 hc
    have hne : g1.solution_found ≠ 0 := by rw [h1]; exact one_ne_zero
    rw [runTasks_of_ne_zero fuel hne]
    simp only [hne, ne_eq, not_false_eq_true, if_true]
    refine ⟨true, _, g1, rfl, fun _ => ?_, fun h => Bool.noConfusion h⟩
    rw [copy_board_eq]
    exact ⟨hc, h1, rfl⟩
  unfold solve_sudoku_parallel_wrapper_aux solve_sudoku_parallel_aux
  simp only [hgdef, hg, ne_eq, not_true_eq_false, if_false, if_true]
  cases hfind : find_unassigned b with
  | none =>
    simp only
    apply win
    · rw [commit_of_zero hg]
    · rw [commit_of_zero hg]; exact Completes_self hfind
  | some p =>
    obtain ⟨r, c⟩ := p
    have hb := find_unassigned_some hfind
    obtain ⟨early, pending1, g1, h1, hp1, hc⟩ :=
      forkLoop_spec hf hsc b r c digits (fun n hn => digits_range hn) [] g hg (by simp)
    simp only [h1]
    rcases hc with ⟨rfl, rfl, _, hnum⟩ | ⟨hfound, t, ht, hcomp⟩
    · simp only
      obtain ⟨g2, h2, hc2⟩ := su_runTasks_spec hf (sc.atWait pending1) g1 hg
      rw [h2]
      rcases hc2 with ⟨rfl, hall⟩ | ⟨hfound2, t, ht, hcomp⟩
      · simp only [atWait_nil hsc, runTasks, hg, ne_eq, not_true_eq_false, if_false]
        refine ⟨false, b, g2, rfl, fun h => Bool.noConfusion h, fun _ => ⟨rfl, ?_, hg, hgb⟩⟩
        intro x hx
        obtain ⟨x1, x9, hs, hcx⟩ := Completes_step hb hx
        rcases hnum _ (mem_digits x1 x9) hs with hmem | hfail
        · exact hall _ ((hsc.2 pending1).mem_iff.mpr hmem) x hcx
        · exact hfail x hcx
      · simp only
        apply win _ _ hfound2
        exact Completes_of_TaskOf hb (hp1 t ((hsc.2 pending1).mem_iff.mp ht)) hcomp
    · have hne : g1.solution_found ≠ 0 := by rw [hfound]; exact one_ne_zero
      have hcb := Completes_of_TaskOf hb ht hcomp
      cases early with
      | true =>
        simp only
        exact win _ _ hfound hcb
      | false =>
        simp only [runTasks_of_ne_zero fuel hne]
        exact win g1 [] hfound hcb

theorem lazySched_ok : SchedOK lazySched :=
  ⟨fun _ pending => by simp [lazySched], fun pending => List.reverse_perm pending⟩

theorem eagerSched_ok : SchedOK eagerSched :=
  ⟨fun _ pending => by simp [eagerSched], fun pending => List.Perm.refl pending⟩

/-- A board that some complete valid grid extends has entries in 0..9 and passes
`is_valid_board`. -/
theorem valid_of_extension {b x : Board} (hv : ValidGrid x) (he : Extends b x) :
    (∀ i j, 0 ≤ b i j ∧ b i j ≤ 9) ∧ (is_valid_board b).1 = true := by
  constructor
  · intro i j
    by_cases h0 : b i j = 0
    · rw [h0]; omega
    · rw [← he i j h0]
      have := hv.1 i j
      omega
  · apply is_valid_board_of_checks
    rintro ⟨i, j⟩ _ hij
    rw [is_safe_iff]
    intro i2 j2 hu
    by_cases hne : (i2, j2) = (i, j)
    · rw [Prod.mk.injEq] at hne
      obtain ⟨rfl, rfl⟩ := hne
      rw [setCell_same]
      exact fun e => hij e.symm
    · rw [setCell_other b i j i2 j2 0 hne]
      by_cases h2 : b i2 j2 = 0
      · rw [h2]; exact fun e => hij e.symm
      · have e1 := he i j hij
        have e2 := he i2 j2 h2
        simp only at e1 e2
        rw [← e1, ← e2]
        exact hv.2 i j i2 j2 hne hu

/-- C17: under every schedule that runs each task once, to completion, at some point and in
some order, `solve_sudoku_parallel_wrapper` and `solve_sudoku_sequential_pure` both return,
with the same return value; and when exactly one complete valid grid extends the input, the
board the wrapper leaves equals the board the sequential solver leaves, cell for cell. -/
theorem C17_parallel_agrees_with_sequential (sc : Sched) (hsc : SchedOK sc) (g0 : Shared)
    (board : Board) :
    ∃ res b1 g1 b2, solve_sudoku_parallel_wrapper sc g0 board = some (res, b1, g1) ∧
      solve_sudoku_sequential_pure board = some (res, b2) ∧
      ((∃! x, ValidGrid x ∧ Extends board x) → ∀ i j, b1 i j = b2 i j) := by
  obtain ⟨res, b1, g1, h1, ht, hf⟩ :=
    wrapper_aux_spec (show 81 < 82 by decide) hsc g0 board
  obtain ⟨res2, b2, h2, ht2, hf2⟩ := solve_spec board
  cases res with
  | true =>
    cases res2 with
    | true =>
      refine ⟨true, b1, g1, b2, h1, h2, ?_⟩
      rintro ⟨x, ⟨hv, he⟩, huniq⟩ i j
      obtain ⟨hrange, hvalid⟩ := valid_of_extension hv he
      have e1 := huniq b1 ((Completes_iff_valid hrange hvalid b1).mp (ht rfl).1)
      have e2 := huniq b2 ((Completes_iff_valid hrange hvalid b2).mp (ht2 rfl))
      rw [e1, e2]
    | false => exact absurd (ht rfl).1 ((hf2 rfl).2 b1)
  | false =>
    cases res2 with
    | true => exact absurd (ht2 rfl) ((hf rfl).2.1 b2)
    | false =>
      refine ⟨false, b1, g1, b2, h1, h2, fun _ i j => ?_⟩
      rw [(hf rfl).1, (hf2 rfl).1]

theorem C17_parallel_agrees_with_sequential_witness :
    ∃ res b1 g1 b2,
      solve_sudoku_parallel_wrapper lazySched { solution_found := 1, solution_board := deadEnd }
        almostSolved = some (res, b1, g1) ∧
      solve_sudoku_sequential_pure almostSolved = some (res, b2) ∧
      ((∃! x, ValidGrid x ∧ Extends almostSolved x) → ∀ i j, b1 i j = b2 i j) :=
  C17_parallel_agrees_with_sequential lazySched lazySched_ok
    { solution_found := 1, solution_board := deadEnd } almostSolved

theorem find_unassigned_of_full {board : Board} (hfull : ∀ i j, board i j ≠ 0) :
    find_unassigned board = none := by
  unfold find_unassigned
  rw [List.find?_eq_none]
  intro p _
  simp [UNASSIGNED, hfull p.1 p.2]

/-- C18: on a board with no cell equal to 0, `find_unassigned` reports no empty cell, so
that the digit loops, which hold every placement, are not entered:
`solve_sudoku_sequential_pure` returns 1 with the board as given, already when its recursion
is bounded to the outermost call; `solve_sudoku_parallel` commits the board as given and
returns with no task created, and `solve_sudoku_parallel_wrapper` returns 1 with the board
as given, under every schedule and from every value of the globals, already when the
sequential searches of tasks are given no step at all. And
`solve_nqueens_sequential_helper` called with `row` equal to `n` and an `int` counter below
`INT_MAX` adds exactly 1 to the counter and leaves its board unchanged. -/
theorem C18_filled_boundary (board : Board) (hfull : ∀ i j, board i j ≠ 0) :
    find_unassigned board = none ∧
    (∀ fuel, solve_sudoku_sequential_pure_aux (fuel + 1) board = some (true, board)) ∧
    solve_sudoku_sequential_pure board = some (true, board) ∧
    (∀ fuel sc sb depth,
      solve_sudoku_parallel_aux fuel sc { solution_found := 0, solution_board := sb } board depth
        = some (board, [], { solution_found := 1, solution_board := board })) ∧
    (∀ fuel sc g0, solve_sudoku_parallel_wrapper_aux fuel sc g0 board
      = some (true, board, { solution_found := 1, solution_board := board })) ∧
    (∀ sc g0, solve_sudoku_parallel_wrapper sc g0 board
      = some (true, board, { solution_found := 1, solution_board := board })) ∧
    (∀ (queens : NQueens.Board) (n : Nat) (count : Int), INT_MIN ≤ count → count < INT_MAX →
      NQueens.solve_nqueens_sequential_helper queens n n count = some (queens, count + 1)) := by
  have hfind := find_unassigned_of_full hfull
  have hpure : ∀ fuel, solve_sudoku_sequential_pure_aux (fuel + 1) board = some (true, board) := by
    intro fuel
    unfold solve_sudoku_sequential_pure_aux
    rw [hfind]
  have hpar : ∀ fuel sc sb depth,
      solve_sudoku_parallel_aux fuel sc { solution_found := 0, solution_board := sb } board depth
        = some (board, [], { solution_found := 1, solution_board := board }) := by
    intro fuel sc sb depth
    have hz : ({ solution_found := 0, solution_board := sb } : Shared).solution_found = 0 := rfl
    unfold solve_sudoku_parallel_aux
    simp only [hfind, ne_eq, not_true_eq_false, if_false]
    rw [commit_of_zero hz]
  have hwrap : ∀ fuel sc g0, solve_sudoku_parallel_wrapper_aux fuel sc g0 board
      = some (true, board, { solution_found := 1, solution_board := board }) := by
    intro fuel sc g0
    unfold solve_sudoku_parallel_wrapper_aux
    simp only [hpar]
    rw [runTasks_of_ne_zero fuel (by exact one_ne_zero)]
    simp only [ne_eq, one_ne_zero, not_false_eq_true, if_true, copy_board_eq]
  refine ⟨hfind, hpure, hpure 81, hpar, hwrap, fun sc g0 => hwrap 82 sc g0, ?_⟩
  intro queens n count h1 h2
  have hw : wrap32 (count + 1) = count + 1 := by
    unfold wrap32; unfold INT_MIN at h1; unfold INT_MAX at h2; omega
  unfold NQueens.solve_nqueens_sequential_helper
  have : n + 1 - n = 0 + 1 := by omega
  rw [this]
  unfold NQueens.solve_nqueens_sequential_helper_aux
  rw [if_pos rfl, hw]

theorem C18_filled_boundary_witness :
    (∀ i j, fullGrid i j ≠ 0) ∧
    solve_sudoku_sequential_pure fullGrid = some (true, fullGrid) ∧
    solve_sudoku_parallel_wrapper eagerSched { solution_found := 7, solution_board := deadEnd }
      fullGrid = some (true, fullGrid, { solution_found := 1, solution_board := fullGrid }) ∧
    NQueens.solve_nqueens_sequential_helper NQueens.emptyBoard 8 8 91 =
      some (NQueens.emptyBoard, 91 + 1) :=
  ⟨by decide, (C18_filled_boundary fullGrid (by decide)).2.2.1,
    (C18_filled_boundary fullGrid (by decide)).2.2.2.2.2.1 eagerSched
      { solution_found := 7, solution_board := deadEnd },
    (C18_filled_boundary fullGrid (by decide)).2.2.2.2.2.2 NQueens.emptyBoard 8 91
      (by decide) (by decide)⟩

/-- C18 as stated fails in its N-Queens part when the `int` counter stands at `INT_MAX`:
`solve_nqueens_sequential_helper` called with `row` equal to `n` leaves the board unchanged,
but the increment takes the counter to `INT_MIN`, not to `INT_MAX + 1`. -/
theorem C18_counterexample :
    NQueens.solve_nqueens_sequential_helper NQueens.emptyBoard 8 8 INT_MAX =
      some (NQueens.emptyBoard, INT_MIN) ∧
    INT_MIN ≠ INT_MAX + 1 :=
  ⟨rfl, by decide⟩

theorem rebase_found (sb : Board) (g : Shared) :
    (rebase sb g).solution_found = g.solution_found := by
  unfold rebase
  split_ifs with h
  · exact h.symm
  · rfl

theorem rebase_of_ne_zero (sb : Board) {g : Shared} (h : g.solution_found ≠ 0) :
    rebase sb g = g := by
  unfold rebase
  rw [if_neg h]

theorem commit_rebase (sb : Board) (g : Shared) (c : Board) :
    commit (rebase sb g) c = rebase sb (commit g c) := by
  rw [rebase_of_ne_zero sb (commit_found_ne_zero g c)]
  by_cases h : g.solution_found = 0
  · rw [commit_of_zero h, commit_of_zero (by rw [rebase_found]; exact h)]
  · rw [rebase_of_ne_zero sb h]

theorem runTask_rebase (fuel : Nat) (sb : Board) (g : Shared) (t : Board) :
    runTask fuel (rebase sb g) t = (runTask fuel g t).map (rebase sb) := by
  by_cases h : g.solution_found = 0
  · unfold runTask
    simp only [rebase_found, h, ne_eq, not_true_eq_false, if_false]
    cases solve_sudoku_sequential_aux fuel (fun _ => decide False) 0 t with
    | none => rfl
    | some r =>
      obtain ⟨res, b1, k⟩ := r
      cases res with
      | true => simp only [Option.map_some', commit_rebase]
      | false => rfl
  · rw [rebase_of_ne_zero sb h, runTask_of_ne_zero fuel h, Option.map_some',
      rebase_of_ne_zero sb h]

theorem runTasks_rebase (fuel : Nat) (sb : Board) (l : List Board) :
    ∀ g : Shared, runTasks fuel (rebase sb g) l = (runTasks fuel g l).map (rebase sb) := by
  induction l with
  | nil => intro g; rfl
  | cons t rest ih =>
    intro g
    unfold runTasks
    rw [runTask_rebase]
    cases runTask fuel g t with
    | none => rfl
    | some g1 => exact ih g1

theorem forkLoop_rebase (fuel : Nat) (sc : Sched) (sb : Board) (b : Board) (r c : Fin 9)
    (nums : List Int) : ∀ (pending : List Board) (g : Shared),
      forkLoop fuel sc b r c nums pending (rebase sb g)
        = (forkLoop fuel sc b r c nums pending g).map
            (fun x => (x.1, x.2.1, rebase sb x.2.2)) := by
  induction nums with
  | nil => intro pending g; rfl
  | cons num rest ih =>
    intro pending g
    unfold forkLoop
    rw [runTasks_rebase]
    cases runTasks fuel g (sc.atCheck num pending).1 with
    | none => rfl
    | some g1 =>
      simp only [Option.map_some', rebase_found]
      by_cases h : g1.solution_found = 0
      · simp only [h, ne_eq, not_true_eq_false, if_false]
        by_cases hs : is_safe b r c num = true
        · rw [if_pos hs, if_pos hs]; exact ih _ g1
        · rw [if_neg hs, if_neg hs]; exact ih _ g1
      · simp only [h, ne_eq, not_false_eq_true, if_true, Option.map_some']

theorem parallel_aux_rebase (fuel : Nat) (sc : Sched) (sb : Board) (g : Shared) (b : Board) :
    solve_sudoku_parallel_aux fuel sc (rebase sb g) b 0
      = (solve_sudoku_parallel_aux fuel sc g b 0).map
          (fun x => (x.1, x.2.1, rebase sb x.2.2)) := by
  unfold solve_sudoku_parallel_aux
  simp only [rebase_found]
  by_cases h : g.solution_found = 0
  · simp only [h, ne_eq, not_true_eq_false, if_false, if_true]
    cases find_unassigned b with
    | none => simp only [Option.map_some', commit_rebase]
    | some p =>
      obtain ⟨r, c⟩ := p
      simp only [forkLoop_rebase]
      cases forkLoop fuel sc b r c digits [] g with
      | none => rfl
      | some x =>
        obtain ⟨early, pending, g1⟩ := x
        cases early with
        | true => rfl
        | false =>
          simp only [Option.map_some', runTasks_rebase]
          cases runTasks fuel g1 (sc.atWait pending) with
          | none => rfl
          | some g2 => rfl
  · simp only [h, ne_eq, not_false_eq_true, if_true, Option.map_some', rebase_of_ne_zero sb h]

/-- The return value of the wrapper and the board it leaves are the same from any two values
of the globals. -/
theorem wrapper_aux_globals (fuel : Nat) (sc : Sched) (g0 g0' : Shared) (b : Board) :
    (solve_sudoku_parallel_wrapper_aux fuel sc g0' b).map (fun x => (x.1, x.2.1))
      = (solve_sudoku_parallel_wrapper_aux fuel sc g0 b).map (fun x => (x.1, x.2.1)) := by
  have hg : ({ solution_found := 0, solution_board := g0'.solution_board } : Shared)
      = rebase g0'.solution_board { solution_found := 0, solution_board := g0.solution_board } := by
    unfold rebase
    rw [if_pos rfl]
  unfold solve_sudoku_parallel_wrapper_aux
  simp only [hg, parallel_aux_rebase]
  cases solve_sudoku_parallel_aux fuel sc
      { solution_found := 0, solution_board := g0.solution_board } b 0 with
  | none => rfl
  | some x =>
    obtain ⟨b1, pending, g1⟩ := x
    simp only [Option.map_some', runTasks_rebase]
    cases runTasks fuel g1 (sc.atWait pending) with
    | none => rfl
    | some g2 =>
      simp only [Option.map_some', rebase_found]
      by_cases h : g2.solution_found = 0
      · simp only [h, ne_eq, not_true_eq_false, if_false, Option.map_some']
      · simp only [h, ne_eq, not_false_eq_true, if_true, Option.map_some',
          rebase_of_ne_zero _ h]

/-- C20: under one and the same schedule, two calls of `solve_sudoku_parallel_wrapper` on the
same board that start from different values of the globals `solution_found` and
`solution_board` both return, with the same return value and the same board. -/
theorem C20_no_stale_state (sc : Sched) (hsc : SchedOK sc) (g0 g0' : Shared) (board : Board) :
    ∃ res b1 g1 g1', solve_sudoku_parallel_wrapper sc g0 board = some (res, b1, g1) ∧
      solve_sudoku_parallel_wrapper sc g0' board = some (res, b1, g1') := by
  obtain ⟨res, b1, g1, h1, _, _⟩ := wrapper_aux_spec (show 81 < 82 by decide) hsc g0 board
  obtain ⟨res2, b2, g2, h2, _, _⟩ := wrapper_aux_spec (show 81 < 82 by decide) hsc g0' board
  have h := wrapper_aux_globals 82 sc g0 g0' board
  rw [h1, h2] at h
  simp only [Option.map_some', Option.some.injEq, Prod.mk.injEq] at h
  obtain ⟨rfl, rfl⟩ := h
  exact ⟨res2, b2, g1, g2, h1, h2⟩

theorem C20_no_stale_state_witness :
    ∃ res b1 g1 g1',
      solve_sudoku_parallel_wrapper eagerSched
        { solution_found := 0, solution_board := freshBoard } almostSolved
          = some (res, b1, g1) ∧
      solve_sudoku_parallel_wrapper eagerSched
        { solution_found := 1, solution_board := fullGrid } almostSolved
          = some (res, b1, g1') :=
  C20_no_stale_state eagerSched eagerSched_ok
    { solution_found := 0, solution_board := freshBoard }
    { solution_found := 1, solution_board := fullGrid } almostSolved

theorem tryDigitsChecked_sound (solve : Nat → Board → Option (Bool × Board × Nat))
    (reads : Nat → Bool) (b : Board) (r c : Fin 9) (hb : b r c = 0)
    (hsolve : ∀ (n : Int) (k : Nat), 1 ≤ n → n ≤ 9 → is_safe b r c n = true →
      ∃ res b1 k1, solve k (setCell b r c n) = some (res, b1, k1) ∧
        (res = true → Completes (setCell b r c n) b1) ∧ (res = false → b1 = setCell b r c n))
    (nums : List Int) (hnums : ∀ n ∈ nums, 1 ≤ n ∧ n ≤ 9) :
    ∀ k : Nat, ∃ res b1 k1, tryDigitsChecked solve reads r c nums k b = some (res, b1, k1) ∧
      (res = true → Completes b b1) ∧ (res = false → b1 = b) := by
  induction nums with
  | nil => intro k; exact ⟨false, b, k, rfl, fun h => Bool.noConfusion h, fun _ => rfl⟩
  | cons n rest ih =>
    intro k
    have hn := hnums n (List.mem_cons_self _ _)
    have ih1 := ih (fun m hm => hnums m (List.mem_cons_of_mem _ hm))
    unfold tryDigitsChecked
    by_cases hread : reads k = true
    · rw [if_pos hread]
      exact ⟨false, b, k + 1, rfl, fun h => Bool.noConfusion h, fun _ => rfl⟩
    · rw [if_neg hread]
      by_cases hs : is_safe b r c n = true
      · rw [if_pos hs]
        obtain ⟨res, b1, k1, hres, ht, hf⟩ := hsolve n (k + 1) hn.1 hn.2 hs
        rw [hres]
        cases res with
        | true =>
          exact ⟨true, b1, k1, rfl, fun _ => Completes_of_setCell hb hn.1 hn.2 hs (ht rfl),
            fun h => Bool.noConfusion h⟩
        | false =>
          have hback : setCell b1 r c UNASSIGNED = b := by
            rw [hf rfl]
            have := setCell_restore b r c n
            rw [hb] at this; exact this
          simp only [hback]
          exact ih1 k1
      · rw [if_neg hs]
        exact ih1 (k + 1)

/-- Whatever the reads of `solution_found` see, a call of `solve_sudoku_sequential` returns,
with a completion of its board when it returns 1 and with its board as given when it
returns 0. -/
theorem sequential_aux_sound (reads : Nat → Bool) (fuel : Nat) :
    ∀ (k : Nat) (b : Board), emptyCount b < fuel →
      ∃ res b1 k1, solve_sudoku_sequential_aux fuel reads k b = some (res, b1, k1) ∧
        (res = true → Completes b b1) ∧ (res = false → b1 = b) := by
  induction fuel with
  | zero => intro k b h; omega
  | succ fuel ih =>
    intro k b hfuel
    unfold solve_sudoku_sequential_aux
    by_cases hread : reads k = true
    · rw [if_pos hread]
      exact ⟨false, b, k + 1, rfl, fun h => Bool.noConfusion h, fun _ => rfl⟩
    · rw [if_neg hread]
      cases hfind : find_unassigned b with
      | none =>
        exact ⟨true, b, k + 1, rfl, fun _ => Completes_self hfind, fun h => Bool.noConfusion h⟩
      | some p =>
        obtain ⟨r, c⟩ := p
        have hb := find_unassigned_some hfind
        apply tryDigitsChecked_sound _ reads b r c hb _ digits (fun n hn => digits_range hn)
        intro n k2 h1 _ _
        apply ih
        have := emptyCount_setCell_lt b r c n hb (by omega)
        omega

/-- C28: when every read of `solution_found` sees 0, `solve_sudoku_sequential` and
`solve_sudoku_sequential_pure` both return, with the same return value and the same
board. -/
theorem C28_flag_checks_are_optimization (reads : Nat → Bool) (hr : ∀ k, reads k = false)
    (board : Board) :
    ∃ res b1 k1, solve_sudoku_sequential reads board = some (res, b1, k1) ∧
      solve_sudoku_sequential_pure board = some (res, b1) := by
  obtain ⟨res, b1, hres, _, _⟩ := solve_spec board
  have h := sequential_aux_eq_pure reads hr 82 0 board
  unfold solve_sudoku_sequential_pure at hres
  rw [hres] at h
  unfold solve_sudoku_sequential solve_sudoku_sequential_pure
  cases hs : solve_sudoku_sequential_aux 82 reads 0 board with
  | none => rw [hs] at h; simp at h
  | some x =>
    obtain ⟨res2, b2, k2⟩ := x
    rw [hs] at h
    simp only [Option.map_some', Option.some.injEq, Prod.mk.injEq] at h
    obtain ⟨rfl, rfl⟩ := h
    exact ⟨res2, b2, k2, rfl, hres⟩

theorem C28_flag_checks_are_optimization_witness :
    ∃ res b1 k1, solve_sudoku_sequential (fun _ => false) almostSolved = some (res, b1, k1) ∧
      solve_sudoku_sequential_pure almostSolved = some (res, b1) :=
  C28_flag_checks_are_optimization (fun _ => false) (fun _ => rfl) almostSolved

/-- C29: whatever the successive reads of `solution_found` see (in particular when they go
from 0 to non-zero once and stay there), `solve_sudoku_sequential` returns; when it returns
1 the board it leaves has no empty cell and every cell that was empty in the input holds a
digit that no other cell of its row, column and box holds; when it returns 0 the board is
the input cell for cell; and when the first read sees a non-zero flag the call returns 0
from its outermost level, where no cell has been written. -/
theorem C29_early_abort_is_sound (reads : Nat → Bool) (board : Board) :
    ∃ res b1 k1, solve_sudoku_sequential reads board = some (res, b1, k1) ∧
      (res = true → (∀ i j, b1 i j ≠ 0) ∧
        ∀ i j, board i j = 0 → 1 ≤ b1 i j ∧ b1 i j ≤ 9 ∧
          ∀ i2 j2, (i2, j2) ≠ (i, j) → inUnit i j i2 j2 → b1 i2 j2 ≠ b1 i j) ∧
      (res = false → ∀ i j, b1 i j = board i j) ∧
      (reads 0 = true → res = false ∧
        ∀ fuel, solve_sudoku_sequential_aux (fuel + 1) reads 0 board
          = some (false, board, 1)) := by
  obtain ⟨res, b1, k1, hres, ht, hf⟩ :=
    sequential_aux_sound reads 82 0 board (by have := emptyCount_le board; omega)
  have hentry : reads 0 = true →
      ∀ fuel, solve_sudoku_sequential_aux (fuel + 1) reads 0 board = some (false, board, 1) := by
    intro h0 fuel
    unfold solve_sudoku_sequential_aux
    rw [if_pos h0]
  refine ⟨res, b1, k1, hres, fun h => ⟨(ht h).1, (ht h).2.2⟩, fun h i j => by rw [hf h],
    fun h0 => ⟨?_, hentry h0⟩⟩
  have := hentry h0 81
  rw [this] at hres
  simp only [Option.some.injEq, Prod.mk.injEq] at hres
  exact hres.1.symm

/-- C30: under every schedule that runs each pending task once, `solve_sudoku_parallel_wrapper`
returns; when it returns 0 the caller's board is the input cell for cell; when it returns 1
the caller's board equals `solution_board`, has no empty cell, and agrees with the input on
every cell that was non-empty in the input. -/
theorem C30_wrapper_result_board (sc : Sched) (hsc : SchedOK sc) (g0 : Shared) (board : Board) :
    ∃ res b1 g1, solve_sudoku_parallel_wrapper sc g0 board = some (res, b1, g1) ∧
      (res = false → ∀ i j, b1 i j = board i j) ∧
      (res = true → (∀ i j, b1 i j = g1.solution_board i j) ∧ (∀ i j, b1 i j ≠ 0) ∧
        ∀ i j, board i j ≠ 0 → b1 i j = board i j) := by
  obtain ⟨res, b1, g1, h1, ht, hf⟩ :=
    wrapper_aux_spec (show 81 < 82 by decide) hsc g0 board
  refine ⟨res, b1, g1, h1, fun h i j => by rw [(hf h).1], fun h => ?_⟩
  obtain ⟨hc, _, hsb⟩ := ht h
  exact ⟨fun i j => by rw [hsb], hc.1, hc.2.1⟩

theorem C30_wrapper_result_board_witness :
    ∃ res b1 g1,
      solve_sudoku_parallel_wrapper lazySched { solution_found := 1, solution_board := fullGrid }
        deadEnd = some (res, b1, g1) ∧
      (res = false → ∀ i j, b1 i j = deadEnd i j) ∧
      (res = true → (∀ i j, b1 i j = g1.solution_board i j) ∧ (∀ i j, b1 i j ≠ 0) ∧
        ∀ i j, deadEnd i j ≠ 0 → b1 i j = deadEnd i j) :=
  C30_wrapper_result_board lazySched lazySched_ok
    { solution_found := 1, solution_board := fullGrid } deadEnd

/-- C35: `is_valid_board` returns 1 exactly when no non-zero entry of the board occurs a
second time in its row, its column or its 3x3 box, and whatever it returns, the board after
the call is the board before the call, cell for cell. -/
theorem C35_is_valid_board_oracle (board : Board) :
    ((is_valid_board board).1 = true ↔
      ∀ i j i2 j2 : Fin 9, (i2, j2) ≠ (i, j) →
        (i2 = i ∨ j2 = j ∨ (i2.val / 3 = i.val / 3 ∧ j2.val / 3 = j.val / 3)) →
        board i j ≠ 0 → board i2 j2 ≠ board i j) ∧
    (∀ i j, (is_valid_board board).2 i j = board i j) := by
  have hspec := is_valid_board_loop_spec cells board
  refine ⟨?_, fun i j => by unfold is_valid_board; rw [hspec.1]⟩
  constructor
  · intro h i j i2 j2 hne hu hij
    exact is_valid_board_distinct h i j i2 j2 hij hne hu
  · intro h
    apply is_valid_board_of_checks
    rintro ⟨i, j⟩ _ hij
    rw [is_safe_iff]
    intro i2 j2 hu
    by_cases hne : (i2, j2) = (i, j)
    · rw [Prod.mk.injEq] at hne
      obtain ⟨rfl, rfl⟩ := hne
      rw [setCell_same]
      exact fun e => hij e.symm
    · rw [setCell_other board i j i2 j2 0 hne]
      exact h i j i2 j2 hne hu hij

theorem find_unassigned_split {b : Board} {r c : Fin 9} (h : find_unassigned b = some (r, c)) :
    ∃ l1 l2, cells = l1 ++ (r, c) :: l2 ∧ ∀ q ∈ l1, b q.1 q.2 ≠ 0 := by
  unfold find_unassigned at h
  obtain ⟨_, l1, l2, hl, hall⟩ := List.find?_eq_some.mp h
  refine ⟨l1, l2, hl, ?_⟩
  intro q hq
  have := hall q hq
  simpa [UNASSIGNED] using this

theorem LexLe_of_setCell {b g1 g2 : Board} {r c : Fin 9} {n : Int} (hn : n ≠ 0)
    (h1 : g1 r c = n) (h2 : g2 r c = n) (h : LexLe (setCell b r c n) g1 g2) :
    LexLe b g1 g2 := by
  have key : ∀ q : Fin 9 × Fin 9, (setCell b r c n q.1 q.2 = 0 → g1 q.1 q.2 = g2 q.1 q.2) →
      b q.1 q.2 = 0 → g1 q.1 q.2 = g2 q.1 q.2 := by
    intro q hq hb
    by_cases e : (q.1, q.2) = (r, c)
    · rw [Prod.mk.injEq] at e
      rw [e.1, e.2, h1, h2]
    · apply hq
      rw [setCell_other b r c q.1 q.2 n e]
      exact hb
  rcases h with h | ⟨l1, p, l2, hl, hp, hlt, hpre⟩
  · left
    intro i j hb
    exact key (i, j) (h i j) hb
  · right
    refine ⟨l1, p, l2, hl, ?_, hlt, fun q hq => key q (hpre q hq)⟩
    by_cases e : (p.1, p.2) = (r, c)
    · rw [Prod.mk.injEq] at e
      rw [e.1, e.2, setCell_same] at hp
      exact absurd hp hn
    · rw [setCell_other b r c p.1 p.2 n e] at hp
      exact hp

/-- The digit loop returns the least completion among those whose digit at the cell is still
to be tried. -/
theorem tryDigits_min (solve : Board → Option (Bool × Board)) (b : Board) (r c : Fin 9)
    (hb : b r c = 0)
    (hfirst : ∃ l1 l2, cells = l1 ++ (r, c) :: l2 ∧ ∀ q ∈ l1, b q.1 q.2 ≠ 0)
    (hsolve : ∀ n : Int, 1 ≤ n → SolveSpec (setCell b r c n) (solve (setCell b r c n)))
    (hmin : ∀ (n : Int) (b1 : Board), 1 ≤ n → solve (setCell b r c n) = some (true, b1) →
      ∀ g, Completes (setCell b r c n) g → LexLe (setCell b r c n) b1 g)
    (nums : List Int) (hnums : ∀ n ∈ nums, 1 ≤ n ∧ n ≤ 9)
    (hsorted : nums.Pairwise (fun x y => x < y)) :
    ∀ b1, tryDigits solve r c nums b = some (true, b1) →
      ∀ g, Completes b g → g r c ∈ nums → LexLe b b1 g := by
  induction nums with
  | nil => intro b1 _ g _ hg; exact absurd hg (List.not_mem_nil _)
  | cons n rest ih =>
    intro b1 hres g hg hmem
    have hn := hnums n (List.mem_cons_self _ _)
    have ih1 := ih (fun m hm => hnums m (List.mem_cons_of_mem _ hm)) (List.Pairwise.of_cons hsorted)
    obtain ⟨_, _, hsg, hcg⟩ := Completes_step hb hg
    by_cases hs : is_safe b r c n = true
    · obtain ⟨res, b2, hres2, ht, hf⟩ := hsolve n hn.1
      cases res with
      | true =>
        have e : b1 = b2 := by
          simp [tryDigits, hs, hres2] at hres
          exact hres.symm
        subst e
        have hc := ht rfl
        have hb1 : b1 r c = n := by
          have := hc.2.1 r c (by rw [setCell_same]; omega)
          rw [this, setCell_same]
        rcases List.mem_cons.mp hmem with hgn | hgrest
        · rw [hgn] at hcg
          exact LexLe_of_setCell (by omega) hb1 hgn (hmin n b1 hn.1 hres2 g hcg)
        · right
          obtain ⟨l1, l2, hl, hpre⟩ := hfirst
          refine ⟨l1, (r, c), l2, hl, hb, ?_, fun q hq hq0 => absurd hq0 (hpre q hq)⟩
          rw [hb1]
          exact List.rel_of_pairwise_cons hsorted hgrest
      | false =>
        obtain ⟨hb2, hno⟩ := hf rfl
        have hback : setCell b2 r c UNASSIGNED = b := by
          rw [hb2]
          have := setCell_restore b r c n
          rw [hb] at this; exact this
        have hres3 : tryDigits solve r c rest b = some (true, b1) := by
          simp [tryDigits, hs, hres2, hback] at hres
          exact hres
        rcases List.mem_cons.mp hmem with hgn | hgrest
        · rw [hgn] at hcg
          exact absurd hcg (hno g)
        · exact ih1 b1 hres3 g hg hgrest
    · have hres3 : tryDigits solve r c rest b = some (true, b1) := by
        simp [tryDigits, hs] at hres
        exact hres
      rcases List.mem_cons.mp hmem with hgn | hgrest
      · rw [hgn] at hsg
        exact absurd hsg hs
      · exact ih1 b1 hres3 g hg hgrest

theorem digits_sorted : digits.Pairwise (fun x y => x < y) := by
  unfold digits
  decide

/-- The board the search leaves when it returns 1 is the least completion of its input. -/
theorem solve_aux_min (fuel : Nat) : ∀ b : Board, emptyCount b < fuel →
    ∀ b1, solve_sudoku_sequential_pure_aux fuel b = some (true, b1) →
      ∀ g, Completes b g → LexLe b b1 g := by
  induction fuel with
  | zero => intro b h; omega
  | succ fuel ih =>
    intro b hfuel b1 hres g hg
    unfold solve_sudoku_sequential_pure_aux at hres
    cases hfind : find_unassigned b with
    | none =>
      left
      intro i j hij
      exact absurd hij (find_unassigned_none hfind i j)
    | some p =>
      obtain ⟨r, c⟩ := p
      rw [hfind] at hres
      simp only at hres
      have hb := find_unassigned_some hfind
      have hlt : ∀ n : Int, 1 ≤ n → emptyCount (setCell b r c n) < fuel := by
        intro n hn
        have := emptyCount_setCell_lt b r c n hb (by omega)
        omega
      obtain ⟨h1, h9, _, _⟩ := Completes_step hb hg
      exact tryDigits_min _ b r c hb (find_unassigned_split hfind)
        (fun n hn => solve_aux_spec fuel _ (hlt n hn))
        (fun n b2 hn h2 g2 hg2 => ih _ (hlt n hn) b2 h2 g2 hg2)
        digits (fun n hn => digits_range hn) digits_sorted b1 hres g hg (mem_digits h1 h9)

/-- C31, for boards with entries in 0..9 that pass `is_valid_board`: when
`solve_sudoku_sequential_pure` returns 1 on such a board, the board it leaves is a complete
valid grid that extends the input, and it is the least such grid in the lexicographic order
of the digits at the input's empty cells taken in row-major order. -/
theorem C31_least_completion (board b1 : Board) (hrange : ∀ i j, 0 ≤ board i j ∧ board i j ≤ 9)
    (hvalid : (is_valid_board board).1 = true)
    (h : solve_sudoku_sequential_pure board = some (true, b1)) :
    (ValidGrid b1 ∧ Extends board b1) ∧
    ∀ g, ValidGrid g → Extends board g → LexLe board b1 g := by
  obtain ⟨res, b2, hres, ht, _⟩ := solve_spec board
  rw [h] at hres
  simp only [Option.some.injEq, Prod.mk.injEq] at hres
  obtain ⟨rfl, rfl⟩ := hres
  refine ⟨(Completes_iff_valid hrange hvalid b1).mp (ht rfl), ?_⟩
  intro g hv he
  exact solve_aux_min 82 board (by have := emptyCount_le board; omega) b1 h g
    ((Completes_iff_valid hrange hvalid g).mpr ⟨hv, he⟩)

theorem C31_least_completion_witness :
    (ValidGrid almostSolvedResult ∧ Extends almostSolved almostSolvedResult) ∧
    ∀ g, ValidGrid g → Extends almostSolved g → LexLe almostSolved almostSolvedResult g :=
  C31_least_completion almostSolved almostSolvedResult (by decide)
    (is_valid_board_of_checks (by decide)) rfl

/-- C31 as stated fails on a board that does not pass `is_valid_board`: on the board with 1
in every cell `solve_sudoku_sequential_pure` returns 1 and leaves the board as it is, which
is not a valid grid, the cells (0,0) and (0,1) of its first row both holding 1. -/
theorem C31_counterexample :
    solve_sudoku_sequential_pure allOnes = some (true, allOnes) ∧
    (∀ i j, 0 ≤ allOnes i j ∧ allOnes i j ≤ 9) ∧
    (is_valid_board allOnes).1 = false ∧
    ¬ ValidGrid allOnes := by
  refine ⟨rfl, by decide, by decide, ?_⟩
  intro hv
  exact hv.2 0 0 0 1 (by decide) (Or.inl rfl) rfl

end Sudoku

/-! ## N-Queens: properties -/

namespace NQueens

theorem wrap32_bounds (x : Int) : INT_MIN ≤ wrap32 x ∧ wrap32 x ≤ INT_MAX := by
  unfold wrap32 INT_MIN INT_MAX; omega

theorem wrap32_of_range {x : Int} (h1 : INT_MIN ≤ x) (h2 : x ≤ INT_MAX) : wrap32 x = x := by
  unfold wrap32; unfold INT_MIN at h1; unfold INT_MAX at h2; omega

theorem wrap32_add_left (a b : Int) : wrap32 (wrap32 a + b) = wrap32 (a + b) := by
  unfold wrap32; omega

theorem absZ_eq_abs (x : Int) : absZ x = |x| := by
  unfold absZ
  split_ifs with hx
  · exact (abs_of_neg hx).symm
  · exact (abs_of_nonneg (not_lt.mp hx)).symm

/-- The diagonal test of `is_safe` on a row distance `r` and a column
difference `d` that both fit an `int`. -/
theorem diag_test_iff {r d : Int} (hr1 : 0 ≤ r) (hr2 : r ≤ INT_MAX) (hd1 : INT_MIN ≤ d)
    (hd2 : d ≤ INT_MAX) : c_abs (wrap32 r) = c_abs (wrap32 d) ↔ absZ r = absZ d := by
  rw [wrap32_of_range (by unfold INT_MIN; omega) hr2, wrap32_of_range hd1 hd2]
  unfold INT_MAX at hr2 hd2
  unfold INT_MIN at hd1
  unfold c_abs absZ wrap32
  constructor <;> intro h <;> split_ifs at h ⊢ <;> omega

theorem nq_is_safe_iff (board : Board) (row : Nat) (col : Int) (hrow : (row : Int) ≤ INT_MAX)
    (hfit : ∀ i, i < row → INT_MIN ≤ col - board i ∧ col - board i ≤ INT_MAX) :
    is_safe board row col = true ↔
      ∀ i, i < row → board i ≠ col ∧ absZ ((row : Int) - i) ≠ absZ (col - board i) := by
  unfold is_safe
  rw [List.all_eq_true]
  have hd : ∀ i, i < row → (c_abs (wrap32 ((row : Int) - i)) = c_abs (wrap32 (col - board i)) ↔
      absZ ((row : Int) - i) = absZ (col - board i)) := fun i hi =>
    diag_test_iff (by omega) (by omega) (hfit i hi).1 (hfit i hi).2
  constructor
  · intro h i hi
    have := h i (List.mem_range.mpr hi)
    by_cases h1 : board i = col
    · simp [h1] at this
    · by_cases h2 : c_abs (wrap32 ((row : Int) - i)) = c_abs (wrap32 (col - board i))
      · simp [h1, h2] at this
      · exact ⟨h1, fun e => h2 ((hd i hi).mpr e)⟩
  · intro h i hi
    obtain ⟨h1, h2⟩ := h i (List.mem_range.mp hi)
    have h3 : ¬ c_abs (wrap32 ((row : Int) - i)) = c_abs (wrap32 (col - board i)) :=
      fun e => h2 ((hd i (List.mem_range.mp hi)).mp e)
    simp [h1, h3]

theorem nq_is_safe_congr {b b2 : Board} {row : Nat} (h : ∀ i, i < row → b i = b2 i)
    (col : Int) : is_safe b row col = is_safe b2 row col := by
  unfold is_safe
  rw [Bool.eq_iff_iff, List.all_eq_true, List.all_eq_true]
  constructor
  · intro hs i hi; rw [← h i (List.mem_range.mp hi)]; exact hs i hi
  · intro hs i hi; rw [h i (List.mem_range.mp hi)]; exact hs i hi

/-- On a board whose recorded queens are column numbers, the `int` arithmetic
of `is_safe` is exact for a column number `col`. -/
theorem nq_is_safe_iff_columns {n : Nat} {b : Board} {row col : Nat} (hn : (n : Int) ≤ INT_MAX)
    (hp : PrefixOK n b row) (hrow : row ≤ n) (hcol : col < n) :
    is_safe b row col = true ↔
      ∀ i, i < row → b i ≠ col ∧ absZ ((row : Int) - i) ≠ absZ ((col : Int) - b i) := by
  apply nq_is_safe_iff b row col (by omega)
  intro i hi
  have := hp.1 i hi
  unfold INT_MAX at hn
  unfold INT_MIN INT_MAX
  omega

theorem sols_congr (n : Nat) {b b2 : Board} {row : Nat} (h : ∀ i, i < row → b i = b2 i) :
    sols n b row = sols n b2 row := by
  unfold sols
  apply Finset.filter_congr
  intro q _
  constructor
  · rintro ⟨hv, ha⟩; exact ⟨hv, fun i hi => by rw [← h i.val hi]; exact ha i hi⟩
  · rintro ⟨hv, ha⟩; exact ⟨hv, fun i hi => by rw [h i.val hi]; exact ha i hi⟩

theorem PrefixOK_congr (n : Nat) {b b2 : Board} {row : Nat} (h : ∀ i, i < row → b i = b2 i)
    (hp : PrefixOK n b row) : PrefixOK n b2 row := by
  obtain ⟨h1, h2⟩ := hp
  refine ⟨fun i hi => by rw [← h i hi]; exact h1 i hi, fun i j hij hj => ?_⟩
  rw [← h i (by omega), ← h j hj]
  exact h2 i j hij hj

theorem setRow_lt (b : Board) (row : Nat) (v : Int) {i : Nat} (h : i < row) :
    setRow b row v i = b i := by
  have : i ≠ row := by omega
  simp [setRow, this]

theorem setRow_same (b : Board) (row : Nat) (v : Int) : setRow b row v row = v := by
  simp [setRow]

theorem PrefixOK_step {n : Nat} {b : Board} {row col : Nat} (hn : (n : Int) ≤ INT_MAX)
    (hrow : row ≤ n) (hp : PrefixOK n b row)
    (hcol : col < n) (hs : is_safe b row col = true) :
    PrefixOK n (setRow b row col) (row + 1) := by
  rw [nq_is_safe_iff_columns hn hp hrow hcol] at hs
  obtain ⟨h1, h2⟩ := hp
  constructor
  · intro i hi
    by_cases hir : i = row
    · subst hir; rw [setRow_same]; omega
    · rw [setRow_lt b row col (by omega)]; exact h1 i (by omega)
  · intro i j hij hj
    by_cases hjr : j = row
    · subst hjr
      rw [setRow_same, setRow_lt b j col hij]
      obtain ⟨ha, hb⟩ := hs i hij
      refine ⟨ha, ?_⟩
      intro e
      apply hb
      have e1 : absZ ((j : Int) - i) = absZ ((i : Int) - j) := by
        unfold absZ; split_ifs <;> omega
      have e2 : absZ ((col : Int) - b i) = absZ (b i - col) := by
        unfold absZ; split_ifs <;> omega
      rw [e1, e2]; exact e
    · rw [setRow_lt b row col (by omega : j < row), setRow_lt b row col (by omega : i < row)]
      exact h2 i j hij (by omega)

theorem sols_base {n : Nat} {b : Board} (hp : PrefixOK n b n) : (sols n b n).card = 1 := by
  obtain ⟨h1, h2⟩ := hp
  rw [Finset.card_eq_one]
  refine ⟨fun i => ⟨(b i.val).toNat, by have := h1 i.val i.isLt; omega⟩, ?_⟩
  ext q
  simp only [sols, Finset.mem_filter, Finset.mem_univ, true_and, Finset.mem_singleton]
  constructor
  · rintro ⟨_, ha⟩
    funext i
    apply Fin.ext
    have := ha i i.isLt
    simp only
    omega
  · rintro rfl
    have hval : ∀ i : Fin n, (((b i.val).toNat : Nat) : Int) = b i.val := by
      intro i; have := h1 i.val i.isLt; omega
    refine ⟨?_, fun i _ => hval i⟩
    intro i j hij
    obtain ⟨ha, hb⟩ := h2 i.val j.val hij j.isLt
    refine ⟨?_, ?_⟩
    · intro e
      apply ha
      have := congrArg (fun x : Fin n => (x.val : Int)) e
      simp only at this
      rw [hval i, hval j] at this
      exact this
    · simp only
      rw [hval i, hval j]
      exact hb

theorem sols_of_not_safe {n : Nat} {b : Board} {row col : Nat} (hn : (n : Int) ≤ INT_MAX)
    (hp : PrefixOK n b row) (hcol : col < n) (hrow : row < n)
    (hs : ¬ is_safe b row col = true) : sols n (setRow b row col) (row + 1) = ∅ := by
  rw [nq_is_safe_iff_columns hn hp (by omega) hcol] at hs
  push_neg at hs
  obtain ⟨i, hi, hbad⟩ := hs
  rw [Finset.eq_empty_iff_forall_not_mem]
  intro q hq
  simp only [sols, Finset.mem_filter, Finset.mem_univ, true_and] at hq
  obtain ⟨hv, ha⟩ := hq
  have hi2 := ha ⟨i, by omega⟩ (by simp; omega)
  have hr2 := ha ⟨row, hrow⟩ (by simp)
  simp only [setRow_same] at hr2
  rw [setRow_lt b row col hi] at hi2
  obtain ⟨hne, hdiag⟩ := hv ⟨i, by omega⟩ ⟨row, hrow⟩ (by simp [Fin.lt_def]; exact hi)
  by_cases hcol : b i = col
  · apply hne
    apply Fin.ext
    have : ((q ⟨i, by omega⟩).val : Int) = ((q ⟨row, hrow⟩).val : Int) := by
      rw [hi2, hr2, hcol]
    exact_mod_cast this
  · have hd := hbad hcol
    apply hdiag
    simp only
    rw [hi2, hr2]
    have e1 : absZ ((i : Int) - row) = absZ ((row : Int) - i) := by
      unfold absZ; split_ifs <;> omega
    have e2 : absZ (b i - (col : Int)) = absZ ((col : Int) - b i) := by
      unfold absZ; split_ifs <;> omega
    rw [e1, e2]; exact hd

theorem sols_fiber {n : Nat} (b : Board) {row : Nat} (hrow : row < n) (col : Nat) :
    (sols n b row).filter (fun q => (q ⟨row, hrow⟩).val = col) =
      sols n (setRow b row col) (row + 1) := by
  ext q
  simp only [sols, Finset.mem_filter, Finset.mem_univ, true_and]
  constructor
  · rintro ⟨⟨hv, ha⟩, hc⟩
    refine ⟨hv, fun i hi => ?_⟩
    by_cases hir : i.val = row
    · have : i = ⟨row, hrow⟩ := Fin.ext hir
      rw [this, setRow_same, hc]
    · rw [setRow_lt b row col (by omega)]; exact ha i (by omega)
  · rintro ⟨hv, ha⟩
    refine ⟨⟨hv, fun i hi => ?_⟩, ?_⟩
    · have := ha i (by omega)
      rwa [setRow_lt b row col hi] at this
    · have := ha ⟨row, hrow⟩ (by simp)
      rw [setRow_same] at this
      exact_mod_cast this

theorem sols_step {n : Nat} (b : Board) {row : Nat} (hrow : row < n) :
    ((sols n b row).card : Int) =
      ((List.range n).map
        (fun col : Nat => ((sols n (setRow b row (col : Int)) (row + 1)).card : Int))).sum := by
  have h1 : (sols n b row).card = ∑ col in Finset.range n,
      ((sols n b row).filter (fun q => (q ⟨row, hrow⟩).val = col)).card :=
    Finset.card_eq_sum_card_fiberwise (fun q _ => Finset.mem_range.mpr (q ⟨row, hrow⟩).isLt)
  have h2 : (List.range n).toFinset = Finset.range n := by
    ext x; simp
  have h3 : ∀ col ∈ Finset.range n,
      ((sols n b row).filter (fun q => (q ⟨row, hrow⟩).val = col)).card =
        (sols n (setRow b row (col : Int)) (row + 1)).card := by
    intro col _; rw [sols_fiber b hrow col]
  rw [h1, Finset.sum_congr rfl h3]
  push_cast
  rw [← h2, List.sum_toFinset _ (List.nodup_range n)]

theorem step_agree {b B : Board} {row : Nat} (col : Int) (h : ∀ i, i < row → b i = B i) :
    ∀ i, i < row + 1 → setRow b row col i = setRow B row col i := by
  intro i hi
  by_cases hir : i = row
  · subst hir; rw [setRow_same, setRow_same]
  · rw [setRow_lt b row col (by omega), setRow_lt B row col (by omega)]; exact h i (by omega)

theorem seqLoop_spec {n row : Nat} (hn : (n : Int) ≤ INT_MAX) (hrow : row < n)
    {solve : Board → Int → Option (Board × Int)} (hrec : CallSpec n (row + 1) solve)
    (B : Board) (hB : PrefixOK n B row) (l : List Nat) (hl : ∀ col ∈ l, col < n) :
    ∀ (board : Board) (count : Int), (∀ i, i < row → board i = B i) →
      INT_MIN ≤ count → count ≤ INT_MAX →
      ∃ b1, seqLoop solve row l board count =
          some (b1, wrap32 (count + (l.map (below n B row)).sum)) ∧
        ∀ i, i < row → b1 i = B i := by
  induction l with
  | nil =>
    intro board count hag h1 h2
    exact ⟨board, by simp [seqLoop, wrap32_of_range h1 h2], hag⟩
  | cons col rest ih =>
    intro board count hag hc1 hc2
    have ih1 := ih (fun c hc => hl c (List.mem_cons_of_mem _ hc))
    have hcol := hl col (List.mem_cons_self _ _)
    have hsafe : is_safe board row col = is_safe B row col := nq_is_safe_congr hag _
    by_cases hs : is_safe B row col = true
    · have hp : PrefixOK n (setRow board row col) (row + 1) :=
        PrefixOK_congr n (fun i hi => (step_agree (col : Int) hag i hi).symm)
          (PrefixOK_step hn (by omega) hB hcol hs)
      obtain ⟨b1, hb1, hag1⟩ := hrec (setRow board row col) count hp hc1 hc2
      have hcard : sols n (setRow board row col) (row + 1) = sols n (setRow B row col) (row + 1) :=
        sols_congr n (step_agree (col : Int) hag)
      have hag2 : ∀ i, i < row → setRow b1 row (-1) i = B i := by
        intro i hi
        rw [setRow_lt b1 row (-1) hi, hag1 i (by omega), setRow_lt board row col hi]
        exact hag i hi
      obtain ⟨b2, hb2, hag3⟩ := ih1 (setRow b1 row (-1))
        (wrap32 (count + ((sols n (setRow B row col) (row + 1)).card : Int))) hag2
        (wrap32_bounds _).1 (wrap32_bounds _).2
      refine ⟨b2, ?_, hag3⟩
      simp only [seqLoop, hsafe, hs, if_true, hb1, List.map_cons, List.sum_cons, below, hcard]
      rw [hb2, wrap32_add_left, add_assoc]
    · have hz : below n B row col = 0 := by
        unfold below; rw [sols_of_not_safe hn hB hcol hrow hs]; simp
      obtain ⟨b2, hb2, hag3⟩ := ih1 board count hag hc1 hc2
      refine ⟨b2, ?_, hag3⟩
      simp only [seqLoop, hsafe, hs, hb2, List.map_cons, List.sum_cons, hz, zero_add]
      simp

theorem inPlaceLoop_spec {n row : Nat} (hn : (n : Int) ≤ INT_MAX) (hrow : row < n)
    {solve : Board → Int → Option (Board × Int)} (hrec : CallSpec n (row + 1) solve)
    (B : Board) (hB : PrefixOK n B row) (l : List Nat) (hl : ∀ col ∈ l, col < n) :
    ∀ (board : Board) (count : Int), (∀ i, i < row → board i = B i) →
      INT_MIN ≤ count → count ≤ INT_MAX →
      ∃ b1, inPlaceLoop solve row l board count =
          some (b1, wrap32 (count + (l.map (below n B row)).sum)) ∧
        ∀ i, i < row → b1 i = B i := by
  induction l with
  | nil =>
    intro board count hag h1 h2
    exact ⟨board, by simp [inPlaceLoop, wrap32_of_range h1 h2], hag⟩
  | cons col rest ih =>
    intro board count hag hc1 hc2
    have ih1 := ih (fun c hc => hl c (List.mem_cons_of_mem _ hc))
    have hcol := hl col (List.mem_cons_self _ _)
    have hsafe : is_safe board row col = is_safe B row col := nq_is_safe_congr hag _
    by_cases hs : is_safe B row col = true
    · have hp : PrefixOK n (setRow board row col) (row + 1) :=
        PrefixOK_congr n (fun i hi => (step_agree (col : Int) hag i hi).symm)
          (PrefixOK_step hn (by omega) hB hcol hs)
      obtain ⟨b1, hb1, hag1⟩ := hrec (setRow board row col) count hp hc1 hc2
      have hcard : sols n (setRow board row col) (row + 1) = sols n (setRow B row col) (row + 1) :=
        sols_congr n (step_agree (col : Int) hag)
      have hag2 : ∀ i, i < row → b1 i = B i := by
        intro i hi
        rw [hag1 i (by omega), setRow_lt board row col hi]
        exact hag i hi
      obtain ⟨b2, hb2, hag3⟩ := ih1 b1
        (wrap32 (count + ((sols n (setRow B row col) (row + 1)).card : Int))) hag2
        (wrap32_bounds _).1 (wrap32_bounds _).2
      refine ⟨b2, ?_, hag3⟩
      simp only [inPlaceLoop, hsafe, hs, if_true, hb1, List.map_cons, List.sum_cons, below, hcard]
      rw [hb2, wrap32_add_left, add_assoc]
    · have hz : below n B row col = 0 := by
        unfold below; rw [sols_of_not_safe hn hB hcol hrow hs]; simp
      obtain ⟨b2, hb2, hag3⟩ := ih1 board count hag hc1 hc2
      refine ⟨b2, ?_, hag3⟩
      simp only [inPlaceLoop, hsafe, hs, hb2, List.map_cons, List.sum_cons, hz, zero_add]
      simp

theorem runTasks_spec {n row : Nat} (hn : (n : Int) ≤ INT_MAX) (hrow : row < n)
    {solve : Board → Int → Option (Board × Int)} (hrec : CallSpec n (row + 1) solve)
    (B : Board) (hB : PrefixOK n B row) (l : List Nat)
    (hl : ∀ col ∈ l, col < n ∧ is_safe B row col = true) :
    ∀ count : Int, INT_MIN ≤ count → count ≤ INT_MAX →
      runTasks solve row B l count = some (wrap32 (count + (l.map (below n B row)).sum)) := by
  induction l with
  | nil => intro count h1 h2; simp [runTasks, wrap32_of_range h1 h2]
  | cons col rest ih =>
    intro count hc1 hc2
    have ih1 := ih (fun c hc => hl c (List.mem_cons_of_mem _ hc))
    obtain ⟨hcol, hs⟩ := hl col (List.mem_cons_self _ _)
    obtain ⟨b1, hb1, _⟩ := hrec (setRow B row col) count
      (PrefixOK_step hn (by omega) hB hcol hs) hc1 hc2
    simp only [runTasks, hb1, List.map_cons, List.sum_cons, below]
    rw [ih1 _ (wrap32_bounds _).1 (wrap32_bounds _).2, wrap32_add_left, add_assoc]

theorem sum_filter_safe {n row : Nat} (hn : (n : Int) ≤ INT_MAX) (hrow : row < n) (B : Board)
    (hB : PrefixOK n B row) (l : List Nat) (hl : ∀ col ∈ l, col < n) :
    ((l.filter (fun col : Nat => is_safe B row col)).map (below n B row)).sum =
      (l.map (below n B row)).sum := by
  induction l with
  | nil => simp
  | cons col rest ih =>
    have ih1 := ih (fun c hc => hl c (List.mem_cons_of_mem _ hc))
    by_cases hs : is_safe B row col = true
    · simp [List.filter_cons, hs, ih1]
    · have hz : below n B row col = 0 := by
        unfold below
        rw [sols_of_not_safe hn hB (hl col (List.mem_cons_self _ _)) hrow hs]; simp
      simp [List.filter_cons, hs, ih1, hz]

theorem below_sum {n row : Nat} (hrow : row < n) (B : Board) :
    ((List.range n).map (below n B row)).sum = ((sols n B row).card : Int) := by
  rw [sols_step B hrow]; rfl

theorem seq_aux_spec (n : Nat) (hn : (n : Int) ≤ INT_MAX) (fuel : Nat) :
    ∀ row : Nat, row ≤ n → n - row < fuel →
    CallSpec n row (fun b c => solve_nqueens_sequential_helper_aux fuel b row n c) := by
  induction fuel with
  | zero => intro row _ h; omega
  | succ fuel ih =>
    intro row hrow hfuel b c hp hc1 hc2
    by_cases hrn : row = n
    · subst hrn
      refine ⟨b, ?_, fun _ _ => rfl⟩
      simp [solve_nqueens_sequential_helper_aux, sols_base hp]
    · have hlt : row < n := by omega
      obtain ⟨b1, hb1, hag⟩ := seqLoop_spec hn hlt (ih (row + 1) (by omega) (by omega)) b hp
        (List.range n) (fun col hc => List.mem_range.mp hc) b c (fun _ _ => rfl) hc1 hc2
      refine ⟨b1, ?_, hag⟩
      simp only [solve_nqueens_sequential_helper_aux, hrn, if_false, hb1, below_sum hlt]

theorem par_aux_spec (n : Nat) (hn : (n : Int) ≤ INT_MAX)
    (sched : Nat → Board → List Nat → List Nat)
    (hsched : ∀ r b l, (sched r b l).Perm l) (fuel : Nat) :
    ∀ (row : Nat) (depth : Int), row ≤ n → n - row < fuel →
    CallSpec n row (fun b c => solve_nqueens_parallel_aux sched fuel b row n c depth) := by
  induction fuel with
  | zero => intro row _ _ h; omega
  | succ fuel ih =>
    intro row depth hrow hfuel b c hp hc1 hc2
    by_cases hrn : row = n
    · subst hrn
      refine ⟨b, ?_, fun _ _ => rfl⟩
      simp [solve_nqueens_parallel_aux, sols_base hp]
    · have hlt : row < n := by omega
      have hrec := ih (row + 1) (wrap32 (depth + 1)) (by omega) (by omega)
      by_cases hfork : depth < 2 ∧ (row : Int) < (n : Int) - 2
      · have hperm := hsched row b ((List.range n).filter (fun col => is_safe b row col))
        have hmem : ∀ col ∈ sched row b ((List.range n).filter (fun col => is_safe b row col)),
            col < n ∧ is_safe b row col = true := by
          intro col hc
          have := (hperm.mem_iff).mp hc
          rw [List.mem_filter] at this
          exact ⟨List.mem_range.mp this.1, this.2⟩
        have hrun := runTasks_spec hn hlt hrec b hp _ hmem c hc1 hc2
        have hsum : ((sched row b ((List.range n).filter (fun col => is_safe b row col))).map
            (below n b row)).sum = ((sols n b row).card : Int) := by
          rw [(hperm.map (below n b row)).sum_eq,
            sum_filter_safe hn hlt b hp _ (fun col hc => List.mem_range.mp hc), below_sum hlt]
        refine ⟨b, ?_, fun _ _ => rfl⟩
        simp only [solve_nqueens_parallel_aux, hrn, if_false, hfork, and_self, if_true, hrun,
          hsum]
      · obtain ⟨b1, hb1, hag⟩ := inPlaceLoop_spec hn hlt hrec b hp
          (List.range n) (fun col hc => List.mem_range.mp hc) b c (fun _ _ => rfl) hc1 hc2
        refine ⟨b1, ?_, hag⟩
        simp only [solve_nqueens_parallel_aux, hrn, if_false, hfork, hb1, below_sum hlt]

theorem PrefixOK_zero (n : Nat) (b : Board) : PrefixOK n b 0 :=
  ⟨fun i hi => by omega, fun i j _ hj => by omega⟩

theorem sols_zero (n : Nat) (b : Board) : (sols n b 0).card = validCount n := by
  unfold sols validCount
  congr 1
  apply Finset.filter_congr
  intro q _
  simp

theorem validCount_le (n : Nat) : validCount n ≤ n ^ n := by
  unfold validCount
  calc (Finset.univ.filter (fun q : Fin n → Fin n => Valid n q)).card
      ≤ (Finset.univ : Finset (Fin n → Fin n)).card := Finset.card_filter_le _ _
    _ = n ^ n := by simp

theorem linearQ_cast {p : Nat} (hp : 0 < p) (a b : Nat) (k : Fin p) :
    (((linearQ p hp a b k).val : Nat) : ZMod p) = (a : ZMod p) * (k.val : ZMod p) + b := by
  simp [linearQ, ZMod.natCast_mod]

/-- For a prime `p` and a slope `a` other than 0, 1 and -1 modulo `p`, the
placement `i ↦ (a * i + b) mod p` is valid. -/
theorem linearQ_valid {p : Nat} (hp : p.Prime) {a : Nat} (ha1 : 2 ≤ a) (ha2 : a + 2 ≤ p)
    (b : Nat) : Valid p (linearQ p hp.pos a b) := by
  haveI : Fact p.Prime := ⟨hp⟩
  intro i j hij
  have hij2 : (i.val : ZMod p) - (j.val : ZMod p) ≠ 0 := by
    intro e
    have e2 := (ZMod.natCast_eq_natCast_iff' i.val j.val p).mp (sub_eq_zero.mp e)
    rw [Nat.mod_eq_of_lt i.isLt, Nat.mod_eq_of_lt j.isLt] at e2
    exact absurd (Fin.ext e2) (ne_of_lt hij)
  have ha0 : (a : ZMod p) ≠ 0 := by
    intro e
    have h1 := Nat.le_of_dvd (by omega) ((ZMod.natCast_zmod_eq_zero_iff_dvd a p).mp e)
    omega
  have ham : (a : ZMod p) - 1 ≠ 0 := by
    intro e
    have e2 : (((a - 1 : Nat) : Nat) : ZMod p) = 0 := by
      rw [Nat.cast_sub (by omega)]; simpa using e
    have h1 := Nat.le_of_dvd (by omega) ((ZMod.natCast_zmod_eq_zero_iff_dvd (a - 1) p).mp e2)
    omega
  have hap : (a : ZMod p) + 1 ≠ 0 := by
    intro e
    have e2 : (((a + 1 : Nat) : Nat) : ZMod p) = 0 := by
      rw [Nat.cast_add]; simpa using e
    have h1 := Nat.le_of_dvd (by omega) ((ZMod.natCast_zmod_eq_zero_iff_dvd (a + 1) p).mp e2)
    omega
  have hci := linearQ_cast hp.pos a b i
  have hcj := linearQ_cast hp.pos a b j
  constructor
  · intro e
    rw [e, hcj] at hci
    have h0 : (a : ZMod p) * ((i.val : ZMod p) - (j.val : ZMod p)) = 0 := by
      linear_combination -hci
    rcases mul_eq_zero.mp h0 with h | h
    · exact ha0 h
    · exact hij2 h
  · intro e
    have hlt : (i.val : Int) < (j.val : Int) := by exact_mod_cast hij
    have key : (((linearQ p hp.pos a b i).val : Int) - ((linearQ p hp.pos a b j).val : Int)
          = (i.val : Int) - (j.val : Int)) ∨
        (((linearQ p hp.pos a b i).val : Int) - ((linearQ p hp.pos a b j).val : Int)
          = (j.val : Int) - (i.val : Int)) := by
      unfold absZ at e
      split_ifs at e <;> omega
    rcases key with h | h
    · have h2 := congrArg (fun x : Int => (x : ZMod p)) h
      simp only [Int.cast_sub, Int.cast_natCast, hci, hcj] at h2
      have h0 : ((a : ZMod p) - 1) * ((i.val : ZMod p) - (j.val : ZMod p)) = 0 := by
        linear_combination h2
      rcases mul_eq_zero.mp h0 with h3 | h3
      · exact ham h3
      · exact hij2 h3
    · have h2 := congrArg (fun x : Int => (x : ZMod p)) h
      simp only [Int.cast_sub, Int.cast_natCast, hci, hcj] at h2
      have h0 : ((a : ZMod p) + 1) * ((i.val : ZMod p) - (j.val : ZMod p)) = 0 := by
        linear_combination h2
      rcases mul_eq_zero.mp h0 with h3 | h3
      · exact hap h3
      · exact hij2 h3

theorem linearQ_inj {p : Nat} (hp : 2 ≤ p) (h0 : 0 < p) {a b a2 b2 : Nat} (ha : a < p)
    (hb : b < p) (ha2 : a2 < p) (hb2 : b2 < p)
    (e : linearQ p h0 a b = linearQ p h0 a2 b2) : a = a2 ∧ b = b2 := by
  have e0 := congrArg Fin.val (congrFun e ⟨0, h0⟩)
  have e1 := congrArg Fin.val (congrFun e ⟨1, hp⟩)
  simp only [linearQ, Nat.mul_zero, Nat.zero_add, Nat.mul_one] at e0 e1
  rw [Nat.mod_eq_of_lt hb, Nat.mod_eq_of_lt hb2] at e0
  subst e0
  refine ⟨?_, rfl⟩
  have h1 : a ≡ a2 [MOD p] := Nat.ModEq.add_right_cancel' b e1
  exact Nat.ModEq.eq_of_lt_of_lt h1 ha ha2

/-- A prime board size `p` has at least `(p - 3) * p` valid placements: the
linear placements with a slope between 2 and `p - 2`. -/
theorem validCount_prime_ge {p : Nat} (hp : p.Prime) : (p - 3) * p ≤ validCount p := by
  have h2 := hp.two_le
  have hcard : ((Finset.Icc 2 (p - 2)) ×ˢ (Finset.range p)).card = (p - 3) * p := by
    rw [Finset.card_product, Nat.card_Icc, Finset.card_range]
    congr 1
  rw [← hcard]
  unfold validCount
  apply Finset.card_le_card_of_injOn (fun ab => linearQ p hp.pos ab.1 ab.2)
  · intro ab hab
    have hm := Finset.mem_product.mp hab
    have h1 := Finset.mem_Icc.mp hm.1
    rw [Finset.mem_filter]
    exact ⟨Finset.mem_univ _, linearQ_valid hp h1.1 (by omega) ab.2⟩
  · intro ab hab cd hcd e
    have hm := Finset.mem_product.mp (Finset.mem_coe.mp hab)
    have hm2 := Finset.mem_product.mp (Finset.mem_coe.mp hcd)
    have h1 := Finset.mem_Icc.mp hm.1
    have h3 := Finset.mem_Icc.mp hm2.1
    have h4 := Finset.mem_range.mp hm.2
    have h5 := Finset.mem_range.mp hm2.2
    obtain ⟨e1, e2⟩ := linearQ_inj h2 hp.pos (by omega : ab.1 < p) h4 (by omega : cd.1 < p) h5 e
    exact Prod.ext e1 e2

theorem prime_46349 : Nat.Prime 46349 := by norm_num

theorem validCount_46349 : INT_MAX < (validCount 46349 : Int) := by
  have h := validCount_prime_ge prime_46349
  unfold INT_MAX
  omega

theorem par_counter (n : Nat) (hmax : (n : Int) ≤ INT_MAX)
    (sched : Nat → Board → List Nat → List Nat) (hsched : ∀ r b l, (sched r b l).Perm l)
    (board : Board) (count depth : Int) (h1 : INT_MIN ≤ count) (h2 : count ≤ INT_MAX) :
    ∃ b1 : Board, solve_nqueens_parallel sched board 0 n count depth =
      some (b1, wrap32 (count + (validCount n : Int))) := by
  obtain ⟨b1, h, _⟩ := par_aux_spec n hmax sched hsched (n + 1 - 0) 0 depth (by omega) (by omega)
    board count (PrefixOK_zero n board) h1 h2
  refine ⟨b1, ?_⟩
  rw [← sols_zero n board]; exact h

theorem seq_counter (n : Nat) (hmax : (n : Int) ≤ INT_MAX) (board : Board) (count : Int)
    (h1 : INT_MIN ≤ count) (h2 : count ≤ INT_MAX) :
    ∃ b1 : Board, solve_nqueens_sequential_helper board 0 n count =
      some (b1, wrap32 (count + (validCount n : Int))) := by
  obtain ⟨b1, h, _⟩ := seq_aux_spec n hmax (n + 1 - 0) 0 (by omega) (by omega)
    board count (PrefixOK_zero n board) h1 h2
  refine ⟨b1, ?_⟩
  rw [← sols_zero n board]; exact h

/-- C3 (parallel and sequential N-Queens counts agree): for every board size
`n >= 1` within the range of `int`, every initial value of `depth`, every
order in which the forked tasks are run on their private copies, and all
initial values of the two `int` counters, `solve_nqueens_parallel` from row 0
and `solve_nqueens_sequential_helper` from row 0 on the all -1 board add one
and the same number to their counters, the number `validCount n` of valid
placements: each counter ends at its initial value plus that number, reduced
to the range of `int` as the increments of an `int` are. -/
theorem C3_nqueens_parallel_eq_sequential (n : Nat) (hn : 1 ≤ n) (hmax : (n : Int) ≤ INT_MAX)
    (depth : Int) (sched : Nat → Board → List Nat → List Nat)
    (hsched : ∀ r b l, (sched r b l).Perm l) (board : Board) (count count2 : Int)
    (hc : INT_MIN ≤ count ∧ count ≤ INT_MAX) (hc2 : INT_MIN ≤ count2 ∧ count2 ≤ INT_MAX) :
    ∃ (b1 b2 : Board),
      solve_nqueens_parallel sched board 0 n count depth =
        some (b1, wrap32 (count + (validCount n : Int))) ∧
      solve_nqueens_sequential_helper emptyBoard 0 n count2 =
        some (b2, wrap32 (count2 + (validCount n : Int))) := by
  have hpos : 0 < n := hn
  obtain ⟨b1, h1⟩ := par_counter n hmax sched hsched board count depth hc.1 hc.2
  obtain ⟨b2, h2⟩ := seq_counter n hmax emptyBoard count2 hc2.1 hc2.2
  exact ⟨b1, b2, h1, h2⟩

theorem C3_nqueens_parallel_eq_sequential_witness :
    ∃ (b1 b2 : Board),
      solve_nqueens_parallel lifo emptyBoard 0 5 INT_MAX 0 =
        some (b1, wrap32 (INT_MAX + (validCount 5 : Int))) ∧
      solve_nqueens_sequential_helper emptyBoard 0 5 0 =
        some (b2, wrap32 (0 + (validCount 5 : Int))) :=
  C3_nqueens_parallel_eq_sequential 5 (by decide) (by decide) 0 lifo
    (fun _ _ l => List.reverse_perm l) emptyBoard INT_MAX 0 (by decide) (by decide)

/-- C4 (the sequential N-Queens count is the reference count), for the board
sizes whose count fits the `int` counter: for every `n >= 1` for which the
number of placements `q` of the rows `0..n-1` into the columns `0..n-1` with
`q i ≠ q j` and `|i - j| ≠ |q i - q j|` for all rows `i < j` is at most
`INT_MAX`, `solve_nqueens_sequential_helper` called with row 0, the all -1
board and a counter at 0 leaves the counter equal to that number. -/
theorem C4_nqueens_count (n : Nat) (hn : 1 ≤ n) (hmax : (n : Int) ≤ INT_MAX)
    (hfit : (validCount n : Int) ≤ INT_MAX) :
    ∃ b1 : Board, solve_nqueens_sequential_helper emptyBoard 0 n 0 =
      some (b1, (validCount n : Int)) := by
  have hpos : 0 < n := hn
  obtain ⟨b2, h2⟩ := seq_counter n hmax emptyBoard 0 (by decide) (by decide)
  refine ⟨b2, ?_⟩
  rw [h2, zero_add, wrap32_of_range (by unfold INT_MIN; omega) hfit]

theorem C4_nqueens_count_witness :
    ∃ b1 : Board, solve_nqueens_sequential_helper emptyBoard 0 4 0 =
      some (b1, (validCount 4 : Int)) :=
  C4_nqueens_count 4 (by decide) (by decide)
    (by have h := validCount_le 4; unfold INT_MAX; omega)

/-- C4 as stated fails: the counter is an `int`, whose value never exceeds
`INT_MAX`, while the number of valid placements does for the board size
46349, a prime, where the placements `i ↦ (a * i + b) mod 46349` with
`2 ≤ a ≤ 46347` alone are `46346 * 46349 = 2148090754`. -/
theorem C4_counterexample :
    ¬ ∃ b1 : Board, solve_nqueens_sequential_helper emptyBoard 0 46349 0 =
      some (b1, (validCount 46349 : Int)) := by
  rintro ⟨b1, h⟩
  obtain ⟨b2, h2⟩ := seq_counter 46349 (by decide) emptyBoard 0 (by decide) (by decide)
  rw [h2] at h
  have e : wrap32 (0 + (validCount 46349 : Int)) = (validCount 46349 : Int) :=
    (Prod.mk.inj (Option.some.inj h)).2
  have hb := (wrap32_bounds (0 + (validCount 46349 : Int))).2
  have hl := validCount_46349
  rw [e] at hb
  omega

/-- C12, for column differences that fit an `int`: for every board, every row
`row` (an `int`, so at most `INT_MAX`) and every column `col` such that
`col - board[i]` lies in the range of `int` for every earlier row `i < row`,
`is_safe board row col` is true exactly when every earlier row `i < row` holds
a queen in a column other than `col` and not on a diagonal through
`(row, col)`, that is `board[i] ≠ col` and `|row - i| ≠ |col - board[i]|`;
and, for every board, row and column, entries of the board at rows `row` and
beyond do not influence the result. -/
theorem C12_nqueens_is_safe_oracle (board : Board) (row : Nat) (col : Int) :
    ((row : Int) ≤ INT_MAX →
      (∀ i, i < row → INT_MIN ≤ col - board i ∧ col - board i ≤ INT_MAX) →
      (is_safe board row col = true ↔
        ∀ i, i < row → board i ≠ col ∧ |(row : Int) - i| ≠ |col - board i|)) ∧
    (∀ board2 : Board, (∀ i, i < row → board2 i = board i) →
      is_safe board2 row col = is_safe board row col) := by
  refine ⟨fun hrow hfit => ?_, fun board2 h => nq_is_safe_congr h col⟩
  rw [nq_is_safe_iff board row col hrow hfit]
  simp only [absZ_eq_abs]

theorem C12_nqueens_is_safe_oracle_witness :
    (is_safe (setRow (setRow emptyBoard 0 1) 1 3) 2 0 = true ↔
      ∀ i, i < 2 → setRow (setRow emptyBoard 0 1) 1 3 i ≠ 0 ∧
        |((2 : Nat) : Int) - i| ≠ |0 - setRow (setRow emptyBoard 0 1) 1 3 i|) :=
  (C12_nqueens_is_safe_oracle (setRow (setRow emptyBoard 0 1) 1 3) 2 0).1 (by decide)
    (fun i hi => by
      have h : i = 0 ∨ i = 1 := by omega
      rcases h with rfl | rfl <;> decide)

/-- C12 as stated fails where the `int` subtraction `col - board[i]` leaves
the range of `int`: with `board[0] = INT_MIN`, `row = 1` and `col = INT_MAX`
the queen of row 0 is in another column and `|1 - 0| = 1` differs from
`|INT_MAX - INT_MIN| = 4294967295`, but the code computes the difference -1
and `is_safe` returns false. -/
theorem C12_counterexample :
    is_safe (setRow emptyBoard 0 INT_MIN) 1 INT_MAX = false ∧
    (∀ i, i < 1 → setRow emptyBoard 0 INT_MIN i ≠ INT_MAX ∧
      |((1 : Nat) : Int) - i| ≠ |INT_MAX - setRow emptyBoard 0 INT_MIN i|) := by
  refine ⟨by decide, fun i hi => ?_⟩
  have h : i = 0 := by omega
  subst h
  refine ⟨by decide, ?_⟩
  rw [← absZ_eq_abs, ← absZ_eq_abs]
  decide

/-- C21 does not hold of the code: on its in-place path `solve_nqueens_parallel` assigns
`board[row] = col` and never takes the assignment back. Called from row 0 on the all -1
board it returns with `board[0] = 0` for `n = 1` (one solution counted) and with
`board[0] = 1` for `n = 2` (no solution), where `solve_nqueens_sequential_helper` leaves
`board[0] = -1`. -/
theorem C21_in_place_not_retracted :
    (solve_nqueens_parallel fifo emptyBoard 0 1 0 0).map (fun r => (r.1 0, r.2))
      = some (0, 1) ∧
    (solve_nqueens_parallel fifo emptyBoard 0 2 0 0).map (fun r => (r.1 0, r.2))
      = some (1, 0) ∧
    (solve_nqueens_sequential_helper emptyBoard 0 1 0).map (fun r => (r.1 0, r.2))
      = some (-1, 1) ∧
    (solve_nqueens_sequential_helper emptyBoard 0 2 0).map (fun r => (r.1 0, r.2))
      = some (-1, 0) := by
  decide

theorem solve_nqueens_spec (sched : Nat → Board → List Nat → List Nat)
    (hsched : ∀ r b l, (sched r b l).Perm l) (team_starts : Int → Bool) (fresh : Board)
    (n : Nat) (hmax : (n : Int) ≤ INT_MAX) (num_threads : Int)
    (hteam : team_starts num_threads = true) :
    solve_nqueens sched team_starts true fresh n num_threads =
      some (wrap32 ((validCount n : Int))) := by
  obtain ⟨b1, h1⟩ := par_counter n hmax sched hsched (initBoard fresh n) 0 0
    (by decide) (by decide)
  unfold solve_nqueens
  rw [h1, zero_add]
  simp [hteam]

/-- C25, as the code has it: `solve_nqueens` makes no test of `num_threads`. Its only error
result, -1, is for a failed allocation of the board, whatever the worker count. For every
worker count `num_threads`, positive or not, for which the OpenMP runtime runs the parallel
region, the function returns the solution count: the number of valid placements, reduced to
the range of `int`. -/
theorem C25_thread_count_not_checked (sched : Nat → Board → List Nat → List Nat)
    (hsched : ∀ r b l, (sched r b l).Perm l) (team_starts : Int → Bool) (fresh : Board)
    (n : Nat) (hn : 1 ≤ n) (hmax : (n : Int) ≤ INT_MAX) (num_threads : Int) :
    solve_nqueens sched team_starts false fresh n num_threads = some (-1) ∧
    (team_starts num_threads = true →
      solve_nqueens sched team_starts true fresh n num_threads =
        some (wrap32 ((validCount n : Int)))) := by
  have hpos : 0 < n := hn
  exact ⟨rfl, solve_nqueens_spec sched hsched team_starts fresh n hmax num_threads⟩

theorem C25_thread_count_not_checked_witness :
    solve_nqueens fifo gomp_team_starts false emptyBoard 4 0 = some (-1) ∧
    solve_nqueens fifo gomp_team_starts true emptyBoard 4 0 =
      some (wrap32 ((validCount 4 : Int))) :=
  ⟨(C25_thread_count_not_checked fifo (fun _ _ l => List.Perm.refl l) gomp_team_starts
      emptyBoard 4 (by decide) (by decide) 0).1,
    (C25_thread_count_not_checked fifo (fun _ _ l => List.Perm.refl l) gomp_team_starts
      emptyBoard 4 (by decide) (by decide) 0).2 (by decide)⟩

/-- C25 as stated fails: with a runtime that serves a request for 0 threads with its
default team, `solve_nqueens` called for `n = 4` with `num_threads = 0` explores the board
and returns the solution count 2, exactly as with 8 threads, and not an error result; the
error result -1 appears only when the allocation fails. -/
theorem C25_counterexample :
    gomp_team_starts 0 = true ∧
    solve_nqueens fifo gomp_team_starts true emptyBoard 4 0 = some 2 ∧
    solve_nqueens fifo gomp_team_starts true emptyBoard 4 8 = some 2 ∧
    solve_nqueens fifo gomp_team_starts false emptyBoard 4 0 = some (-1) := by
  decide

end NQueens
/-! ## Game tree search: properties -/

namespace GameTree

theorem wrap32_range (x : Int) : INT_MIN ≤ wrap32 x ∧ wrap32 x ≤ INT_MAX := by
  unfold wrap32 INT_MIN INT_MAX; omega

theorem wrap32_id {x : Int} (h1 : INT_MIN ≤ x) (h2 : x ≤ INT_MAX) : wrap32 x = x := by
  unfold wrap32; unfold INT_MIN at h1; unfold INT_MAX at h2; omega

theorem gt_mem_cells (p : Fin 3 × Fin 3) : p ∈ cells := by
  revert p; decide

theorem make_move_board {s : GameState} {i j : Fin 3} (h : s.board i j = EMPTY) (p : Int)
    (i2 j2 : Fin 3) :
    (make_move s i j p).board i2 j2 = if i2 = i ∧ j2 = j then p else s.board i2 j2 := by
  simp [make_move, h]

theorem make_move_count {s : GameState} {i j : Fin 3} (h : s.board i j = EMPTY) (p : Int) :
    (make_move s i j p).move_count = wrap32 (s.move_count + 1) := by
  simp [make_move, h]

theorem make_move_inRange {s : GameState} {i j : Fin 3} (h : s.board i j = EMPTY) (p : Int) :
    InRange (make_move s i j p) := by
  unfold InRange; rw [make_move_count h]; exact wrap32_range _

theorem undo_make_move {s : GameState} {i j : Fin 3} (h : s.board i j = EMPTY) {p : Int}
    (hp : p ≠ EMPTY) (hr : InRange s) : undo_move (make_move s i j p) i j = s := by
  have hb : (make_move s i j p).board i j ≠ EMPTY := by
    rw [make_move_board h]; simpa using hp
  obtain ⟨brd, mc⟩ := s
  simp only [undo_move, hb, ne_eq, not_false_eq_true, if_true]
  simp only at h
  congr 1
  · funext i2 j2
    by_cases hc : i2 = i ∧ j2 = j
    · obtain ⟨rfl, rfl⟩ := hc; simp [h]
    · simp [hc, make_move, h]
  · simp only [make_move, h, if_true]
    unfold InRange INT_MIN INT_MAX at hr
    simp only at hr
    unfold wrap32; omega

theorem emptyCount_make_move {s : GameState} {i j : Fin 3} (h : s.board i j = EMPTY) {p : Int}
    (hp : p ≠ EMPTY) : emptyCount (make_move s i j p) < emptyCount s := by
  unfold emptyCount
  apply Finset.card_lt_card
  rw [Finset.ssubset_iff_of_subset]
  · refine ⟨(i, j), ?_, ?_⟩
    · simp [h]
    · simp [make_move_board h, hp]
  · intro q hq
    simp only [Finset.mem_filter, Finset.mem_univ, true_and] at hq ⊢
    rw [make_move_board h] at hq
    by_cases hc : q.1 = i ∧ q.2 = j
    · rw [hc.1, hc.2]; exact h
    · simpa [hc] using hq

theorem emptyCount_le_nine (s : GameState) : emptyCount s ≤ 9 := by
  unfold emptyCount
  calc (Finset.univ.filter (fun p : Fin 3 × Fin 3 => s.board p.1 p.2 = EMPTY)).card
      ≤ (Finset.univ : Finset (Fin 3 × Fin 3)).card := Finset.card_filter_le _ _
    _ = 9 := by simp

theorem PLAYER_X_ne : PLAYER_X ≠ EMPTY := by decide

theorem PLAYER_O_ne : PLAYER_O ≠ EMPTY := by decide

/-! ### The sequential search computes `alphabeta` and restores the state -/

theorem seqMaxLoop_eq (eval : GameState → Int → Int → Option (Int × GameState))
    (ev : GameState → Int → Int → Int) (s : GameState) (hr : InRange s)
    (hev : ∀ i j, s.board i j = EMPTY → ∀ a b,
      eval (make_move s i j PLAYER_X) a b =
        some (ev (make_move s i j PLAYER_X) a b, make_move s i j PLAYER_X))
    (l : List (Fin 3 × Fin 3)) : ∀ me alpha beta,
      seqMaxLoop eval l s me alpha beta = some (abMaxLoop ev s l me alpha beta, s) := by
  induction l with
  | nil => intro me alpha beta; rfl
  | cons p rest ih =>
    obtain ⟨i, j⟩ := p
    intro me alpha beta
    by_cases h : s.board i j = EMPTY
    · simp only [seqMaxLoop, abMaxLoop, h, if_true, hev i j h,
        undo_make_move h PLAYER_X_ne hr]
      generalize ev (make_move s i j PLAYER_X) alpha beta = e
      by_cases hc : beta ≤ (if alpha > e then alpha else e)
      · simp only [hc, if_true]
      · simp only [hc, if_false]
        exact ih _ _ _
    · simp only [seqMaxLoop, abMaxLoop, h, if_false]
      exact ih _ _ _

theorem seqMinLoop_eq (eval : GameState → Int → Int → Option (Int × GameState))
    (ev : GameState → Int → Int → Int) (s : GameState) (hr : InRange s)
    (hev : ∀ i j, s.board i j = EMPTY → ∀ a b,
      eval (make_move s i j PLAYER_O) a b =
        some (ev (make_move s i j PLAYER_O) a b, make_move s i j PLAYER_O))
    (l : List (Fin 3 × Fin 3)) : ∀ me alpha beta,
      seqMinLoop eval l s me alpha beta = some (abMinLoop ev s l me alpha beta, s) := by
  induction l with
  | nil => intro me alpha beta; rfl
  | cons p rest ih =>
    obtain ⟨i, j⟩ := p
    intro me alpha beta
    by_cases h : s.board i j = EMPTY
    · simp only [seqMinLoop, abMinLoop, h, if_true, hev i j h,
        undo_make_move h PLAYER_O_ne hr]
      generalize ev (make_move s i j PLAYER_O) alpha beta = e
      by_cases hc : (if beta < e then beta else e) ≤ alpha
      · simp only [hc, if_true]
      · simp only [hc, if_false]
        exact ih _ _ _
    · simp only [seqMinLoop, abMinLoop, h, if_false]
      exact ih _ _ _

theorem minimax_sequential_aux_eq (fuel : Nat) : ∀ (s : GameState), InRange s →
    emptyCount s < fuel → ∀ (depth : Int) (m : Bool) (a b : Int),
      minimax_sequential_aux fuel s depth m a b = some (alphabeta fuel s depth m a b, s) := by
  induction fuel with
  | zero => intro s _ h; omega
  | succ fuel ih =>
    intro s hr hfuel depth m a b
    unfold minimax_sequential_aux alphabeta
    split_ifs with h1 h2 h3
    · rfl
    · rfl
    · apply seqMaxLoop_eq _ _ s hr
      intro i j hij a1 b1
      exact ih _ (make_move_inRange hij _)
        (by have := emptyCount_make_move hij PLAYER_X_ne; omega) _ _ _ _
    · apply seqMinLoop_eq _ _ s hr
      intro i j hij a1 b1
      exact ih _ (make_move_inRange hij _)
        (by have := emptyCount_make_move hij PLAYER_O_ne; omega) _ _ _ _

/-! ### Alpha-beta pruning against the pruning-free minimax value -/

theorem maxScore_cons (x : Int) (rest : List Int) (init : Int) :
    maxScore (x :: rest) init = maxScore rest (if x > init then x else init) := by
  simp [maxScore]

theorem minScore_cons (x : Int) (rest : List Int) (init : Int) :
    minScore (x :: rest) init = minScore rest (if x < init then x else init) := by
  simp [minScore]

theorem maxScore_ge_init (l : List Int) : ∀ init, init ≤ maxScore l init := by
  induction l with
  | nil => intro init; simp [maxScore]
  | cons x rest ih =>
    intro init
    rw [maxScore_cons]
    have := ih (if x > init then x else init)
    generalize hq : (if x > init then x else init) = q at this ⊢
    have : init ≤ q := by rw [← hq]; split_ifs <;> omega
    omega

theorem maxScore_ge_mem (l : List Int) : ∀ init, ∀ x ∈ l, x ≤ maxScore l init := by
  induction l with
  | nil => intro init x hx; simp at hx
  | cons y rest ih =>
    intro init x hx
    rw [maxScore_cons]
    rcases List.mem_cons.mp hx with rfl | hx
    · have := maxScore_ge_init rest (if x > init then x else init)
      generalize hq : (if x > init then x else init) = q at this ⊢
      have : x ≤ q := by rw [← hq]; split_ifs <;> omega
      omega
    · exact ih _ x hx

theorem maxScore_mem (l : List Int) : ∀ init, maxScore l init = init ∨ maxScore l init ∈ l := by
  induction l with
  | nil => intro init; simp [maxScore]
  | cons y rest ih =>
    intro init
    rw [maxScore_cons]
    have := ih (if y > init then y else init)
    generalize hq : (if y > init then y else init) = q at this ⊢
    have hq2 : q = init ∨ q = y := by rw [← hq]; split_ifs <;> simp
    rcases this with h1 | h1
    · rcases hq2 with h2 | h2
      · left; rw [h1, h2]
      · right; rw [h1, h2]; exact List.mem_cons_self _ _
    · right; exact List.mem_cons_of_mem _ h1

theorem minScore_le_init (l : List Int) : ∀ init, minScore l init ≤ init := by
  induction l with
  | nil => intro init; simp [minScore]
  | cons x rest ih =>
    intro init
    rw [minScore_cons]
    have := ih (if x < init then x else init)
    generalize hq : (if x < init then x else init) = q at this ⊢
    have : q ≤ init := by rw [← hq]; split_ifs <;> omega
    omega

theorem minScore_le_mem (l : List Int) : ∀ init, ∀ x ∈ l, minScore l init ≤ x := by
  induction l with
  | nil => intro init x hx; simp at hx
  | cons y rest ih =>
    intro init x hx
    rw [minScore_cons]
    rcases List.mem_cons.mp hx with rfl | hx
    · have := minScore_le_init rest (if x < init then x else init)
      generalize hq : (if x < init then x else init) = q at this ⊢
      have : q ≤ x := by rw [← hq]; split_ifs <;> omega
      omega
    · exact ih _ x hx

theorem minScore_mem (l : List Int) : ∀ init, minScore l init = init ∨ minScore l init ∈ l := by
  induction l with
  | nil => intro init; simp [minScore]
  | cons y rest ih =>
    intro init
    rw [minScore_cons]
    have := ih (if y < init then y else init)
    generalize hq : (if y < init then y else init) = q at this ⊢
    have hq2 : q = init ∨ q = y := by rw [← hq]; split_ifs <;> simp
    rcases this with h1 | h1
    · rcases hq2 with h2 | h2
      · left; rw [h1, h2]
      · right; rw [h1, h2]; exact List.mem_cons_self _ _
    · right; exact List.mem_cons_of_mem _ h1

theorem childVals_cons_empty (val : GameState → Int) (s : GameState) (player : Int)
    (i j : Fin 3) (rest : List (Fin 3 × Fin 3)) (h : s.board i j = EMPTY) :
    childVals val s player ((i, j) :: rest) =
      val (make_move s i j player) :: childVals val s player rest := by
  simp [childVals, List.filter_cons, h]

theorem childVals_cons_full (val : GameState → Int) (s : GameState) (player : Int)
    (i j : Fin 3) (rest : List (Fin 3 × Fin 3)) (h : ¬ s.board i j = EMPTY) :
    childVals val s player ((i, j) :: rest) = childVals val s player rest := by
  simp [childVals, List.filter_cons, h]

theorem abMaxLoop_bounds (ev : GameState → Int → Int → Int) (val : GameState → Int)
    (s : GameState)
    (hev : ∀ i j, s.board i j = EMPTY → ∀ a b, INT_MIN ≤ a → a < b → b ≤ INT_MAX →
      Bounds (ev (make_move s i j PLAYER_X) a b) (val (make_move s i j PLAYER_X)) a b)
    (l : List (Fin 3 × Fin 3)) : ∀ me alpha beta : Int,
      INT_MIN ≤ alpha → me ≤ alpha → alpha < beta → beta ≤ INT_MAX →
      me ≤ abMaxLoop ev s l me alpha beta ∧
      (abMaxLoop ev s l me alpha beta ≤ alpha →
        ∀ x ∈ childVals val s PLAYER_X l, x ≤ abMaxLoop ev s l me alpha beta) ∧
      (alpha < abMaxLoop ev s l me alpha beta → abMaxLoop ev s l me alpha beta < beta →
        (∀ x ∈ childVals val s PLAYER_X l, x ≤ abMaxLoop ev s l me alpha beta) ∧
        abMaxLoop ev s l me alpha beta ∈ childVals val s PLAYER_X l) ∧
      (beta ≤ abMaxLoop ev s l me alpha beta →
        ∃ x ∈ childVals val s PLAYER_X l, abMaxLoop ev s l me alpha beta ≤ x) := by
  induction l with
  | nil =>
    intro me alpha beta _ h2 h3 _
    simp only [abMaxLoop, childVals, List.filter_nil, List.map_nil, List.not_mem_nil]
    refine ⟨le_refl _, fun _ x hx => absurd hx (by simp), fun h _ => by omega, fun h => by omega⟩
  | cons p rest ih =>
    obtain ⟨i, j⟩ := p
    intro me alpha beta h1 h2 h3 h4
    by_cases h : s.board i j = EMPTY
    · have hb := hev i j h alpha beta h1 h3 h4
      rw [childVals_cons_empty val s PLAYER_X i j rest h]
      simp only [abMaxLoop, h, if_true]
      generalize ev (make_move s i j PLAYER_X) alpha beta = e at hb ⊢
      generalize val (make_move s i j PLAYER_X) = m at hb ⊢
      obtain ⟨hb1, hb2, hb3⟩ := hb
      generalize hme : (if e > me then e else me) = me1
      generalize hal : (if alpha > e then alpha else e) = a1
      have fme : me ≤ me1 ∧ e ≤ me1 ∧ (me1 = me ∨ me1 = e) := by
        rw [← hme]; split_ifs <;> omega
      have fal : alpha ≤ a1 ∧ e ≤ a1 ∧ (a1 = alpha ∨ a1 = e) := by
        rw [← hal]; split_ifs <;> omega
      by_cases hc : beta ≤ a1
      · simp only [hc, if_true]
        have hv : me1 = e := by omega
        have he : beta ≤ e := by omega
        refine ⟨by omega, fun hh => by omega, fun _ hh => by omega, fun _ => ?_⟩
        exact ⟨m, List.mem_cons_self _ _, by have := hb3 he; omega⟩
      · simp only [hc, if_false]
        obtain ⟨i0, i1, i2, i3⟩ := ih me1 a1 beta (by omega) (by omega) (by omega) h4
        generalize abMaxLoop ev s rest me1 a1 beta = v at i0 i1 i2 i3 ⊢
        refine ⟨by omega, ?_, ?_, ?_⟩
        · intro hv x hx
          rcases List.mem_cons.mp hx with rfl | hx
          · have := hb1 (by omega); omega
          · exact i1 (by omega) x hx
        · intro hv1 hv2
          by_cases hva : v ≤ a1
          · have hve : v = e := by omega
            have hm : m = e := hb2 (by omega) (by omega)
            refine ⟨?_, ?_⟩
            · intro x hx
              rcases List.mem_cons.mp hx with rfl | hx
              · omega
              · exact i1 hva x hx
            · rw [hve, ← hm]; exact List.mem_cons_self _ _
          · obtain ⟨j1, j2⟩ := i2 (by omega) hv2
            refine ⟨?_, List.mem_cons_of_mem _ j2⟩
            intro x hx
            rcases List.mem_cons.mp hx with rfl | hx
            · by_cases hea : e ≤ alpha
              · have := hb1 hea; omega
              · have := hb2 (by omega) (by omega); omega
            · exact j1 x hx
        · intro hv
          obtain ⟨x, hx, hxv⟩ := i3 hv
          exact ⟨x, List.mem_cons_of_mem _ hx, hxv⟩
    · rw [childVals_cons_full val s PLAYER_X i j rest h]
      simp only [abMaxLoop, h, if_false]
      exact ih me alpha beta h1 h2 h3 h4

theorem abMinLoop_bounds (ev : GameState → Int → Int → Int) (val : GameState → Int)
    (s : GameState)
    (hev : ∀ i j, s.board i j = EMPTY → ∀ a b, INT_MIN ≤ a → a < b → b ≤ INT_MAX →
      Bounds (ev (make_move s i j PLAYER_O) a b) (val (make_move s i j PLAYER_O)) a b)
    (l : List (Fin 3 × Fin 3)) : ∀ me alpha beta : Int,
      INT_MIN ≤ alpha → beta ≤ me → alpha < beta → beta ≤ INT_MAX →
      abMinLoop ev s l me alpha beta ≤ me ∧
      (beta ≤ abMinLoop ev s l me alpha beta →
        ∀ x ∈ childVals val s PLAYER_O l, abMinLoop ev s l me alpha beta ≤ x) ∧
      (alpha < abMinLoop ev s l me alpha beta → abMinLoop ev s l me alpha beta < beta →
        (∀ x ∈ childVals val s PLAYER_O l, abMinLoop ev s l me alpha beta ≤ x) ∧
        abMinLoop ev s l me alpha beta ∈ childVals val s PLAYER_O l) ∧
      (abMinLoop ev s l me alpha beta ≤ alpha →
        ∃ x ∈ childVals val s PLAYER_O l, x ≤ abMinLoop ev s l me alpha beta) := by
  induction l with
  | nil =>
    intro me alpha beta _ h2 h3 _
    simp only [abMinLoop, childVals, List.filter_nil, List.map_nil, List.not_mem_nil]
    refine ⟨le_refl _, fun _ x hx => absurd hx (by simp), fun h _ => by omega, fun h => by omega⟩
  | cons p rest ih =>
    obtain ⟨i, j⟩ := p
    intro me alpha beta h1 h2 h3 h4
    by_cases h : s.board i j = EMPTY
    · have hb := hev i j h alpha beta h1 h3 h4
      rw [childVals_cons_empty val s PLAYER_O i j rest h]
      simp only [abMinLoop, h, if_true]
      generalize ev (make_move s i j PLAYER_O) alpha beta = e at hb ⊢
      generalize val (make_move s i j PLAYER_O) = m at hb ⊢
      obtain ⟨hb1, hb2, hb3⟩ := hb
      generalize hme : (if e < me then e else me) = me1
      generalize hbe : (if beta < e then beta else e) = b1
      have fme : me1 ≤ me ∧ me1 ≤ e ∧ (me1 = me ∨ me1 = e) := by
        rw [← hme]; split_ifs <;> omega
      have fbe : b1 ≤ beta ∧ b1 ≤ e ∧ (b1 = beta ∨ b1 = e) := by
        rw [← hbe]; split_ifs <;> omega
      by_cases hc : b1 ≤ alpha
      · simp only [hc, if_true]
        have hv : me1 = e := by omega
        have he : e ≤ alpha := by omega
        refine ⟨by omega, fun hh => by omega, fun hh _ => by omega, fun _ => ?_⟩
        exact ⟨m, List.mem_cons_self _ _, by have := hb1 he; omega⟩
      · simp only [hc, if_false]
        obtain ⟨i0, i1, i2, i3⟩ := ih me1 alpha b1 h1 (by omega) (by omega) (by omega)
        generalize abMinLoop ev s rest me1 alpha b1 = v at i0 i1 i2 i3 ⊢
        refine ⟨by omega, ?_, ?_, ?_⟩
        · intro hv x hx
          rcases List.mem_cons.mp hx with rfl | hx
          · have := hb3 (by omega); omega
          · exact i1 (by omega) x hx
        · intro hv1 hv2
          by_cases hvb : b1 ≤ v
          · have hve : v = e := by omega
            have hm : m = e := hb2 (by omega) (by omega)
            refine ⟨?_, ?_⟩
            · intro x hx
              rcases List.mem_cons.mp hx with rfl | hx
              · omega
              · exact i1 hvb x hx
            · rw [hve, ← hm]; exact List.mem_cons_self _ _
          · obtain ⟨j1, j2⟩ := i2 hv1 (by omega)
            refine ⟨?_, List.mem_cons_of_mem _ j2⟩
            intro x hx
            rcases List.mem_cons.mp hx with rfl | hx
            · by_cases heb : beta ≤ e
              · have := hb3 heb; omega
              · have := hb2 (by omega) (by omega); omega
            · exact j1 x hx
        · intro hv
          obtain ⟨x, hx, hxv⟩ := i3 hv
          exact ⟨x, List.mem_cons_of_mem _ hx, hxv⟩
    · rw [childVals_cons_full val s PLAYER_O i j rest h]
      simp only [abMinLoop, h, if_false]
      exact ih me alpha beta h1 h2 h3 h4

theorem alphabeta_succ (fuel : Nat) (s : GameState) (depth : Int) (m : Bool) (a b : Int) :
    alphabeta (fuel + 1) s depth m a b =
      if check_winner s ≠ 0 then terminalScore s depth m
      else if is_board_full s then 0
      else if m then
        abMaxLoop (fun s1 a b => alphabeta fuel s1 (wrap32 (depth + 1)) false a b)
          s cells INT_MIN a b
      else
        abMinLoop (fun s1 a b => alphabeta fuel s1 (wrap32 (depth + 1)) true a b)
          s cells INT_MAX a b := rfl

theorem mm_succ (fuel : Nat) (s : GameState) (depth : Int) (m : Bool) :
    mm (fuel + 1) s depth m =
      if check_winner s ≠ 0 then terminalScore s depth m
      else if is_board_full s then 0
      else if m then
        maxScore (childVals (fun c => mm fuel c (wrap32 (depth + 1)) false) s PLAYER_X cells)
          INT_MIN
      else
        minScore (childVals (fun c => mm fuel c (wrap32 (depth + 1)) true) s PLAYER_O cells)
          INT_MAX := rfl

theorem Bounds_refl (v a b : Int) : Bounds v v a b :=
  ⟨fun _ => le_refl _, fun _ _ => rfl, fun _ => le_refl _⟩

theorem alphabeta_bounds (fuel : Nat) : ∀ (s : GameState) (depth : Int) (m : Bool) (a b : Int),
    INT_MIN ≤ a → a < b → b ≤ INT_MAX →
      Bounds (alphabeta fuel s depth m a b) (mm fuel s depth m) a b := by
  induction fuel with
  | zero =>
    intro s depth m a b _ _ _
    exact Bounds_refl _ _ _
  | succ fuel ih =>
    intro s depth m a b ha hab hb
    rw [alphabeta_succ, mm_succ]
    by_cases h1 : check_winner s ≠ 0
    · rw [if_pos h1, if_pos h1]; exact Bounds_refl _ _ _
    · rw [if_neg h1, if_neg h1]
      by_cases h2 : is_board_full s = true
      · rw [if_pos h2, if_pos h2]; exact Bounds_refl _ _ _
      · rw [if_neg h2, if_neg h2]
        cases m with
        | true =>
          simp only [if_true]
          obtain ⟨i0, i1, i2, i3⟩ := abMaxLoop_bounds
            (fun s1 a b => alphabeta fuel s1 (wrap32 (depth + 1)) false a b)
            (fun c => mm fuel c (wrap32 (depth + 1)) false) s
            (fun i j _ a b h1 h2 h3 => ih _ _ _ a b h1 h2 h3) cells INT_MIN a b ha ha hab hb
          generalize abMaxLoop (fun s1 a b => alphabeta fuel s1 (wrap32 (depth + 1)) false a b)
            s cells INT_MIN a b = v at i0 i1 i2 i3 ⊢
          generalize childVals (fun c => mm fuel c (wrap32 (depth + 1)) false) s PLAYER_X cells
            = vals at i1 i2 i3 ⊢
          have g1 := maxScore_ge_mem vals INT_MIN
          have g2 := maxScore_mem vals INT_MIN
          refine ⟨?_, ?_, ?_⟩
          · intro hv
            rcases g2 with g | g
            · omega
            · exact i1 hv _ g
          · intro hv1 hv2
            obtain ⟨j1, j2⟩ := i2 hv1 hv2
            have := g1 v j2
            rcases g2 with g | g
            · omega
            · have := j1 _ g; omega
          · intro hv
            obtain ⟨x, hx, hxv⟩ := i3 hv
            have := g1 x hx
            omega
        | false =>
          simp only [Bool.false_eq_true, if_false]
          obtain ⟨i0, i1, i2, i3⟩ := abMinLoop_bounds
            (fun s1 a b => alphabeta fuel s1 (wrap32 (depth + 1)) true a b)
            (fun c => mm fuel c (wrap32 (depth + 1)) true) s
            (fun i j _ a b h1 h2 h3 => ih _ _ _ a b h1 h2 h3) cells INT_MAX a b ha hb hab hb
          generalize abMinLoop (fun s1 a b => alphabeta fuel s1 (wrap32 (depth + 1)) true a b)
            s cells INT_MAX a b = v at i0 i1 i2 i3 ⊢
          generalize childVals (fun c => mm fuel c (wrap32 (depth + 1)) true) s PLAYER_O cells
            = vals at i1 i2 i3 ⊢
          have g1 := minScore_le_mem vals INT_MAX
          have g2 := minScore_mem vals INT_MAX
          refine ⟨?_, ?_, ?_⟩
          · intro hv
            obtain ⟨x, hx, hxv⟩ := i3 hv
            have := g1 x hx
            omega
          · intro hv1 hv2
            obtain ⟨j1, j2⟩ := i2 hv1 hv2
            have := g1 v j2
            rcases g2 with g | g
            · omega
            · have := j1 _ g; omega
          · intro hv
            rcases g2 with g | g
            · omega
            · exact i1 hv _ g

theorem terminalScore_range (s : GameState) (depth : Int) (m : Bool) :
    INT_MIN ≤ terminalScore s depth m ∧ terminalScore s depth m ≤ INT_MAX :=
  wrap32_range _

theorem mem_childVals {val : GameState → Int} {s : GameState} {player : Int}
    {l : List (Fin 3 × Fin 3)} {x : Int} (h : x ∈ childVals val s player l) :
    ∃ q : Fin 3 × Fin 3, x = val (make_move s q.1 q.2 player) := by
  unfold childVals at h
  obtain ⟨q, _, hq⟩ := List.mem_map.mp h
  exact ⟨q, hq.symm⟩

theorem mm_range (fuel : Nat) : ∀ (s : GameState) (depth : Int) (m : Bool),
    INT_MIN ≤ mm fuel s depth m ∧ mm fuel s depth m ≤ INT_MAX := by
  induction fuel with
  | zero => intro s depth m; simp only [mm]; unfold INT_MIN INT_MAX; omega
  | succ fuel ih =>
    intro s depth m
    rw [mm_succ]
    split_ifs with h1 h2 h3
    · exact terminalScore_range _ _ _
    · unfold INT_MIN INT_MAX; omega
    · rcases maxScore_mem (childVals (fun c => mm fuel c (wrap32 (depth + 1)) false) s
        PLAYER_X cells) INT_MIN with g | g
      · rw [g]; unfold INT_MIN INT_MAX; omega
      · obtain ⟨q, hq⟩ := mem_childVals g
        rw [hq]; exact ih _ _ _
    · rcases minScore_mem (childVals (fun c => mm fuel c (wrap32 (depth + 1)) true) s
        PLAYER_O cells) INT_MAX with g | g
      · rw [g]; unfold INT_MIN INT_MAX; omega
      · obtain ⟨q, hq⟩ := mem_childVals g
        rw [hq]; exact ih _ _ _

/-- With the full window the alpha-beta search returns the minimax value. -/
theorem alphabeta_full (fuel : Nat) (s : GameState) (depth : Int) (m : Bool) :
    alphabeta fuel s depth m INT_MIN INT_MAX = mm fuel s depth m := by
  obtain ⟨h1, h2, h3⟩ := alphabeta_bounds fuel s depth m INT_MIN INT_MAX (le_refl _)
    (by decide) (le_refl _)
  obtain ⟨r1, r2⟩ := mm_range fuel s depth m
  generalize alphabeta fuel s depth m INT_MIN INT_MAX = v at h1 h2 h3 ⊢
  generalize mm fuel s depth m = w at h1 h2 h3 r1 r2 ⊢
  by_cases c1 : v ≤ INT_MIN
  · have := h1 c1; omega
  · by_cases c2 : INT_MAX ≤ v
    · have := h3 c2; omega
    · exact (h2 (by omega) (by omega)).symm

theorem runTasks_eq (eval : GameState → Option Int) (val : GameState → Int) (s : GameState)
    (player : Int) (l : List (Fin 3 × Fin 3))
    (h : ∀ q ∈ l, eval (make_move s q.1 q.2 player) = some (val (make_move s q.1 q.2 player))) :
    runTasks eval s player l = some (l.map (fun q => val (make_move s q.1 q.2 player))) := by
  induction l with
  | nil => rfl
  | cons q rest ih =>
    obtain ⟨i, j⟩ := q
    have h1 := h (i, j) (List.mem_cons_self _ _)
    have h2 := ih (fun q hq => h q (List.mem_cons_of_mem _ hq))
    simp only at h1
    simp only [runTasks, h1, h2, List.map_cons]

theorem mem_emptyCells {s : GameState} {q : Fin 3 × Fin 3} :
    q ∈ emptyCells s ↔ s.board q.1 q.2 = EMPTY := by
  unfold emptyCells
  rw [List.mem_filter]
  simp [gt_mem_cells]

theorem minimax_parallel_aux_eq (fuel : Nat) : ∀ (s : GameState), InRange s →
    emptyCount s < fuel → ∀ (depth : Int) (m : Bool) (td : Int),
      minimax_parallel_aux fuel s depth m INT_MIN INT_MAX td = some (mm fuel s depth m, s) := by
  induction fuel with
  | zero => intro s _ h; omega
  | succ fuel ih =>
    intro s hr hfuel depth m td
    rw [mm_succ]
    unfold minimax_parallel_aux
    by_cases h1 : check_winner s ≠ 0
    · rw [if_pos h1, if_pos h1]
    · rw [if_neg h1, if_neg h1]
      by_cases h2 : is_board_full s = true
      · rw [if_pos h2, if_pos h2]
      · rw [if_neg h2, if_neg h2]
        by_cases h3 : td ≥ TASK_DEPTH_THRESHOLD
        · rw [if_pos h3, minimax_sequential_aux_eq (fuel + 1) s hr hfuel, alphabeta_full,
            mm_succ, if_neg h1, if_neg h2]
        · rw [if_neg h3]
          cases m with
          | true =>
            simp only [if_true]
            rw [runTasks_eq _ (fun c => mm fuel c (wrap32 (depth + 1)) false)]
            · rfl
            · intro q hq
              have hq2 := mem_emptyCells.mp hq
              rw [ih _ (make_move_inRange hq2 _)
                (by have := emptyCount_make_move hq2 PLAYER_X_ne; omega)]
              rfl
          | false =>
            simp only [Bool.false_eq_true, if_false]
            rw [runTasks_eq _ (fun c => mm fuel c (wrap32 (depth + 1)) true)]
            · rfl
            · intro q hq
              have hq2 := mem_emptyCells.mp hq
              rw [ih _ (make_move_inRange hq2 _)
                (by have := emptyCount_make_move hq2 PLAYER_O_ne; omega)]
              rfl

theorem minimax_parallel_eq (s : GameState) (hr : InRange s) (depth : Int) (m : Bool)
    (td : Int) : minimax_parallel s depth m INT_MIN INT_MAX td = some (mm 10 s depth m, s) :=
  minimax_parallel_aux_eq 10 s hr (by have := emptyCount_le_nine s; omega) depth m td

theorem minimax_sequential_eq (s : GameState) (hr : InRange s) (depth : Int) (m : Bool)
    (a b : Int) : minimax_sequential s depth m a b = some (alphabeta 10 s depth m a b, s) :=
  minimax_sequential_aux_eq 10 s hr (by have := emptyCount_le_nine s; omega) depth m a b

/-- C5 (parallel and sequential alpha-beta return the same score): for every
game state whose `move_count` is an `int`, every depth, either value of
`is_maximizing` and every `task_depth`, `minimax_parallel` called with the
window `(INT_MIN, INT_MAX)` returns the score that `minimax_sequential`
returns with that window (and both leave the state as it was). -/
theorem C5_parallel_eq_sequential (s : GameState) (hr : InRange s) (depth : Int)
    (is_maximizing : Bool) (task_depth : Int) :
    ∃ score : Int,
      minimax_parallel s depth is_maximizing INT_MIN INT_MAX task_depth = some (score, s) ∧
      minimax_sequential s depth is_maximizing INT_MIN INT_MAX = some (score, s) := by
  refine ⟨mm 10 s depth is_maximizing, minimax_parallel_eq s hr depth _ _, ?_⟩
  rw [minimax_sequential_eq s hr, alphabeta_full]

theorem C5_parallel_eq_sequential_witness :
    ∃ score : Int,
      minimax_parallel test2State 0 true INT_MIN INT_MAX 0 = some (score, test2State) ∧
      minimax_sequential test2State 0 true INT_MIN INT_MAX = some (score, test2State) :=
  C5_parallel_eq_sequential test2State (by decide) 0 true 0

theorem check_winner_eq (s : GameState) :
    check_winner s =
      match lines.find? (lineFull s) with
      | some l => s.board l.1.1 l.1.2
      | none => 0 := by
  unfold check_winner lines idx
  simp only [List.find?, lineFull]
  generalize (s.board 0 0 != EMPTY && s.board 0 0 == s.board 0 1 && s.board 0 1 == s.board 0 2)
    = c1
  generalize (s.board 1 0 != EMPTY && s.board 1 0 == s.board 1 1 && s.board 1 1 == s.board 1 2)
    = c2
  generalize (s.board 2 0 != EMPTY && s.board 2 0 == s.board 2 1 && s.board 2 1 == s.board 2 2)
    = c3
  generalize (s.board 0 0 != EMPTY && s.board 0 0 == s.board 1 0 && s.board 1 0 == s.board 2 0)
    = c4
  generalize (s.board 0 1 != EMPTY && s.board 0 1 == s.board 1 1 && s.board 1 1 == s.board 2 1)
    = c5
  generalize (s.board 0 2 != EMPTY && s.board 0 2 == s.board 1 2 && s.board 1 2 == s.board 2 2)
    = c6
  have e7 : (s.board 0 0 ≠ EMPTY ∧ s.board 0 0 = s.board 1 1 ∧ s.board 1 1 = s.board 2 2) ↔
      (s.board 0 0 != EMPTY && s.board 0 0 == s.board 1 1 && s.board 1 1 == s.board 2 2)
        = true := by
    simp [and_assoc]
  have e8 : (s.board 0 2 ≠ EMPTY ∧ s.board 0 2 = s.board 1 1 ∧ s.board 1 1 = s.board 2 0) ↔
      (s.board 0 2 != EMPTY && s.board 0 2 == s.board 1 1 && s.board 1 1 == s.board 2 0)
        = true := by
    simp [and_assoc]
  simp only [e7, e8]
  generalize (s.board 0 0 != EMPTY && s.board 0 0 == s.board 1 1 && s.board 1 1 == s.board 2 2)
    = c7
  generalize (s.board 0 2 != EMPTY && s.board 0 2 == s.board 1 1 && s.board 1 1 == s.board 2 0)
    = c8
  cases c1 <;> cases c2 <;> cases c3 <;> cases c4 <;> cases c5 <;> cases c6 <;> cases c7 <;>
    cases c8 <;> rfl

theorem lineFull_iff (s : GameState) (l : (Fin 3 × Fin 3) × (Fin 3 × Fin 3) × (Fin 3 × Fin 3)) :
    lineFull s l = true ↔ s.board l.1.1 l.1.2 ≠ EMPTY ∧
      s.board l.2.1.1 l.2.1.2 = s.board l.1.1 l.1.2 ∧
      s.board l.2.2.1 l.2.2.2 = s.board l.1.1 l.1.2 := by
  unfold lineFull
  simp only [Bool.and_eq_true, bne_iff_ne, beq_iff_eq, ne_eq]
  constructor
  · rintro ⟨⟨h1, h2⟩, h3⟩; exact ⟨h1, h2.symm, by rw [← h3, ← h2]⟩
  · rintro ⟨h1, h2, h3⟩; exact ⟨⟨h1, h2.symm⟩, by rw [h2, h3]⟩

/-- Without a full line `check_winner` returns 0. -/
theorem check_winner_eq_zero_iff (s : GameState) :
    check_winner s = 0 ↔ ∀ l ∈ lines, lineFull s l = false := by
  rw [check_winner_eq]
  constructor
  · intro h
    cases hf : lines.find? (lineFull s) with
    | none =>
      intro l hl
      have := List.find?_eq_none.mp hf l hl
      simpa using this
    | some l =>
      rw [hf] at h
      simp only at h
      have := ((lineFull_iff s l).mp (List.find?_some hf)).1
      exact absurd h this
  · intro h
    have : lines.find? (lineFull s) = none := by
      rw [List.find?_eq_none]
      intro l hl
      simp [h l hl]
    rw [this]

/-- A non-zero result of `check_winner` is the mark of a full line. -/
theorem check_winner_ne_zero (s : GameState) (h : check_winner s ≠ 0) :
    ∃ l ∈ lines, lineFull s l = true ∧ check_winner s = s.board l.1.1 l.1.2 := by
  rw [check_winner_eq] at h ⊢
  cases hf : lines.find? (lineFull s) with
  | none => rw [hf] at h; simp at h
  | some l =>
    exact ⟨l, List.mem_of_find?_eq_some hf, List.find?_some hf, rfl⟩

theorem zipWith_mkMove (l : List (Fin 3 × Fin 3)) (f : Fin 3 × Fin 3 → Int) :
    List.zipWith mkMove l (l.map f) = l.map (fun q => mkMove q (f q)) := by
  induction l with
  | nil => rfl
  | cons q rest ih => simp [List.zipWith, ih]

theorem rootScores_eq (s : GameState) (player : Int) :
    rootScores s player = some ((emptyCells s).map (topScore s player)) := by
  unfold rootScores
  rw [runTasks_eq _ (fun c => mm 10 c 1 (if player = PLAYER_X then false else true))]
  · rfl
  · intro q hq
    have hq2 := mem_emptyCells.mp hq
    rw [minimax_parallel_eq _ (make_move_inRange hq2 _)]
    rfl

theorem find_best_move_parallel_eq (s : GameState) (player : Int) :
    find_best_move_parallel s player =
      some (selectBest player ((emptyCells s).map (fun q => mkMove q (topScore s player q)))
        { row := -1, col := -1, score := if player = PLAYER_X then INT_MIN else INT_MAX }) := by
  unfold find_best_move_parallel
  rw [rootScores_eq s player]
  simp only [zipWith_mkMove]

theorem selectBest_max {α : Type} (g : α → Move) (l : List α) : ∀ best : Move,
    (selectBest PLAYER_X (l.map g) best = best ∧ ∀ p ∈ l, (g p).score ≤ best.score) ∨
    (∃ q pre post, l = pre ++ q :: post ∧ selectBest PLAYER_X (l.map g) best = g q ∧
      best.score < (g q).score ∧ (∀ p ∈ pre, (g p).score < (g q).score) ∧
      ∀ p ∈ post, (g p).score ≤ (g q).score) := by
  induction l with
  | nil => intro best; left; exact ⟨rfl, fun p hp => absurd hp (by simp)⟩
  | cons a rest ih =>
    intro best
    simp only [List.map_cons, selectBest, if_true]
    by_cases h : (g a).score > best.score
    · simp only [h, if_true]
      rcases ih (g a) with ⟨h1, h2⟩ | ⟨q, pre, post, h1, h2, h3, h4, h5⟩
      · right
        exact ⟨a, [], rest, rfl, h1, h, fun p hp => absurd hp (by simp), h2⟩
      · right
        refine ⟨q, a :: pre, post, by rw [h1]; rfl, h2, by omega, ?_, h5⟩
        intro p hp
        rcases List.mem_cons.mp hp with rfl | hp
        · exact h3
        · exact h4 p hp
    · simp only [h, if_false]
      rcases ih best with ⟨h1, h2⟩ | ⟨q, pre, post, h1, h2, h3, h4, h5⟩
      · left
        refine ⟨h1, ?_⟩
        intro p hp
        rcases List.mem_cons.mp hp with rfl | hp
        · omega
        · exact h2 p hp
      · right
        refine ⟨q, a :: pre, post, by rw [h1]; rfl, h2, h3, ?_, h5⟩
        intro p hp
        rcases List.mem_cons.mp hp with rfl | hp
        · omega
        · exact h4 p hp

theorem selectBest_min {α : Type} (player : Int) (hpl : player ≠ PLAYER_X) (g : α → Move)
    (l : List α) : ∀ best : Move,
    (selectBest player (l.map g) best = best ∧ ∀ p ∈ l, best.score ≤ (g p).score) ∨
    (∃ q pre post, l = pre ++ q :: post ∧ selectBest player (l.map g) best = g q ∧
      (g q).score < best.score ∧ (∀ p ∈ pre, (g q).score < (g p).score) ∧
      ∀ p ∈ post, (g q).score ≤ (g p).score) := by
  induction l with
  | nil => intro best; left; exact ⟨rfl, fun p hp => absurd hp (by simp)⟩
  | cons a rest ih =>
    intro best
    simp only [List.map_cons, selectBest, hpl, if_false]
    by_cases h : (g a).score < best.score
    · simp only [h, if_true]
      rcases ih (g a) with ⟨h1, h2⟩ | ⟨q, pre, post, h1, h2, h3, h4, h5⟩
      · right
        exact ⟨a, [], rest, rfl, h1, h, fun p hp => absurd hp (by simp), h2⟩
      · right
        refine ⟨q, a :: pre, post, by rw [h1]; rfl, h2, by omega, ?_, h5⟩
        intro p hp
        rcases List.mem_cons.mp hp with rfl | hp
        · exact h3
        · exact h4 p hp
    · simp only [h, if_false]
      rcases ih best with ⟨h1, h2⟩ | ⟨q, pre, post, h1, h2, h3, h4, h5⟩
      · left
        refine ⟨h1, ?_⟩
        intro p hp
        rcases List.mem_cons.mp hp with rfl | hp
        · omega
        · exact h2 p hp
      · right
        refine ⟨q, a :: pre, post, by rw [h1]; rfl, h2, h3, ?_, h5⟩
        intro p hp
        rcases List.mem_cons.mp hp with rfl | hp
        · omega
        · exact h4 p hp

/-! ### Scores on states whose move count is the number of marks -/

theorem markCount_le_nine (s : GameState) : markCount s ≤ 9 := by
  unfold markCount
  calc (Finset.univ.filter (fun p : Fin 3 × Fin 3 => s.board p.1 p.2 ≠ EMPTY)).card
      ≤ (Finset.univ : Finset (Fin 3 × Fin 3)).card := Finset.card_filter_le _ _
    _ = 9 := by simp

theorem markCount_add_emptyCount (s : GameState) : markCount s + emptyCount s = 9 := by
  unfold markCount emptyCount
  have := @Finset.filter_card_add_filter_neg_card_eq_card (Fin 3 × Fin 3)
    (Finset.univ : Finset (Fin 3 × Fin 3)) (fun p => s.board p.1 p.2 = EMPTY) _ _
  simp only [Finset.card_univ, Fintype.card_prod, Fintype.card_fin] at this
  simp only [ne_eq]
  omega

theorem markCount_make_move {s : GameState} {i j : Fin 3} (h : s.board i j = EMPTY) {p : Int}
    (hp : p ≠ EMPTY) : markCount (make_move s i j p) = markCount s + 1 := by
  unfold markCount
  have : (Finset.univ.filter (fun q : Fin 3 × Fin 3 => (make_move s i j p).board q.1 q.2 ≠ EMPTY))
      = insert (i, j) (Finset.univ.filter (fun q : Fin 3 × Fin 3 => s.board q.1 q.2 ≠ EMPTY)) := by
    ext q
    simp only [Finset.mem_filter, Finset.mem_univ, true_and, Finset.mem_insert]
    rw [make_move_board h]
    by_cases hc : q.1 = i ∧ q.2 = j
    · have : q = (i, j) := Prod.ext hc.1 hc.2
      simp [hc, hp, this]
    · have : q ≠ (i, j) := fun e => hc ⟨by rw [e], by rw [e]⟩
      simp [hc, this]
  rw [this, Finset.card_insert_of_not_mem]
  simp [h]

theorem CountOK_inRange {s : GameState} (h : CountOK s) : InRange s := by
  unfold CountOK at h
  unfold InRange INT_MIN INT_MAX
  have := markCount_le_nine s
  omega

theorem CountOK_make_move {s : GameState} {i j : Fin 3} (h : s.board i j = EMPTY) {p : Int}
    (hp : p ≠ EMPTY) (hc : CountOK s) : CountOK (make_move s i j p) := by
  unfold CountOK at hc ⊢
  rw [make_move_count h, markCount_make_move h hp, hc]
  have := markCount_le_nine s
  unfold wrap32
  push_cast
  omega

theorem exists_empty_of_not_full {s : GameState} (hc : CountOK s)
    (hf : ¬ is_board_full s = true) : ∃ q : Fin 3 × Fin 3, s.board q.1 q.2 = EMPTY := by
  unfold is_board_full at hf
  unfold CountOK at hc
  simp only [decide_eq_true_eq, not_le] at hf
  have h1 := markCount_add_emptyCount s
  have h2 : 0 < emptyCount s := by omega
  unfold emptyCount at h2
  obtain ⟨q, hq⟩ := Finset.card_pos.mp h2
  exact ⟨q, by simpa using hq⟩

theorem evaluate_position_cases (s : GameState) :
    evaluate_position s = 10 ∨ evaluate_position s = -10 ∨ evaluate_position s = 0 := by
  unfold evaluate_position
  simp only
  split_ifs <;> simp

theorem terminalScore_bound (s : GameState) (depth : Int) (m : Bool) (h0 : 0 ≤ depth)
    (h1 : depth ≤ 100) :
    -200 ≤ terminalScore s depth m ∧ terminalScore s depth m ≤ 200 := by
  unfold terminalScore
  rcases evaluate_position_cases s with h | h | h <;> rw [h] <;> cases m <;>
    simp only [if_true, Bool.false_eq_true, if_false] <;> unfold wrap32 <;> omega

theorem mem_childVals_of_empty (val : GameState → Int) {s : GameState} (player : Int)
    {q : Fin 3 × Fin 3} (h : s.board q.1 q.2 = EMPTY) :
    val (make_move s q.1 q.2 player) ∈ childVals val s player cells := by
  unfold childVals
  apply List.mem_map.mpr
  exact ⟨q, List.mem_filter.mpr ⟨gt_mem_cells q, by simp [h]⟩, rfl⟩

theorem mem_childVals_empty {val : GameState → Int} {s : GameState} {player : Int}
    {l : List (Fin 3 × Fin 3)} {x : Int} (h : x ∈ childVals val s player l) :
    ∃ q : Fin 3 × Fin 3, s.board q.1 q.2 = EMPTY ∧ x = val (make_move s q.1 q.2 player) := by
  unfold childVals at h
  obtain ⟨q, hq1, hq⟩ := List.mem_map.mp h
  have := (List.mem_filter.mp hq1).2
  exact ⟨q, by simpa using this, hq.symm⟩

theorem mm_bounded (fuel : Nat) : ∀ (s : GameState) (depth : Int) (m : Bool), CountOK s →
    0 ≤ depth → depth + fuel ≤ 100 → -200 ≤ mm fuel s depth m ∧ mm fuel s depth m ≤ 200 := by
  induction fuel with
  | zero => intro s depth m _ _ _; simp only [mm]; omega
  | succ fuel ih =>
    intro s depth m hc h0 h1
    rw [mm_succ]
    have hd : wrap32 (depth + 1) = depth + 1 := by unfold wrap32; omega
    by_cases c1 : check_winner s ≠ 0
    · rw [if_pos c1]; exact terminalScore_bound s depth m h0 (by omega)
    · rw [if_neg c1]
      by_cases c2 : is_board_full s = true
      · rw [if_pos c2]; omega
      · rw [if_neg c2]
        obtain ⟨q0, hq0⟩ := exists_empty_of_not_full hc c2
        cases m with
        | true =>
          simp only [if_true]
          have hall : ∀ x ∈ childVals (fun c => mm fuel c (wrap32 (depth + 1)) false) s
              PLAYER_X cells, -200 ≤ x ∧ x ≤ 200 := by
            intro x hx
            obtain ⟨q, hq, rfl⟩ := mem_childVals_empty hx
            rw [hd]
            exact ih _ _ _ (CountOK_make_move hq PLAYER_X_ne hc) (by omega)
              (by push_cast at h1 ⊢; omega)
          have hmem := mem_childVals_of_empty (fun c => mm fuel c (wrap32 (depth + 1)) false)
            PLAYER_X hq0
          have g1 := maxScore_ge_mem _ INT_MIN _ hmem
          have g0 := hall _ hmem
          rcases maxScore_mem (childVals (fun c => mm fuel c (wrap32 (depth + 1)) false) s
            PLAYER_X cells) INT_MIN with g | g
          · rw [g] at g1; unfold INT_MIN at g1; omega
          · exact hall _ g
        | false =>
          simp only [Bool.false_eq_true, if_false]
          have hall : ∀ x ∈ childVals (fun c => mm fuel c (wrap32 (depth + 1)) true) s
              PLAYER_O cells, -200 ≤ x ∧ x ≤ 200 := by
            intro x hx
            obtain ⟨q, hq, rfl⟩ := mem_childVals_empty hx
            rw [hd]
            exact ih _ _ _ (CountOK_make_move hq PLAYER_O_ne hc) (by omega)
              (by push_cast at h1 ⊢; omega)
          have hmem := mem_childVals_of_empty (fun c => mm fuel c (wrap32 (depth + 1)) true)
            PLAYER_O hq0
          have g1 := minScore_le_mem _ INT_MAX _ hmem
          have g0 := hall _ hmem
          rcases minScore_mem (childVals (fun c => mm fuel c (wrap32 (depth + 1)) true) s
            PLAYER_O cells) INT_MAX with g | g
          · rw [g] at g1; unfold INT_MAX at g1; omega
          · exact hall _ g

theorem topScore_bounded {s : GameState} {player : Int}
    (hp : player = PLAYER_X ∨ player = PLAYER_O) (hc : CountOK s) {q : Fin 3 × Fin 3}
    (hq : s.board q.1 q.2 = EMPTY) :
    -200 ≤ topScore s player q ∧ topScore s player q ≤ 200 := by
  unfold topScore
  have hne : player ≠ EMPTY := by
    rcases hp with rfl | rfl
    · exact PLAYER_X_ne
    · exact PLAYER_O_ne
  exact mm_bounded 10 _ 1 _ (CountOK_make_move hq hne hc) (by omega) (by norm_num)

/-- The selection for player X: the first empty cell with the highest score. -/
theorem select_first_max (s : GameState) (hmc : CountOK s)
    (hempty : ∃ q : Fin 3 × Fin 3, s.board q.1 q.2 = EMPTY) :
    ∃ (q : Fin 3 × Fin 3) (pre post : List (Fin 3 × Fin 3)),
      emptyCells s = pre ++ q :: post ∧
      rootScores s PLAYER_X = some ((emptyCells s).map (topScore s PLAYER_X)) ∧
      find_best_move_parallel s PLAYER_X = some (mkMove q (topScore s PLAYER_X q)) ∧
      (∀ p ∈ pre, topScore s PLAYER_X p < topScore s PLAYER_X q) ∧
      ∀ p ∈ post, topScore s PLAYER_X p ≤ topScore s PLAYER_X q := by
  obtain ⟨q0, hq0⟩ := hempty
  have hb0 := topScore_bounded (Or.inl rfl) hmc hq0
  have hm0 : q0 ∈ emptyCells s := mem_emptyCells.mpr hq0
  rw [find_best_move_parallel_eq]
  rcases selectBest_max (fun q => mkMove q (topScore s PLAYER_X q)) (emptyCells s)
    { row := -1, col := -1, score := INT_MIN } with ⟨_, h2⟩ | ⟨q, pre, post, h1, h2, _, h4, h5⟩
  · have := h2 q0 hm0
    simp only [mkMove] at this
    unfold INT_MIN at this
    omega
  · refine ⟨q, pre, post, h1, rootScores_eq s _, ?_, h4, h5⟩
    simp only [if_true]; rw [h2]

/-- C10 (root aggregation and tie-break): on a state with an empty cell whose
`move_count` is its number of marks, `find_best_move_parallel` returns the
move of an empty cell `q` together with its score, the minimax value of the
state after the player marks `q`; for player X no empty cell scores higher
and every empty cell before `q` in row-major order scores strictly lower;
for player O no empty cell scores lower and every empty cell before `q`
scores strictly higher. -/
theorem C10_root_aggregation (s : GameState) (player : Int)
    (hp : player = PLAYER_X ∨ player = PLAYER_O)
    (hempty : ∃ q : Fin 3 × Fin 3, s.board q.1 q.2 = EMPTY) (hmc : CountOK s) :
    ∃ (q : Fin 3 × Fin 3) (pre post : List (Fin 3 × Fin 3)),
      emptyCells s = pre ++ q :: post ∧
      rootScores s player = some ((emptyCells s).map (topScore s player)) ∧
      find_best_move_parallel s player = some (mkMove q (topScore s player q)) ∧
      (player = PLAYER_X →
        (∀ p ∈ pre, topScore s player p < topScore s player q) ∧
        ∀ p ∈ post, topScore s player p ≤ topScore s player q) ∧
      (player = PLAYER_O →
        (∀ p ∈ pre, topScore s player q < topScore s player p) ∧
        ∀ p ∈ post, topScore s player q ≤ topScore s player p) := by
  obtain ⟨q0, hq0⟩ := hempty
  have hb0 := topScore_bounded hp hmc hq0
  have hm0 : q0 ∈ emptyCells s := mem_emptyCells.mpr hq0
  rw [find_best_move_parallel_eq]
  rcases hp with hx | ho
  · subst hx
    rcases selectBest_max (fun q => mkMove q (topScore s PLAYER_X q)) (emptyCells s)
      { row := -1, col := -1, score := INT_MIN } with ⟨_, h2⟩ | ⟨q, pre, post, h1, h2, _, h4, h5⟩
    · have := h2 q0 hm0
      simp only [mkMove] at this
      unfold INT_MIN at this
      omega
    · refine ⟨q, pre, post, h1, rootScores_eq s _, ?_, fun _ => ⟨h4, h5⟩, fun h => ?_⟩
      · simp only [if_true]; rw [h2]
      · exact absurd h (by decide)
  · subst ho
    have hne : PLAYER_O ≠ PLAYER_X := by decide
    rcases selectBest_min PLAYER_O hne (fun q => mkMove q (topScore s PLAYER_O q)) (emptyCells s)
      { row := -1, col := -1, score := INT_MAX } with ⟨_, h2⟩ | ⟨q, pre, post, h1, h2, _, h4, h5⟩
    · have := h2 q0 hm0
      simp only [mkMove] at this
      unfold INT_MAX at this
      omega
    · refine ⟨q, pre, post, h1, rootScores_eq s _, ?_, fun h => ?_, fun _ => ⟨h4, h5⟩⟩
      · simp only [hne, if_false]; rw [h2]
      · exact absurd h hne

theorem C10_root_aggregation_witness :
    ∃ (q : Fin 3 × Fin 3) (pre post : List (Fin 3 × Fin 3)),
      emptyCells test1State = pre ++ q :: post ∧
      rootScores test1State PLAYER_X =
        some ((emptyCells test1State).map (topScore test1State PLAYER_X)) ∧
      find_best_move_parallel test1State PLAYER_X =
        some (mkMove q (topScore test1State PLAYER_X q)) ∧
      (PLAYER_X = PLAYER_X →
        (∀ p ∈ pre, topScore test1State PLAYER_X p < topScore test1State PLAYER_X q) ∧
        ∀ p ∈ post, topScore test1State PLAYER_X p ≤ topScore test1State PLAYER_X q) ∧
      (PLAYER_X = PLAYER_O →
        (∀ p ∈ pre, topScore test1State PLAYER_X q < topScore test1State PLAYER_X p) ∧
        ∀ p ∈ post, topScore test1State PLAYER_X q ≤ topScore test1State PLAYER_X p) :=
  C10_root_aggregation test1State PLAYER_X (Or.inl rfl) ⟨(0, 2), by decide⟩ (by decide)

/-- C6 at a failing input: in the state reached from Test 1 when X completes
the top row, which `find_best_move_parallel` evaluates at depth 1 with
`is_maximizing = 0`, both `minimax_sequential` and `minimax_parallel` return
`10 + 1 = 11` and not `10 - 1 = 9`; the same win found at depth 3 scores 13,
which is higher, not lower. -/
theorem C6_terminal_score_adds_depth :
    check_winner wonState = PLAYER_X ∧
    (minimax_sequential wonState 1 false INT_MIN INT_MAX).map Prod.fst = some 11 ∧
    (minimax_parallel wonState 1 false INT_MIN INT_MAX 1).map Prod.fst = some 11 ∧
    (minimax_sequential wonState 3 false INT_MIN INT_MAX).map Prod.fst = some 13 ∧
    (minimax_parallel wonState 3 false INT_MIN INT_MAX 3).map Prod.fst = some 13 := by
  decide

theorem lineFull_of_all_eq {s : GameState}
    {l : (Fin 3 × Fin 3) × (Fin 3 × Fin 3) × (Fin 3 × Fin 3)} {w : Int} (hw : w ≠ EMPTY)
    (h : ∀ p ∈ cellsOf l, s.board p.1 p.2 = w) : lineFull s l = true := by
  rw [lineFull_iff]
  have h1 := h l.1 (by simp [cellsOf])
  have h2 := h l.2.1 (by simp [cellsOf])
  have h3 := h l.2.2 (by simp [cellsOf])
  rw [h1, h2, h3]
  exact ⟨hw, rfl, rfl⟩

theorem all_eq_of_lineFull {s : GameState}
    {l : (Fin 3 × Fin 3) × (Fin 3 × Fin 3) × (Fin 3 × Fin 3)} (h : lineFull s l = true) :
    ∀ p ∈ cellsOf l, s.board p.1 p.2 = s.board l.1.1 l.1.2 := by
  rw [lineFull_iff] at h
  intro p hp
  simp only [cellsOf, List.mem_cons, List.mem_singleton, List.mem_nil_iff, or_false] at hp
  rcases hp with rfl | rfl | rfl
  · rfl
  · exact h.2.1
  · exact h.2.2

/-- Marking a completing cell with X makes X the winner. -/
theorem check_winner_of_completing {s : GameState} {c : Fin 3 × Fin 3}
    (h0 : check_winner s = 0) (hc : Completing s c) :
    check_winner (make_move s c.1 c.2 PLAYER_X) = PLAYER_X := by
  obtain ⟨hce, l, hl, hcl, hothers⟩ := hc
  have hboard : ∀ p : Fin 3 × Fin 3, (make_move s c.1 c.2 PLAYER_X).board p.1 p.2 =
      if p = c then PLAYER_X else s.board p.1 p.2 := by
    intro p
    rw [make_move_board hce]
    by_cases hp : p = c
    · subst hp; simp
    · have : ¬ (p.1 = c.1 ∧ p.2 = c.2) := fun e => hp (Prod.ext e.1 e.2)
      simp [hp, this]
  have hfull : lineFull (make_move s c.1 c.2 PLAYER_X) l = true := by
    apply lineFull_of_all_eq PLAYER_X_ne
    intro p hp
    rw [hboard p]
    by_cases hpc : p = c
    · simp [hpc]
    · simp [hpc, hothers p hp hpc]
  have hne : check_winner (make_move s c.1 c.2 PLAYER_X) ≠ 0 := by
    intro e
    have := (check_winner_eq_zero_iff _).mp e l hl
    rw [hfull] at this
    exact absurd this (by simp)
  obtain ⟨l2, hl2, hf2, hw⟩ := check_winner_ne_zero _ hne
  have hall := all_eq_of_lineFull hf2
  by_cases hin : c ∈ cellsOf l2
  · have := hall c hin
    rw [hboard c] at this
    simp only [if_true] at this
    rw [hw, ← this]
  · exfalso
    have hs : lineFull s l2 = true := by
      rw [lineFull_iff] at hf2 ⊢
      have e1 : l2.1 ≠ c := fun e => hin (by rw [← e]; simp [cellsOf])
      have e2 : l2.2.1 ≠ c := fun e => hin (by rw [← e]; simp [cellsOf])
      have e3 : l2.2.2 ≠ c := fun e => hin (by rw [← e]; simp [cellsOf])
      have b1 := hboard l2.1
      have b2 := hboard l2.2.1
      have b3 := hboard l2.2.2
      simp only [e1, e2, e3, if_false] at b1 b2 b3
      rw [← b1, ← b2, ← b3]
      exact hf2
    have := (check_winner_eq_zero_iff s).mp h0 l2 hl2
    rw [hs] at this
    exact absurd this (by simp)

theorem topScore_of_completing {s : GameState} {c : Fin 3 × Fin 3}
    (h0 : check_winner s = 0) (hc : Completing s c) :
    topScore s PLAYER_X c = 11 := by
  have hw := check_winner_of_completing h0 hc
  have hne : check_winner (make_move s c.1 c.2 PLAYER_X) ≠ 0 := by
    rw [hw]; decide
  unfold topScore
  rw [mm_succ, if_pos hne]
  unfold terminalScore evaluate_position
  simp only [hw, if_true]
  decide

theorem find_best_move_parallel_of_scores {s : GameState} {player : Int} {scores : List Int}
    (h : rootScores s player = some scores) :
    find_best_move_parallel s player =
      some (selectBest player (List.zipWith mkMove (emptyCells s) scores)
        { row := -1, col := -1, score := if player = PLAYER_X then INT_MIN else INT_MAX }) := by
  unfold find_best_move_parallel
  rw [h]

/-- What holds of the move returned when X can win at once: in a state with no
winner, `move_count` equal to the number of marks and X to move, in which some
empty cell completes a line of two X marks, all cells completing such a line
receive one and the same score `w`, and `find_best_move_parallel` returns the
move of an empty cell whose score is at least `w` and at least the score of
every other top-level move.  In the state of Test 1 it returns the cell
(0,2), and every other top-level move scores strictly lower. -/
theorem immediate_win_scores :
    (∀ s : GameState, check_winner s = 0 → CountOK s → (∃ c, Completing s c) →
      ∃ (q : Fin 3 × Fin 3) (w : Int),
        find_best_move_parallel s PLAYER_X = some (mkMove q (topScore s PLAYER_X q)) ∧
        q ∈ emptyCells s ∧
        rootScores s PLAYER_X = some ((emptyCells s).map (topScore s PLAYER_X)) ∧
        (∀ c, Completing s c → c ∈ emptyCells s ∧ topScore s PLAYER_X c = w) ∧
        w ≤ topScore s PLAYER_X q ∧
        ∀ p ∈ emptyCells s, topScore s PLAYER_X p ≤ topScore s PLAYER_X q) ∧
    (∃ (m : Move) (scores : List Int),
      find_best_move_parallel test1State PLAYER_X = some m ∧ m.row = 0 ∧ m.col = 2 ∧
      emptyCells test1State = [(0, 2), (1, 2), (2, 0), (2, 1), (2, 2)] ∧
      rootScores test1State PLAYER_X = some (m.score :: scores) ∧
      ∀ e ∈ scores, e < m.score) := by
  constructor
  · intro s h0 hmc hex
    obtain ⟨c0, hc0⟩ := hex
    obtain ⟨q, pre, post, h1, h2, h3, h4, h5⟩ :=
      select_first_max s hmc ⟨c0, hc0.1⟩
    have hall : ∀ p ∈ emptyCells s, topScore s PLAYER_X p ≤ topScore s PLAYER_X q := by
      intro p hp
      rw [h1] at hp
      rcases List.mem_append.mp hp with hp | hp
      · have := h4 p hp; omega
      · rcases List.mem_cons.mp hp with rfl | hp
        · exact le_refl _
        · exact h5 p hp
    refine ⟨q, 11, h3, by rw [h1]; simp, h2, ?_, ?_, hall⟩
    · intro c hc
      exact ⟨mem_emptyCells.mpr hc.1, topScore_of_completing h0 hc⟩
    · rw [← topScore_of_completing h0 hc0]
      exact hall c0 (mem_emptyCells.mpr hc0.1)
  · exact ⟨⟨0, 2, 11⟩, [0, -12, -14, -14], by decide!, rfl, rfl, by decide, by decide!,
      by decide⟩

theorem immediate_win_scores_test1 :
    ∃ (q : Fin 3 × Fin 3) (w : Int),
      find_best_move_parallel test1State PLAYER_X =
        some (mkMove q (topScore test1State PLAYER_X q)) ∧
      q ∈ emptyCells test1State ∧
      rootScores test1State PLAYER_X =
        some ((emptyCells test1State).map (topScore test1State PLAYER_X)) ∧
      (∀ c, Completing test1State c →
        c ∈ emptyCells test1State ∧ topScore test1State PLAYER_X c = w) ∧
      w ≤ topScore test1State PLAYER_X q ∧
      ∀ p ∈ emptyCells test1State,
        topScore test1State PLAYER_X p ≤ topScore test1State PLAYER_X q :=
  immediate_win_scores.1 test1State (by decide) (by decide) ⟨(0, 2), by decide⟩

/-- With two cells that complete a line the best score is shared: in `tieState`
(no winner, six marks, X to move, X holds (1,0) and (2,0) with (0,0) empty)
the cells (0,0) and (0,2) both complete a line and both score 11, and the
first of them is returned. -/
theorem tie_of_two_completing_cells :
    check_winner tieState = 0 ∧ CountOK tieState ∧ Completing tieState (0, 0) ∧
    Completing tieState (0, 2) ∧
    find_best_move_parallel tieState PLAYER_X = some ⟨0, 0, 11⟩ ∧
    emptyCells tieState = [(0, 0), (0, 1), (0, 2)] ∧
    rootScores tieState PLAYER_X = some [11, -12, 11] := by
  refine ⟨by decide, by decide, by decide, by decide, by decide!, by decide, by decide!⟩

/-- C7 at a failing input: in `forkState` (no winner, six marks equal to
`move_count`, X to move; X holds (1,1), (2,0) and (2,2), O holds (1,0), (1,2)
and (2,1)) the empty cells are (0,0), (0,1) and (0,2); the cells (0,0) and
(0,2) each complete a line of X and are scored 11, but
`find_best_move_parallel` returns the cell (0,1), which completes no line,
with the score 13 of a win two moves later. -/
theorem C7_immediate_win_not_chosen :
    check_winner forkState = 0 ∧ CountOK forkState ∧
    emptyCells forkState = [(0, 0), (0, 1), (0, 2)] ∧
    Completing forkState (0, 0) ∧ Completing forkState (0, 2) ∧
    ¬ Completing forkState (0, 1) ∧
    rootScores forkState PLAYER_X = some [11, 13, 11] ∧
    find_best_move_parallel forkState PLAYER_X = some ⟨0, 1, 13⟩ := by
  refine ⟨by decide, by decide, by decide, by decide, by decide, by decide, by decide!,
    by decide!⟩

/-- C8 at a failing input: in `blockState` (X at (1,2), O at (2,1) and (2,2),
three marks, no winner, X to move) the cell (2,0) is the only cell where O can
complete a line and X has no winning move, but `find_best_move_parallel`
returns (1,1) with score -12; the blocking cell (2,0) scores -14. -/
theorem C8_block_not_chosen :
    check_winner blockState = 0 ∧ CountOK blockState ∧
    emptyCells blockState = [(0, 0), (0, 1), (0, 2), (1, 0), (1, 1), (2, 0)] ∧
    (∀ c ∈ emptyCells blockState,
      check_winner (make_move blockState c.1 c.2 PLAYER_O) = PLAYER_O ↔ c = (2, 0)) ∧
    (∀ c ∈ emptyCells blockState,
      check_winner (make_move blockState c.1 c.2 PLAYER_X) = 0) ∧
    rootScores blockState PLAYER_X = some [-14, -14, -14, -14, -12, -14] ∧
    find_best_move_parallel blockState PLAYER_X = some ⟨1, 1, -12⟩ := by
  have hs : rootScores blockState PLAYER_X = some [-14, -14, -14, -14, -12, -14] := by decide!
  refine ⟨by decide, by decide, by decide, by decide, by decide, hs, ?_⟩
  rw [find_best_move_parallel_of_scores hs]
  decide

theorem corner_opening_ge_zero : 0 ≤ topScore init_board PLAYER_X (0, 0) := by
  have hb := alphabeta_bounds 10 (make_move init_board 0 0 PLAYER_X) 1 false (-1) 0
    (by decide) (by decide) (by decide)
  have hv : alphabeta 10 (make_move init_board 0 0 PLAYER_X) 1 false (-1) 0 = 0 := by decide!
  rw [hv] at hb
  exact hb.2.2 (le_refl 0)

theorem centre_opening_le_zero : topScore init_board PLAYER_X (1, 1) ≤ 0 := by
  have hb := alphabeta_bounds 10 (make_move init_board 1 1 PLAYER_X) 1 false 0 1
    (by decide) (by decide) (by decide)
  have hv : alphabeta 10 (make_move init_board 1 1 PLAYER_X) 1 false 0 1 = 0 := by decide!
  rw [hv] at hb
  exact hb.1 (le_refl 0)

/-- C9 at the failing input: on the empty board of `init_board`
`find_best_move_parallel` does not return the centre (1,1): the corner (0,0),
enumerated first, scores at least 0 and the centre scores at most 0, and a later
move replaces the best one only with a strictly higher score. -/
theorem C9_centre_not_returned :
    ∃ m : Move, find_best_move_parallel init_board PLAYER_X = some m ∧
      ¬ (m.row = 1 ∧ m.col = 1) := by
  rw [find_best_move_parallel_eq]
  refine ⟨_, rfl, ?_⟩
  have hE : emptyCells init_board = cells := by decide
  rcases selectBest_max (fun q => mkMove q (topScore init_board PLAYER_X q))
    (emptyCells init_board) { row := -1, col := -1, score := INT_MIN } with
    ⟨h1, _⟩ | ⟨q, pre, post, h1, h2, _, h4, _⟩
  · simp only [if_true]
    rw [h1]
    simp
  · simp only [if_true]
    rw [h2]
    rintro ⟨hr, hc⟩
    simp only [mkMove] at hr hc
    have hq : q = (1, 1) := by
      obtain ⟨q1, q2⟩ := q
      have e1 : q1 = 1 := by
        apply Fin.ext; simp only at hr; exact_mod_cast hr
      have e2 : q2 = 1 := by
        apply Fin.ext; simp only at hc; exact_mod_cast hc
      rw [e1, e2]
    subst hq
    rw [hE] at h1
    cases pre with
    | nil => simp [cells, idx] at h1
    | cons a rest =>
      have ha : a = (0, 0) := by
        have := congrArg List.head? h1
        simp [cells, idx] at this
        exact this.symm
      have := h4 a (List.mem_cons_self _ _)
      rw [ha] at this
      simp only [mkMove] at this
      have l1 := corner_opening_ge_zero
      have l2 := centre_opening_le_zero
      omega

/-- C13: `check_winner` returns 0 exactly when none of the eight lines consists of three equal
non-EMPTY marks; a non-zero result `p` is the mark of a line that consists entirely of `p`;
and when a player `p` owns a complete line and no complete line belongs to another mark, the
result is `p`. -/
theorem C13_check_winner_oracle (s : GameState) :
    (check_winner s = 0 ↔
      ∀ l ∈ lines, ¬ (s.board l.1.1 l.1.2 ≠ EMPTY ∧
        s.board l.2.1.1 l.2.1.2 = s.board l.1.1 l.1.2 ∧
        s.board l.2.2.1 l.2.2.2 = s.board l.1.1 l.1.2)) ∧
    (check_winner s ≠ 0 →
      ∃ l ∈ lines, ∀ c ∈ cellsOf l, s.board c.1 c.2 = check_winner s) ∧
    (∀ p : Int, p ≠ EMPTY →
      (∃ l ∈ lines, ∀ c ∈ cellsOf l, s.board c.1 c.2 = p) →
      (∀ l ∈ lines, ∀ q : Int, q ≠ EMPTY → (∀ c ∈ cellsOf l, s.board c.1 c.2 = q) → q = p) →
      check_winner s = p) := by
  refine ⟨?_, ?_, ?_⟩
  · rw [check_winner_eq_zero_iff]
    constructor
    · intro h l hl hf
      have := h l hl
      rw [(lineFull_iff s l).mpr hf] at this
      exact Bool.noConfusion this
    · intro h l hl
      cases hf : lineFull s l with
      | false => rfl
      | true => exact absurd ((lineFull_iff s l).mp hf) (h l hl)
  · intro h
    obtain ⟨l, hl, hf, he⟩ := check_winner_ne_zero s h
    exact ⟨l, hl, fun c hc => by rw [he]; exact all_eq_of_lineFull hf c hc⟩
  · intro p hp ⟨l, hl, hall⟩ honly
    have hne : check_winner s ≠ 0 := by
      intro h0
      have := (check_winner_eq_zero_iff s).mp h0 l hl
      rw [lineFull_of_all_eq hp hall] at this
      exact Bool.noConfusion this
    obtain ⟨l2, hl2, hf2, he2⟩ := check_winner_ne_zero s hne
    rw [he2]
    exact honly l2 hl2 _ ((lineFull_iff s l2).mp hf2).1 (all_eq_of_lineFull hf2)

/-- C14: on a state whose `move_count` is an `int`, `make_move` on an EMPTY cell with a
player in {PLAYER_X, PLAYER_O} followed by `undo_move` on the same cell gives back the
original state, in all nine cells and in `move_count`. -/
theorem C14_make_undo_inverse (s : GameState) (row col : Fin 3) (player : Int)
    (hr : InRange s) (hempty : s.board row col = EMPTY)
    (hp : player = PLAYER_X ∨ player = PLAYER_O) :
    undo_move (make_move s row col player) row col = s ∧
    (∀ i j, (undo_move (make_move s row col player) row col).board i j = s.board i j) ∧
    (undo_move (make_move s row col player) row col).move_count = s.move_count := by
  have hp2 : player ≠ EMPTY := by
    rcases hp with rfl | rfl
    · exact PLAYER_X_ne
    · exact PLAYER_O_ne
  have h := undo_make_move hempty hp2 hr
  rw [h]
  exact ⟨rfl, fun _ _ => rfl, rfl⟩

theorem C14_make_undo_inverse_witness :
    undo_move (make_move test1State 0 2 PLAYER_X) 0 2 = test1State ∧
    (∀ i j, (undo_move (make_move test1State 0 2 PLAYER_X) 0 2).board i j
      = test1State.board i j) ∧
    (undo_move (make_move test1State 0 2 PLAYER_X) 0 2).move_count = test1State.move_count :=
  C14_make_undo_inverse test1State 0 2 PLAYER_X (by decide) (by decide) (Or.inl rfl)

/-- C27: on a state whose `move_count` is its number of marks, for every depth and every
window `alpha < beta` of `int` values, `minimax_sequential` returns a score `v` that equals
the pruning-free minimax value `mm` when `mm` lies strictly inside the window, is at most
`alpha` when `mm` is, and is at least `beta` when `mm` is; with the window
`(INT_MIN, INT_MAX)` it returns `mm` itself. -/
theorem C27_alpha_beta_preserves_value (s : GameState) (hc : CountOK s) (depth : Int)
    (is_maximizing : Bool) (alpha beta : Int) (ha : INT_MIN ≤ alpha) (hab : alpha < beta)
    (hb : beta ≤ INT_MAX) :
    (∃ v, minimax_sequential s depth is_maximizing alpha beta = some (v, s) ∧
      (alpha < mm 10 s depth is_maximizing → mm 10 s depth is_maximizing < beta →
        v = mm 10 s depth is_maximizing) ∧
      (mm 10 s depth is_maximizing ≤ alpha → v ≤ alpha) ∧
      (beta ≤ mm 10 s depth is_maximizing → beta ≤ v)) ∧
    minimax_sequential s depth is_maximizing INT_MIN INT_MAX
      = some (mm 10 s depth is_maximizing, s) := by
  have hr := CountOK_inRange hc
  constructor
  · refine ⟨alphabeta 10 s depth is_maximizing alpha beta,
      minimax_sequential_eq s hr depth is_maximizing alpha beta, ?_⟩
    obtain ⟨h1, h2, h3⟩ := alphabeta_bounds 10 s depth is_maximizing alpha beta ha hab hb
    generalize alphabeta 10 s depth is_maximizing alpha beta = v at h1 h2 h3
    generalize mm 10 s depth is_maximizing = m at h1 h2 h3
    refine ⟨?_, ?_, ?_⟩
    · intro g1 g2
      by_cases c1 : v ≤ alpha
      · have := h1 c1; omega
      · by_cases c2 : beta ≤ v
        · have := h3 c2; omega
        · exact (h2 (by omega) (by omega)).symm
    · intro g1
      by_cases c1 : v ≤ alpha
      · exact c1
      · by_cases c2 : beta ≤ v
        · have := h3 c2; omega
        · have := h2 (by omega) (by omega); omega
    · intro g1
      by_cases c2 : beta ≤ v
      · exact c2
      · by_cases c1 : v ≤ alpha
        · have := h1 c1; omega
        · have := h2 (by omega) (by omega); omega
  · rw [minimax_sequential_eq s hr, alphabeta_full]

theorem C27_alpha_beta_preserves_value_witness :
    (∃ v, minimax_sequential test2State 0 true (-1) 1 = some (v, test2State) ∧
      (-1 < mm 10 test2State 0 true → mm 10 test2State 0 true < 1 →
        v = mm 10 test2State 0 true) ∧
      (mm 10 test2State 0 true ≤ -1 → v ≤ -1) ∧
      (1 ≤ mm 10 test2State 0 true → 1 ≤ v)) ∧
    minimax_sequential test2State 0 true INT_MIN INT_MAX
      = some (mm 10 test2State 0 true, test2State) :=
  C27_alpha_beta_preserves_value test2State (by decide) 0 true (-1) 1 (by decide) (by decide)
    (by decide)

theorem markCount_congr {s t : GameState} (h : s.board = t.board) : markCount s = markCount t := by
  unfold markCount
  rw [h]

theorem make_move_occupied {s : GameState} {i j : Fin 3} (h : s.board i j ≠ EMPTY) (p : Int) :
    make_move s i j p = s := by
  unfold make_move
  rw [if_neg h]

theorem undo_move_empty {s : GameState} {i j : Fin 3} (h : s.board i j = EMPTY) :
    undo_move s i j = s := by
  unfold undo_move
  rw [if_neg (by simpa using h)]

theorem markCount_undo_move {s : GameState} {i j : Fin 3} (h : s.board i j ≠ EMPTY) :
    markCount (undo_move s i j) + 1 = markCount s := by
  have hb : (undo_move s i j).board i j = EMPTY := by
    unfold undo_move
    rw [if_pos h]
    simp
  have h1 := @markCount_make_move (undo_move s i j) i j hb (s.board i j) h
  rw [← h1]
  apply markCount_congr
  funext a b
  rw [make_move_board hb]
  by_cases hc : a = i ∧ b = j
  · obtain ⟨rfl, rfl⟩ := hc; simp
  · unfold undo_move
    rw [if_pos h]
    simp [hc]

theorem CountOK_undo_move {s : GameState} (hc : CountOK s) (i j : Fin 3) :
    CountOK (undo_move s i j) := by
  by_cases h : s.board i j = EMPTY
  · rw [undo_move_empty h]; exact hc
  · have h1 := markCount_undo_move h
    have h2 := markCount_le_nine s
    unfold CountOK at hc ⊢
    have hm : (undo_move s i j).move_count = wrap32 (s.move_count - 1) := by
      unfold undo_move
      rw [if_pos h]
    rw [hm, hc]
    unfold wrap32
    omega

theorem is_board_full_iff {s : GameState} (hc : CountOK s) :
    is_board_full s = true ↔ ∀ i j, s.board i j ≠ EMPTY := by
  have h1 := markCount_add_emptyCount s
  unfold CountOK at hc
  constructor
  · intro hf i j he
    unfold is_board_full at hf
    simp only [decide_eq_true_eq] at hf
    have h0 : emptyCount s = 0 := by omega
    unfold emptyCount at h0
    rw [Finset.card_eq_zero] at h0
    have : (i, j) ∈ Finset.univ.filter (fun p : Fin 3 × Fin 3 => s.board p.1 p.2 = EMPTY) := by
      simp [he]
    rw [h0] at this
    exact absurd this (Finset.not_mem_empty _)
  · intro hall
    by_contra hf
    obtain ⟨q, hq⟩ := exists_empty_of_not_full hc hf
    exact hall q.1 q.2 hq

/-- C32: on a state whose `move_count` is an `int`, `minimax_sequential` returns, for every
depth, side and window, and the state it leaves has the nine board cells and the
`move_count` it had before the call. -/
theorem C32_minimax_restores_state (s : GameState) (hr : InRange s) (depth : Int)
    (is_maximizing : Bool) (alpha beta : Int) :
    ∃ (v : Int) (s1 : GameState),
      minimax_sequential s depth is_maximizing alpha beta = some (v, s1) ∧
      (∀ i j, s1.board i j = s.board i j) ∧ s1.move_count = s.move_count := by
  exact ⟨_, s, minimax_sequential_eq s hr depth is_maximizing alpha beta, fun _ _ => rfl, rfl⟩

theorem C32_minimax_restores_state_witness :
    ∃ (v : Int) (s1 : GameState),
      minimax_sequential test2State 0 true (-1) 1 = some (v, s1) ∧
      (∀ i j, s1.board i j = test2State.board i j) ∧ s1.move_count = test2State.move_count :=
  C32_minimax_restores_state test2State (by decide) 0 true (-1) 1

/-- C34: `move_count` equals the number of non-EMPTY cells after `init_board`; `make_move`
keeps this for every cell and for the players X and O, and changes nothing when the cell is
occupied; `undo_move` keeps it for every cell, and changes nothing when the cell is EMPTY;
and while it holds, `is_board_full` returns true exactly when no cell is EMPTY. -/
theorem C34_move_count_invariant :
    CountOK init_board ∧
    (∀ (s : GameState) (i j : Fin 3) (p : Int), p = PLAYER_X ∨ p = PLAYER_O → CountOK s →
      CountOK (make_move s i j p)) ∧
    (∀ (s : GameState) (i j : Fin 3) (p : Int), s.board i j ≠ EMPTY → make_move s i j p = s) ∧
    (∀ (s : GameState) (i j : Fin 3), CountOK s → CountOK (undo_move s i j)) ∧
    (∀ (s : GameState) (i j : Fin 3), s.board i j = EMPTY → undo_move s i j = s) ∧
    (∀ s : GameState, CountOK s → (is_board_full s = true ↔ ∀ i j, s.board i j ≠ EMPTY)) := by
  refine ⟨by decide, ?_, fun s i j p h => make_move_occupied h p,
    fun s i j hc => CountOK_undo_move hc i j, fun s i j h => undo_move_empty h,
    fun s hc => is_board_full_iff hc⟩
  intro s i j p hp hc
  by_cases h : s.board i j = EMPTY
  · have hne : p ≠ EMPTY := by
      rcases hp with rfl | rfl
      · exact PLAYER_X_ne
      · exact PLAYER_O_ne
    exact CountOK_make_move h hne hc
  · rw [make_move_occupied h]; exact hc

/-- C38: the searches return. `solve_sudoku_sequential_pure` returns on every board, already
when its recursion is bounded by one more than the number of empty cells, and each of its
recursive calls is on a board with fewer empty cells; `minimax_sequential` returns on every
state whose `move_count` is an `int`, whether or not `move_count` agrees with the board,
already when its recursion is bounded by one more than the number of EMPTY cells, and each
of its recursive calls is on a state with fewer EMPTY cells. -/
theorem C38_searches_are_total :
    (∀ board : Sudoku.Board,
      ∃ res b1, Sudoku.solve_sudoku_sequential_pure board = some (res, b1)) ∧
    (∀ (board : Sudoku.Board) (fuel : Nat), Sudoku.emptyCount board < fuel →
      ∃ res b1, Sudoku.solve_sudoku_sequential_pure_aux fuel board = some (res, b1)) ∧
    (∀ (board : Sudoku.Board) (r c : Fin 9) (n : Int),
      Sudoku.find_unassigned board = some (r, c) → n ∈ Sudoku.digits →
      Sudoku.emptyCount (Sudoku.setCell board r c n) < Sudoku.emptyCount board) ∧
    (∀ (s : GameState) (depth : Int) (m : Bool) (a b : Int), InRange s →
      ∃ v s1, minimax_sequential s depth m a b = some (v, s1)) ∧
    (∀ (s : GameState) (fuel : Nat) (depth : Int) (m : Bool) (a b : Int), InRange s →
      emptyCount s < fuel → ∃ v s1, minimax_sequential_aux fuel s depth m a b = some (v, s1)) ∧
    (∀ (s : GameState) (i j : Fin 3) (p : Int), s.board i j = EMPTY →
      p = PLAYER_X ∨ p = PLAYER_O → emptyCount (make_move s i j p) < emptyCount s) := by
  refine ⟨?_, ?_, ?_, ?_, ?_, ?_⟩
  · intro board
    obtain ⟨res, b1, h, _⟩ := Sudoku.solve_spec board
    exact ⟨res, b1, h⟩
  · intro board fuel hf
    obtain ⟨res, b1, h, _⟩ := Sudoku.solve_aux_spec fuel board hf
    exact ⟨res, b1, h⟩
  · intro board r c n hfind hn
    have h1 := (Sudoku.digits_range hn).1
    exact Sudoku.emptyCount_setCell_lt board r c n (Sudoku.find_unassigned_some hfind) (by omega)
  · intro s depth m a b hr
    exact ⟨_, s, minimax_sequential_eq s hr depth m a b⟩
  · intro s fuel depth m a b hr hf
    exact ⟨_, s, minimax_sequential_aux_eq fuel s hr hf depth m a b⟩
  · intro s i j p h hp
    have hne : p ≠ EMPTY := by
      rcases hp with rfl | rfl
      · exact PLAYER_X_ne
      · exact PLAYER_O_ne
    exact emptyCount_make_move h hne

/-- The move `find_best_move_parallel` returns is the move of an empty cell with its score,
when there is an empty cell. -/
theorem find_best_move_parallel_playable (s : GameState) (player : Int)
    (hp : player = PLAYER_X ∨ player = PLAYER_O) (hmc : CountOK s)
    (hempty : ∃ q : Fin 3 × Fin 3, s.board q.1 q.2 = EMPTY) :
    ∃ q : Fin 3 × Fin 3, s.board q.1 q.2 = EMPTY ∧
      find_best_move_parallel s player = some (mkMove q (topScore s player q)) := by
  obtain ⟨q0, hq0⟩ := hempty
  have hb0 := topScore_bounded hp hmc hq0
  have hm0 : q0 ∈ emptyCells s := mem_emptyCells.mpr hq0
  rw [find_best_move_parallel_eq]
  rcases hp with rfl | rfl
  · rcases selectBest_max (fun q => mkMove q (topScore s PLAYER_X q)) (emptyCells s)
      { row := -1, col := -1, score := if PLAYER_X = PLAYER_X then INT_MIN else INT_MAX }
      with ⟨_, h2⟩ | ⟨q, pre, post, hl, hsel, _⟩
    · have := h2 q0 hm0
      simp only [mkMove, if_true] at this
      unfold INT_MIN at this
      omega
    · refine ⟨q, mem_emptyCells.mp ?_, by rw [hsel]⟩
      rw [hl]; simp
  · have hne : PLAYER_O ≠ PLAYER_X := by decide
    rcases selectBest_min PLAYER_O hne (fun q => mkMove q (topScore s PLAYER_O q)) (emptyCells s)
      { row := -1, col := -1, score := if PLAYER_O = PLAYER_X then INT_MIN else INT_MAX }
      with ⟨_, h2⟩ | ⟨q, pre, post, hl, hsel, _⟩
    · have := h2 q0 hm0
      simp only [mkMove, hne, if_false] at this
      unfold INT_MAX at this
      omega
    · refine ⟨q, mem_emptyCells.mp ?_, by rw [hsel]⟩
      rw [hl]; simp

/-- C33: on a state whose `move_count` is its number of marks, for player X or O,
`find_best_move_parallel` returns a move; when the state has an EMPTY cell, the move has
`row` and `col` in 0..2, the cell `board[row][col]` is EMPTY, and the score is neither
`INT_MIN` nor `INT_MAX`; a move with `row` or `col` equal to -1 is returned only when the
state has no EMPTY cell. -/
theorem C33_returned_move_is_playable (s : GameState) (player : Int)
    (hp : player = PLAYER_X ∨ player = PLAYER_O) (hmc : CountOK s) :
    ∃ mv : Move, find_best_move_parallel s player = some mv ∧
      ((∃ q : Fin 3 × Fin 3, s.board q.1 q.2 = EMPTY) →
        0 ≤ mv.row ∧ mv.row ≤ 2 ∧ 0 ≤ mv.col ∧ mv.col ≤ 2 ∧
        (∃ q : Fin 3 × Fin 3, mv.row = (q.1.val : Int) ∧ mv.col = (q.2.val : Int) ∧
          s.board q.1 q.2 = EMPTY) ∧
        mv.score ≠ INT_MIN ∧ mv.score ≠ INT_MAX) ∧
      (mv.row = -1 ∨ mv.col = -1 → ∀ i j, s.board i j ≠ EMPTY) := by
  have key : ∀ mv : Move, find_best_move_parallel s player = some mv →
      (∃ q : Fin 3 × Fin 3, s.board q.1 q.2 = EMPTY) →
        0 ≤ mv.row ∧ mv.row ≤ 2 ∧ 0 ≤ mv.col ∧ mv.col ≤ 2 ∧
        (∃ q : Fin 3 × Fin 3, mv.row = (q.1.val : Int) ∧ mv.col = (q.2.val : Int) ∧
          s.board q.1 q.2 = EMPTY) ∧
        mv.score ≠ INT_MIN ∧ mv.score ≠ INT_MAX := by
    intro mv hmv hempty
    obtain ⟨q, hq, hsel⟩ := find_best_move_parallel_playable s player hp hmc hempty
    rw [hsel] at hmv
    have e := (Option.some.inj hmv).symm
    subst e
    have hb := topScore_bounded hp hmc hq
    have h1 := q.1.isLt
    have h2 := q.2.isLt
    simp only [mkMove]
    unfold INT_MIN INT_MAX
    exact ⟨by omega, by omega, by omega, by omega, ⟨q, rfl, rfl, hq⟩, by omega, by omega⟩
  rw [find_best_move_parallel_eq]
  refine ⟨_, rfl, key _ (find_best_move_parallel_eq s player), ?_⟩
  intro hneg i j he
  have := key _ (find_best_move_parallel_eq s player) ⟨(i, j), he⟩
  omega

theorem C33_returned_move_is_playable_witness :
    ∃ mv : Move, find_best_move_parallel test2State PLAYER_X = some mv ∧
      ((∃ q : Fin 3 × Fin 3, test2State.board q.1 q.2 = EMPTY) →
        0 ≤ mv.row ∧ mv.row ≤ 2 ∧ 0 ≤ mv.col ∧ mv.col ≤ 2 ∧
        (∃ q : Fin 3 × Fin 3, mv.row = (q.1.val : Int) ∧ mv.col = (q.2.val : Int) ∧
          test2State.board q.1 q.2 = EMPTY) ∧
        mv.score ≠ INT_MIN ∧ mv.score ≠ INT_MAX) ∧
      (mv.row = -1 ∨ mv.col = -1 → ∀ i j, test2State.board i j ≠ EMPTY) :=
  C33_returned_move_is_playable test2State PLAYER_X (Or.inl rfl) (by decide)

end GameTree

/-! ## Merge sort: properties -/

namespace MergeSort

theorem seg_zero (arr : Arr) (lo : Nat) : seg arr lo 0 = [] := rfl

theorem seg_succ (arr : Arr) (lo n : Nat) : seg arr lo (n + 1) = seg arr lo n ++ [arr (lo + n)] := by
  unfold seg
  rw [List.range_succ, List.map_append]
  rfl

theorem seg_length (arr : Arr) (lo n : Nat) : (seg arr lo n).length = n := by
  unfold seg
  rw [List.length_map, List.length_range]

theorem seg_congr {a b : Arr} {lo lo2 n : Nat} (h : ∀ t, t < n → a (lo + t) = b (lo2 + t)) :
    seg a lo n = seg b lo2 n := by
  unfold seg
  apply List.map_congr_left
  intro t ht
  exact h t (List.mem_range.mp ht)

theorem seg_append (arr : Arr) (lo n m : Nat) :
    seg arr lo (n + m) = seg arr lo n ++ seg arr (lo + n) m := by
  induction m with
  | zero => simp [seg_zero]
  | succ m ih =>
    rw [← Nat.add_assoc, seg_succ, ih, seg_succ, List.append_assoc, Nat.add_assoc]

theorem mem_seg {arr : Arr} {lo n : Nat} {x : Int} (h : x ∈ seg arr lo n) :
    ∃ t, t < n ∧ x = arr (lo + t) := by
  unfold seg at h
  obtain ⟨t, ht, rfl⟩ := List.mem_map.mp h
  exact ⟨t, List.mem_range.mp ht, rfl⟩

theorem mergeStep_le {L R : Arr} {i j k : Nat} {a : Arr} (h : L i ≤ R j) :
    mergeStep L R (i, j, k, a) = (i + 1, j, k + 1, setAt a k (L i)) := by
  simp [mergeStep, h]

theorem mergeStep_gt {L R : Arr} {i j k : Nat} {a : Arr} (h : ¬ L i ≤ R j) :
    mergeStep L R (i, j, k, a) = (i, j + 1, k + 1, setAt a k (R j)) := by
  simp [mergeStep, h]

theorem setAt_same (a : Arr) (k : Nat) (v : Int) : setAt a k v k = v := by
  simp [setAt]

theorem setAt_other (a : Arr) (k : Nat) (v : Int) {t : Nat} (h : t ≠ k) : setAt a k v t = a t := by
  simp [setAt, h]

theorem push_seg (a : Arr) (left m : Nat) (v : Int) :
    seg (setAt a (left + m) v) left (m + 1) = seg a left m ++ [v] := by
  rw [seg_succ, setAt_same]
  congr 1
  apply seg_congr
  intro t ht
  exact setAt_other a _ v (by omega)

theorem push_sorted {a : Arr} {left k : Nat} {v : Int} (hs : Sorted a left k)
    (hv : ∀ t, left ≤ t → t < k → a t ≤ v) : Sorted (setAt a k v) left (k + 1) := by
  intro x y hx hxy hy
  by_cases e : y = k
  · subst e
    rw [setAt_same]
    by_cases e2 : x = y
    · subst e2; rw [setAt_same]
    · rw [setAt_other a _ v e2]
      exact hv x hx (by omega)
  · rw [setAt_other a _ v e, setAt_other a _ v (show x ≠ k by omega)]
    exact hs x y hx hxy (by omega)

theorem MInv_push_left {arr0 L R : Arr} {left n1 n2 i j k : Nat} {a : Arr}
    (hL : Sorted L 0 n1) (h : MInv arr0 L R left n1 n2 (i, j, k, a)) (hi : i < n1)
    (hle : L i ≤ R j) :
    MInv arr0 L R left n1 n2 (i + 1, j, k + 1, setAt a k (L i)) := by
  obtain ⟨h1, h2, h3, h4, h5, h6, h7⟩ := h
  simp only at h1 h2 h3 h4 h5 h6 h7
  refine ⟨hi, h2, by simp only; omega, ?_, ?_, ?_, ?_⟩
  · intro t ht
    simp only at ht ⊢
    rw [setAt_other a k _ (by omega)]
    exact h4 t (by omega)
  · simp only
    have e : i + 1 + j = (i + j) + 1 := by omega
    have ek : k = left + (i + j) := by omega
    rw [e, ek, push_seg, seg_succ, Nat.zero_add]
    have p1 : (seg a left (i + j) ++ [L i]).Perm (L i :: (seg L 0 i ++ seg R 0 j)) :=
      (List.perm_append_singleton _ _).trans (List.Perm.cons _ h5)
    have p2 : (seg L 0 i ++ [L i] ++ seg R 0 j).Perm (L i :: (seg L 0 i ++ seg R 0 j)) := by
      rw [List.append_assoc, List.singleton_append]
      exact List.perm_middle
    exact p1.trans p2.symm
  · simp only
    exact push_sorted h6 (fun t ht1 ht2 => (h7 t ht1 ht2).1 hi)
  · intro x hx1 hx2
    simp only at hx2 ⊢
    by_cases e : x = k
    · subst e
      rw [setAt_same]
      exact ⟨fun g => hL i (i + 1) (Nat.zero_le _) (by omega) g, fun _ => hle⟩
    · rw [setAt_other a k _ e]
      have := h7 x hx1 (by omega)
      exact ⟨fun g => le_trans (this.1 hi) (hL i (i + 1) (Nat.zero_le _) (by omega) g),
        fun g => this.2 g⟩

theorem MInv_push_right {arr0 L R : Arr} {left n1 n2 i j k : Nat} {a : Arr}
    (hR : Sorted R 0 n2) (h : MInv arr0 L R left n1 n2 (i, j, k, a)) (hj : j < n2)
    (hgt : ¬ L i ≤ R j) :
    MInv arr0 L R left n1 n2 (i, j + 1, k + 1, setAt a k (R j)) := by
  obtain ⟨h1, h2, h3, h4, h5, h6, h7⟩ := h
  simp only at h1 h2 h3 h4 h5 h6 h7
  refine ⟨h1, hj, by simp only; omega, ?_, ?_, ?_, ?_⟩
  · intro t ht
    simp only at ht ⊢
    rw [setAt_other a k _ (by omega)]
    exact h4 t (by omega)
  · simp only
    have e : i + (j + 1) = (i + j) + 1 := by omega
    have ek : k = left + (i + j) := by omega
    rw [e, ek, push_seg, seg_succ, Nat.zero_add, ← List.append_assoc]
    exact List.Perm.append_right _ h5
  · simp only
    exact push_sorted h6 (fun t ht1 ht2 => (h7 t ht1 ht2).2 hj)
  · intro x hx1 hx2
    simp only at hx2 ⊢
    by_cases e : x = k
    · subst e
      rw [setAt_same]
      exact ⟨fun _ => by omega, fun g => hR j (j + 1) (Nat.zero_le _) (by omega) g⟩
    · rw [setAt_other a k _ e]
      have := h7 x hx1 (by omega)
      exact ⟨fun g => this.1 g,
        fun g => le_trans (this.2 hj) (hR j (j + 1) (Nat.zero_le _) (by omega) g)⟩

/-- One run of the statement of the loop keeps the invariant and advances `i` or `j` by
one. -/
theorem mergeStep_spec {arr0 L R : Arr} {left n1 n2 : Nat} (hL : Sorted L 0 n1)
    (hR : Sorted R 0 n2) (st : Nat × Nat × Nat × Arr) (h : MInv arr0 L R left n1 n2 st)
    (hi : st.1 < n1) (hj : st.2.1 < n2) :
    MInv arr0 L R left n1 n2 (mergeStep L R st) ∧
      (mergeStep L R st).1 + (mergeStep L R st).2.1 = st.1 + st.2.1 + 1 ∧
      st.1 ≤ (mergeStep L R st).1 ∧ st.2.1 ≤ (mergeStep L R st).2.1 := by
  obtain ⟨i, j, k, a⟩ := st
  simp only at hi hj
  by_cases hle : L i ≤ R j
  · rw [mergeStep_le hle]
    exact ⟨MInv_push_left hL h hi hle, by simp only; omega, by simp only; omega,
      by simp only; omega⟩
  · rw [mergeStep_gt hle]
    exact ⟨MInv_push_right hR h hj hle, by simp only; omega, by simp only; omega,
      by simp only; omega⟩

/-- The loop of `merge` ends, with the invariant kept and `L` or `R` used up. -/
theorem mergeLoop_spec {arr0 L R : Arr} {left n1 n2 : Nat} (hL : Sorted L 0 n1)
    (hR : Sorted R 0 n2) (fuel : Nat) :
    ∀ st : Nat × Nat × Nat × Arr, MInv arr0 L R left n1 n2 st →
      (n1 - st.1) + (n2 - st.2.1) < fuel →
      ∃ st2, mergeLoop L R n1 n2 fuel st = some st2 ∧ MInv arr0 L R left n1 n2 st2 ∧
        ¬ (st2.1 < n1 ∧ st2.2.1 < n2) := by
  induction fuel with
  | zero => intro st _ h; omega
  | succ fuel ih =>
    intro st h hfuel
    unfold mergeLoop
    by_cases hc : st.1 < n1 ∧ st.2.1 < n2
    · rw [if_pos hc]
      obtain ⟨a1, a2, a3, a4⟩ := mergeStep_spec hL hR st h hc.1 hc.2
      by_cases hu : st.1 + 3 < n1 ∧ st.2.1 + 3 < n2
      · rw [if_pos hu]
        obtain ⟨b1, b2, b3, b4⟩ := mergeStep_spec hL hR _ a1 (by omega) (by omega)
        obtain ⟨c1, c2, c3, c4⟩ := mergeStep_spec hL hR _ b1 (by omega) (by omega)
        obtain ⟨d1, d2, d3, d4⟩ := mergeStep_spec hL hR _ c1 (by omega) (by omega)
        apply ih _ d1
        have e1 := d1.1
        have e2 := d1.2.1
        omega
      · rw [if_neg hu]
        apply ih _ a1
        have e1 := a1.1
        have e2 := a1.2.1
        omega
    · rw [if_neg hc]
      exact ⟨st, rfl, h, hc⟩

theorem memcpy_inside (dst : Arr) (k : Nat) (src : Arr) (i cnt : Nat) {t : Nat} (h1 : k ≤ t)
    (h2 : t < k + cnt) : memcpy dst k src i cnt t = src (i + (t - k)) := by
  unfold memcpy
  rw [if_pos ⟨h1, h2⟩]

theorem memcpy_outside (dst : Arr) (k : Nat) (src : Arr) (i cnt : Nat) {t : Nat}
    (h : t < k ∨ k + cnt ≤ t) : memcpy dst k src i cnt t = dst t := by
  unfold memcpy
  rw [if_neg (by omega)]

/-- Copying the rest of a sorted array behind a sorted part whose values it bounds gives a
sorted part. -/
theorem memcpy_sorted {a src : Arr} {left k i cnt n : Nat} (hs : Sorted a left k)
    (hsrc : Sorted src 0 n) (hn : i + cnt ≤ n)
    (hb : ∀ t, left ≤ t → t < k → 0 < cnt → a t ≤ src i) : Sorted (memcpy a k src i cnt) left (k + cnt) := by
  intro x y hx hxy hy
  by_cases ey : y < k
  · rw [memcpy_outside a k src i cnt (Or.inl ey), memcpy_outside a k src i cnt (Or.inl (by omega))]
    exact hs x y hx hxy ey
  · rw [memcpy_inside a k src i cnt (by omega) hy]
    by_cases ex : x < k
    · rw [memcpy_outside a k src i cnt (Or.inl ex)]
      exact le_trans (hb x hx ex (by omega)) (hsrc i (i + (y - k)) (Nat.zero_le _) (by omega)
        (by omega))
    · rw [memcpy_inside a k src i cnt (by omega) (by omega)]
      exact hsrc _ _ (Nat.zero_le _) (by omega) (by omega)

theorem memcpy_seg (a src : Arr) (left m i cnt : Nat) :
    seg (memcpy a (left + m) src i cnt) left (m + cnt) = seg a left m ++ seg src i cnt := by
  rw [seg_append]
  congr 1
  · apply seg_congr
    intro t ht
    exact memcpy_outside a _ src i cnt (Or.inl (by omega))
  · apply seg_congr
    intro t ht
    rw [memcpy_inside a _ src i cnt (by omega) (by omega)]
    congr 1
    omega

theorem perm_finish {X A B C : List Int} (h : X.Perm (A ++ B)) :
    (X ++ C).Perm ((A ++ C) ++ B) := by
  have p1 : (X ++ C).Perm ((A ++ B) ++ C) := List.Perm.append_right C h
  have p2 : ((A ++ B) ++ C).Perm ((A ++ C) ++ B) := by
    rw [List.append_assoc, List.append_assoc]
    exact List.Perm.append_left A List.perm_append_comm
  exact p1.trans p2

/-- The function `merge` on two adjacent sorted parts `arr[left..mid]` and
`arr[mid+1..right]`: the part `arr[left..right]` becomes sorted, holds the same values as
before, and the rest of the array is as before. -/
theorem merge_spec (arr : Arr) (left mid right : Nat) (h1 : left ≤ mid) (h2 : mid < right)
    (hs1 : Sorted arr left (mid + 1)) (hs2 : Sorted arr (mid + 1) (right + 1)) :
    ∃ a3, merge arr left mid right = some a3 ∧ Sorted a3 left (right + 1) ∧
      (seg a3 left (right + 1 - left)).Perm (seg arr left (right + 1 - left)) ∧
      ∀ t, (t < left ∨ right < t) → a3 t = arr t := by
  have hLv : ∀ t, t < mid - left + 1 →
      memcpy freshArr 0 arr left (mid - left + 1) t = arr (left + t) := by
    intro t ht
    rw [memcpy_inside freshArr 0 arr left _ (Nat.zero_le _) (by omega)]
    rfl
  have hRv : ∀ t, t < right - mid →
      memcpy freshArr 0 arr (mid + 1) (right - mid) t = arr (mid + 1 + t) := by
    intro t ht
    rw [memcpy_inside freshArr 0 arr (mid + 1) _ (Nat.zero_le _) (by omega)]
    rfl
  generalize hLd : memcpy freshArr 0 arr left (mid - left + 1) = L at hLv
  generalize hRd : memcpy freshArr 0 arr (mid + 1) (right - mid) = R at hRv
  have hL : Sorted L 0 (mid - left + 1) := by
    intro a b _ hab hb
    rw [hLv a (by omega), hLv b hb]
    exact hs1 _ _ (by omega) (by omega) (by omega)
  have hR : Sorted R 0 (right - mid) := by
    intro a b _ hab hb
    rw [hRv a (by omega), hRv b hb]
    exact hs2 _ _ (by omega) (by omega) (by omega)
  have hinit : MInv arr L R left (mid - left + 1) (right - mid) (0, 0, left, arr) := by
    refine ⟨Nat.zero_le _, Nat.zero_le _, rfl, fun _ _ => rfl, ?_, ?_, ?_⟩
    · simp only [seg_zero, List.append_nil]
      exact List.Perm.refl _
    · intro a b ha hab hb; simp only at hb; omega
    · intro a ha hb; simp only at hb; omega
  obtain ⟨st2, hloop, hinv, hexit⟩ := mergeLoop_spec hL hR (mid - left + 1 + (right - mid) + 1)
    (0, 0, left, arr) hinit (by simp only; omega)
  obtain ⟨i, j, k, a1⟩ := st2
  obtain ⟨g1, g2, g3, g4, g5, g6, g7⟩ := hinv
  simp only at g1 g2 g3 g4 g5 g6 g7 hexit
  have hsrc : seg L 0 (mid - left + 1) ++ seg R 0 (right - mid) = seg arr left (right + 1 - left) := by
    have e : right + 1 - left = (mid - left + 1) + (right - mid) := by omega
    rw [e, seg_append arr left (mid - left + 1) (right - mid)]
    congr 1
    · apply seg_congr
      intro t ht
      rw [Nat.zero_add]; exact hLv t ht
    · apply seg_congr
      intro t ht
      rw [Nat.zero_add, hRv t ht]
      congr 1
      omega
  unfold merge
  simp only [hLd, hRd, hloop]
  by_cases ci : i < mid - left + 1
  · have ej : j = right - mid := by omega
    have cj : ¬ (j < right - mid) := by omega
    rw [if_pos ci, if_neg cj]
    refine ⟨_, rfl, ?_, ?_, ?_⟩
    · have := @memcpy_sorted a1 L left k i (mid - left + 1 - i) (mid - left + 1) g6 hL (by omega)
        (fun t ht1 ht2 _ => (g7 t ht1 ht2).1 ci)
      have e : k + (mid - left + 1 - i) = right + 1 := by omega
      rw [e] at this
      exact this
    · have e : right + 1 - left = (i + j) + (mid - left + 1 - i) := by omega
      have ek : k = left + (i + j) := by omega
      rw [← hsrc, e, ek, memcpy_seg]
      have e2 : seg L 0 (mid - left + 1) = seg L 0 i ++ seg L i (mid - left + 1 - i) := by
        have : mid - left + 1 = i + (mid - left + 1 - i) := by omega
        rw [this, seg_append, Nat.zero_add]
        congr 2
        omega
      rw [e2, ← ej]
      exact perm_finish g5
    · intro t ht
      rcases ht with ht | ht
      · rw [memcpy_outside a1 k L i _ (Or.inl (by omega))]
        exact g4 t (Or.inl ht)
      · rw [memcpy_outside a1 k L i _ (Or.inr (by omega))]
        exact g4 t (Or.inr (by omega))
  · have ei : i = mid - left + 1 := by omega
    rw [if_neg ci]
    by_cases cj : j < right - mid
    · rw [if_pos cj]
      refine ⟨_, rfl, ?_, ?_, ?_⟩
      · have := @memcpy_sorted a1 R left k j (right - mid - j) (right - mid) g6 hR (by omega)
          (fun t ht1 ht2 _ => (g7 t ht1 ht2).2 cj)
        have e : k + (right - mid - j) = right + 1 := by omega
        rw [e] at this
        exact this
      · have e : right + 1 - left = (i + j) + (right - mid - j) := by omega
        have ek : k = left + (i + j) := by omega
        rw [← hsrc, e, ek, memcpy_seg]
        have e2 : seg R 0 (right - mid) = seg R 0 j ++ seg R j (right - mid - j) := by
          have : right - mid = j + (right - mid - j) := by omega
          rw [this, seg_append, Nat.zero_add]
          congr 2
          omega
        rw [e2, ← ei, ← List.append_assoc]
        exact List.Perm.append_right _ g5
      · intro t ht
        rcases ht with ht | ht
        · rw [memcpy_outside a1 k R j _ (Or.inl (by omega))]
          exact g4 t (Or.inl ht)
        · rw [memcpy_outside a1 k R j _ (Or.inr (by omega))]
          exact g4 t (Or.inr (by omega))
    · rw [if_neg cj]
      have ej : j = right - mid := by omega
      have ek : k = right + 1 := by omega
      refine ⟨_, rfl, ?_, ?_, ?_⟩
      · rw [← ek]; exact g6
      · have e : right + 1 - left = i + j := by omega
        rw [← hsrc, e, ← ei, ← ej]
        exact g5
      · intro t ht
        exact g4 t (by omega)

theorem SortSpec_trivial (arr : Arr) {left right : Nat} (h : ¬ left < right) :
    SortSpec arr left right (some arr) := by
  refine ⟨arr, rfl, ?_, List.Perm.refl _, fun _ _ => rfl⟩
  intro a b ha hab hb
  have : a = b := by omega
  rw [this]

/-- Sorting the two halves and merging them sorts the whole. -/
theorem SortSpec_combine (arr : Arr) {left mid right : Nat} (hm1 : left ≤ mid)
    (hm2 : mid < right) {o1 : Option Arr} (h1 : SortSpec arr left mid o1)
    (sort2 : Arr → Option Arr) (h2 : ∀ a1, SortSpec a1 (mid + 1) right (sort2 a1)) :
    SortSpec arr left right
      (match o1 with
        | none => none
        | some a1 =>
          match sort2 a1 with
          | none => none
          | some a2 => merge a2 left mid right) := by
  obtain ⟨a1, rfl, s1, p1, f1⟩ := h1
  obtain ⟨a2, e2, s2, p2, f2⟩ := h2 a1
  simp only [e2]
  have s1' : Sorted a2 left (mid + 1) := by
    intro a b ha hab hb
    rw [f2 a (Or.inl (by omega)), f2 b (Or.inl (by omega))]
    exact s1 a b ha hab hb
  obtain ⟨a3, e3, s3, p3, f3⟩ := merge_spec a2 left mid right hm1 hm2 s1' s2
  refine ⟨a3, e3, s3, p3.trans ?_, ?_⟩
  · have e : right + 1 - left = (mid + 1 - left) + (right + 1 - (mid + 1)) := by omega
    rw [e, seg_append a2 left, seg_append arr left]
    have e4 : left + (mid + 1 - left) = mid + 1 := by omega
    rw [e4]
    have q1 : seg a2 left (mid + 1 - left) = seg a1 left (mid + 1 - left) := by
      apply seg_congr
      intro t ht
      exact f2 _ (Or.inl (by omega))
    have q2 : seg a1 (mid + 1) (right + 1 - (mid + 1)) = seg arr (mid + 1) (right + 1 - (mid + 1)) := by
      apply seg_congr
      intro t ht
      exact f1 _ (Or.inr (by omega))
    rw [q1, ← q2]
    exact List.Perm.append p1 p2
  · intro t ht
    rw [f3 t ht, f2 t (by omega), f1 t (by omega)]

theorem merge_sort_sequential_aux_spec (fuel : Nat) :
    ∀ (arr : Arr) (left right : Nat), right - left < fuel →
      SortSpec arr left right (merge_sort_sequential_aux fuel arr left right) := by
  induction fuel with
  | zero => intro arr left right h; omega
  | succ fuel ih =>
    intro arr left right hfuel
    unfold merge_sort_sequential_aux
    by_cases h : left < right
    · rw [if_pos h]
      exact SortSpec_combine arr (Nat.le_add_right _ _) (by omega) (ih arr left _ (by omega))
        (fun a1 => merge_sort_sequential_aux fuel a1 (left + (right - left) / 2 + 1) right)
        (fun a1 => ih a1 _ right (by omega))
    · rw [if_neg h]
      exact SortSpec_trivial arr h

theorem merge_sort_sequential_spec (arr : Arr) (left right : Nat) :
    SortSpec arr left right (merge_sort_sequential arr left right) :=
  merge_sort_sequential_aux_spec _ arr left right (by omega)

theorem merge_sort_parallel_helper_aux_spec (fuel : Nat) :
    ∀ (arr : Arr) (left right : Nat) (depth : Int), right - left < fuel →
      SortSpec arr left right (merge_sort_parallel_helper_aux fuel arr left right depth) := by
  induction fuel with
  | zero => intro arr left right _ h; omega
  | succ fuel ih =>
    intro arr left right depth hfuel
    unfold merge_sort_parallel_helper_aux
    by_cases h : left ≥ right
    · rw [if_pos h]
      exact SortSpec_trivial arr (by omega)
    · rw [if_neg h]
      by_cases hseq : right - left + 1 < PARALLEL_THRESHOLD ∨ depth ≥ MAX_TASK_DEPTH
      · rw [if_pos hseq]
        exact merge_sort_sequential_spec arr left right
      · rw [if_neg hseq]
        exact SortSpec_combine arr (Nat.le_add_right _ _) (by omega)
          (ih arr left _ (depth + 1) (by omega))
          (fun a1 => merge_sort_parallel_helper_aux fuel a1 (left + (right - left) / 2 + 1) right
            (depth + 1))
          (fun a1 => ih a1 _ right (depth + 1) (by omega))

theorem parallel_merge_sort_spec (arr : Arr) (size : Nat) :
    SortSpec arr 0 (size - 1) (parallel_merge_sort arr size) :=
  merge_sort_parallel_helper_aux_spec _ arr 0 (size - 1) 0 (by omega)

theorem is_sorted_of_Sorted {a : Arr} {size : Nat} (h : Sorted a 0 size) :
    is_sorted a size = true := by
  unfold is_sorted
  rw [List.all_eq_true]
  intro i hi
  have hi2 := List.mem_range.mp hi
  have := h i (i + 1) (Nat.zero_le _) (by omega) (by omega)
  simp only [gt_iff_lt, Bool.not_eq_true', decide_eq_false_iff_not, not_lt]
  exact this

/-- C22: for every array and every `size >= 1`, `parallel_merge_sort(arr, size)`, with its
tasks run as calls, and `merge_sort_sequential(arr, 0, size - 1)` both return, and each
leaves an array on which `is_sorted` returns 1 and whose first `size` values are a
permutation of the first `size` values of `arr`. -/
theorem C22_merge_sort_sorts (arr : Arr) (size : Nat) (hsize : 1 ≤ size) :
    (∃ a, parallel_merge_sort arr size = some a ∧ is_sorted a size = true ∧
      (seg a 0 size).Perm (seg arr 0 size)) ∧
    (∃ a, merge_sort_sequential arr 0 (size - 1) = some a ∧ is_sorted a size = true ∧
      (seg a 0 size).Perm (seg arr 0 size)) := by
  have e : size - 1 + 1 = size := by omega
  constructor
  · obtain ⟨a, h1, h2, h3, _⟩ := parallel_merge_sort_spec arr size
    rw [Nat.sub_zero, e] at h3
    rw [e] at h2
    exact ⟨a, h1, is_sorted_of_Sorted h2, h3⟩
  · obtain ⟨a, h1, h2, h3, _⟩ := merge_sort_sequential_spec arr 0 (size - 1)
    rw [Nat.sub_zero, e] at h3
    rw [e] at h2
    exact ⟨a, h1, is_sorted_of_Sorted h2, h3⟩

theorem C22_merge_sort_sorts_witness :
    (∃ a, parallel_merge_sort (ofList [5, 3, 9, 1, 7, 3, 8, 2, 6, 4, 0]) 11 = some a ∧
      is_sorted a 11 = true ∧
      (seg a 0 11).Perm (seg (ofList [5, 3, 9, 1, 7, 3, 8, 2, 6, 4, 0]) 0 11)) ∧
    (∃ a, merge_sort_sequential (ofList [5, 3, 9, 1, 7, 3, 8, 2, 6, 4, 0]) 0 (11 - 1) = some a ∧
      is_sorted a 11 = true ∧
      (seg a 0 11).Perm (seg (ofList [5, 3, 9, 1, 7, 3, 8, 2, 6, 4, 0]) 0 11)) :=
  C22_merge_sort_sorts (ofList [5, 3, 9, 1, 7, 3, 8, 2, 6, 4, 0]) 11 (by decide)

theorem Sorted_of_sortedCheck {arr : Arr} {lo hi : Nat} (h : sortedCheck arr lo hi = true) :
    Sorted arr lo hi := by
  unfold sortedCheck at h
  rw [List.all_eq_true] at h
  have step : ∀ t, lo ≤ t → t + 1 < hi → arr t ≤ arr (t + 1) := by
    intro t h1 h2
    have := h (t - lo) (List.mem_range.mpr (by omega))
    simp only [decide_eq_true_eq] at this
    have e : lo + (t - lo) = t := by omega
    rw [e] at this
    exact this
  intro a b ha hab hb
  induction b with
  | zero =>
    have : a = 0 := by omega
    rw [this]
  | succ b ih =>
    by_cases e : a = b + 1
    · rw [e]
    · exact le_trans (ih (by omega) (by omega)) (step b (by omega) hb)

theorem mergeStep_idx (L R : Arr) (st : Nat × Nat × Nat × Arr) :
    (mergeStep L R st).1 + (mergeStep L R st).2.1 = st.1 + st.2.1 + 1 ∧
    st.1 ≤ (mergeStep L R st).1 ∧ st.2.1 ≤ (mergeStep L R st).2.1 := by
  obtain ⟨i, j, k, a⟩ := st
  by_cases hle : L i ≤ R j
  · rw [mergeStep_le hle]
    simp only
    omega
  · rw [mergeStep_gt hle]
    simp only
    omega

/-- C36: for indices `left <= mid < right` and an array whose parts `arr[left..mid]` and
`arr[mid+1..right]` are each in non-decreasing order, `merge` returns; afterwards
`arr[left..right]` is in non-decreasing order and is a permutation of its previous contents,
and every element outside `left..right` is unchanged. In a round of the loop that runs the
statement four times, entered with `i + 3 < n1` and `j + 3 < n2`, each of the four runs
reads `L` at an index below `n1` and `R` at an index below `n2`. -/
theorem C36_merge_postcondition (arr : Arr) (left mid right : Nat) (h1 : left ≤ mid)
    (h2 : mid < right) (hs1 : Sorted arr left (mid + 1))
    (hs2 : Sorted arr (mid + 1) (right + 1)) :
    (∃ a3, merge arr left mid right = some a3 ∧
      Sorted a3 left (right + 1) ∧
      (seg a3 left (right + 1 - left)).Perm (seg arr left (right + 1 - left)) ∧
      ∀ t, (t < left ∨ right < t) → a3 t = arr t) ∧
    (∀ (L R : Arr) (n1 n2 : Nat) (st : Nat × Nat × Nat × Arr),
      st.1 + 3 < n1 → st.2.1 + 3 < n2 →
      (st.1 < n1 ∧ st.2.1 < n2) ∧
      ((mergeStep L R st).1 < n1 ∧ (mergeStep L R st).2.1 < n2) ∧
      ((mergeStep L R (mergeStep L R st)).1 < n1 ∧
        (mergeStep L R (mergeStep L R st)).2.1 < n2) ∧
      ((mergeStep L R (mergeStep L R (mergeStep L R st))).1 < n1 ∧
        (mergeStep L R (mergeStep L R (mergeStep L R st))).2.1 < n2)) := by
  refine ⟨merge_spec arr left mid right h1 h2 hs1 hs2, ?_⟩
  intro L R n1 n2 st hi hj
  obtain ⟨a1, a2, a3⟩ := mergeStep_idx L R st
  obtain ⟨b1, b2, b3⟩ := mergeStep_idx L R (mergeStep L R st)
  obtain ⟨c1, c2, c3⟩ := mergeStep_idx L R (mergeStep L R (mergeStep L R st))
  refine ⟨⟨by omega, by omega⟩, ⟨by omega, by omega⟩, ⟨by omega, by omega⟩,
    ⟨by omega, by omega⟩⟩

theorem C36_merge_postcondition_witness :
    (∃ a3, merge (ofList [1, 4, 6, 7, 9, 2, 3, 5, 8, 10]) 0 4 9 = some a3 ∧
      Sorted a3 0 (9 + 1) ∧
      (seg a3 0 (9 + 1 - 0)).Perm (seg (ofList [1, 4, 6, 7, 9, 2, 3, 5, 8, 10]) 0 (9 + 1 - 0)) ∧
      ∀ t, (t < 0 ∨ 9 < t) → a3 t = ofList [1, 4, 6, 7, 9, 2, 3, 5, 8, 10] t) ∧
    (∀ (L R : Arr) (n1 n2 : Nat) (st : Nat × Nat × Nat × Arr),
      st.1 + 3 < n1 → st.2.1 + 3 < n2 →
      (st.1 < n1 ∧ st.2.1 < n2) ∧
      ((mergeStep L R st).1 < n1 ∧ (mergeStep L R st).2.1 < n2) ∧
      ((mergeStep L R (mergeStep L R st)).1 < n1 ∧
        (mergeStep L R (mergeStep L R st)).2.1 < n2) ∧
      ((mergeStep L R (mergeStep L R (mergeStep L R st))).1 < n1 ∧
        (mergeStep L R (mergeStep L R (mergeStep L R st))).2.1 < n2)) :=
  C36_merge_postcondition (ofList [1, 4, 6, 7, 9, 2, 3, 5, 8, 10]) 0 4 9 (by decide) (by decide)
    (Sorted_of_sortedCheck (by decide)) (Sorted_of_sortedCheck (by decide))

end MergeSort

/-! ## Run-length compression: properties -/

namespace Compressor

theorem countRun_spec (input : Bytes) (input_size i current : Nat) (fuel : Nat) :
    ∀ count : Nat, 1 ≤ count → count ≤ 255 → i + count ≤ input_size → 255 ≤ count + fuel →
      count ≤ countRun input input_size i current fuel count ∧
      countRun input input_size i current fuel count ≤ 255 ∧
      i + countRun input input_size i current fuel count ≤ input_size ∧
      (countRun input input_size i current fuel count < 255 →
        i + countRun input input_size i current fuel count < input_size →
        input (i + countRun input input_size i current fuel count) ≠ current) := by
  induction fuel with
  | zero =>
    intro count h1 h2 h3 h4
    simp only [countRun]
    exact ⟨le_refl _, h2, h3, fun h => by omega⟩
  | succ fuel ih =>
    intro count h1 h2 h3 h4
    unfold countRun
    by_cases hc : i + count < input_size ∧ input (i + count) = current ∧ count < 255
    · rw [if_pos hc]
      obtain ⟨g1, g2, g3, g4⟩ := ih (count + 1) (by omega) (by omega) (by omega) (by omega)
      exact ⟨by omega, g2, g3, g4⟩
    · rw [if_neg hc]
      refine ⟨le_refl _, h2, h3, ?_⟩
      intro g1 g2 g3
      exact hc ⟨g2, g3, g1⟩

/-- The run found at index `i < input_size`: between 1 and 255 bytes, inside the input, and
ended by the end of the input, by another byte, or by the limit of 255. -/
theorem countRun_run (input : Bytes) (input_size i : Nat) (hi : i < input_size) :
    1 ≤ countRun input input_size i (input i) 255 1 ∧
    countRun input input_size i (input i) 255 1 ≤ 255 ∧
    i + countRun input input_size i (input i) 255 1 ≤ input_size ∧
    (countRun input input_size i (input i) 255 1 < 255 →
      i + countRun input input_size i (input i) 255 1 < input_size →
      input (i + countRun input input_size i (input i) 255 1) ≠ input i) :=
  countRun_spec input input_size i (input i) 255 1 (le_refl _) (by omega) (by omega) (by omega)

theorem runCode_length_le (count current : Nat) (h1 : 1 ≤ count) :
    (runCode count current).length ≤ 3 * count := by
  unfold runCode
  split_ifs <;> simp <;> omega

theorem Holds_prefix {output : Bytes} {acc l : List Nat} (h : Holds output (acc ++ l)) :
    Holds output acc := by
  intro t ht
  have := h t (by rw [List.length_append]; omega)
  rw [this, List.getD_append _ _ _ _ ht]

theorem Holds_store {max_output_size : Nat} {output : Bytes} {acc : List Nat} {pos v : Nat}
    (h : Holds output acc) (hp : acc.length = pos) (hm : pos < max_output_size) :
    ∃ o1, store max_output_size output pos v = some o1 ∧ Holds o1 (acc ++ [v]) := by
  refine ⟨_, by unfold store; rw [if_pos hm], ?_⟩
  intro t ht
  rw [List.length_append, List.length_singleton] at ht
  by_cases e : t = pos
  · subst e
    simp only [if_true]
    rw [← hp, List.getD_append_right _ _ _ _ (le_refl _)]
    simp
  · simp only [e, if_false]
    have : t < acc.length := by omega
    rw [h t this, List.getD_append _ _ _ _ this]

theorem storeList_spec (max_output_size : Nat) (l : List Nat) :
    ∀ (output : Bytes) (pos : Nat) (acc : List Nat), Holds output acc → acc.length = pos →
      pos + l.length ≤ max_output_size →
      ∃ o1, storeList max_output_size output pos l = some o1 ∧ Holds o1 (acc ++ l) := by
  induction l with
  | nil => intro output pos acc h _ _; exact ⟨output, rfl, by simpa using h⟩
  | cons v rest ih =>
    intro output pos acc h hp hm
    rw [List.length_cons] at hm
    obtain ⟨o1, h1, g1⟩ := @Holds_store max_output_size output acc pos v h hp (by omega)
    obtain ⟨o2, h2, g2⟩ := ih o1 (pos + 1) (acc ++ [v]) g1
      (by rw [List.length_append, List.length_singleton, hp]) (by omega)
    refine ⟨o2, ?_, ?_⟩
    · unfold storeList; rw [h1]; exact h2
    · rw [List.append_assoc] at g2; exact g2

theorem snprintf_marker_spec {max_output_size : Nat} {output : Bytes} {acc : List Nat}
    {out_pos : Nat} (a b : Nat) (h : Holds output acc) (hp : acc.length = out_pos)
    (hm : out_pos + 10 < max_output_size) :
    ∃ o1, snprintf_marker max_output_size output out_pos
        ((max_output_size : Int) - (out_pos : Int)) a b = some o1 ∧
      Holds o1 (acc ++ [64, a, b]) := by
  unfold snprintf_marker
  have h0 : ¬ ((max_output_size : Int) - (out_pos : Int) = 0) := by omega
  have h1 : ¬ ((max_output_size : Int) - (out_pos : Int) < 0) := by omega
  have h3 : min 3 ((max_output_size : Int) - (out_pos : Int) - 1).toNat = 3 := by omega
  rw [if_neg h0, if_neg h1, h3]
  obtain ⟨o1, g1, g2⟩ := storeList_spec max_output_size [64, a, b, 0] output out_pos acc h hp
    (by simp only [List.length_cons, List.length_nil]; omega)
  refine ⟨o1, g1, ?_⟩
  have : acc ++ [64, a, b, 0] = (acc ++ [64, a, b]) ++ [0] := by simp
  rw [this] at g2
  exact Holds_prefix g2

theorem writeRun_spec (max_output_size current : Nat) (count : Nat) :
    ∀ (out_pos : Nat) (output : Bytes) (acc : List Nat), Holds output acc →
      acc.length = out_pos → out_pos + count < max_output_size →
      ∃ o1, writeRun max_output_size current count out_pos output
          = some (out_pos + count, o1) ∧
        Holds o1 (acc ++ List.replicate count current) := by
  induction count with
  | zero => intro out_pos output acc h _ _; exact ⟨output, rfl, by simpa using h⟩
  | succ count ih =>
    intro out_pos output acc h hp hm
    obtain ⟨o1, h1, g1⟩ := @Holds_store max_output_size output acc out_pos current h hp
      (by omega)
    obtain ⟨o2, h2, g2⟩ := ih (out_pos + 1) o1 (acc ++ [current]) g1
      (by rw [List.length_append, List.length_singleton, hp]) (by omega)
    refine ⟨o2, ?_, ?_⟩
    · unfold writeRun
      have hg : (out_pos : Int) < (max_output_size : Int) - 1 := by omega
      rw [if_pos hg]
      simp only [h1, h2]
      congr 2
      omega
    · rw [List.append_assoc] at g2
      rw [List.replicate_succ]
      exact g2

/-- One round of the main loop, started with room for ten more bytes, writes the code of
its run at `out_pos` and advances `out_pos` by the length of the code. -/
theorem emitRun_spec {max_output_size : Nat} {output : Bytes} {acc : List Nat} {out_pos : Nat}
    (count current : Nat) (h : Holds output acc) (hp : acc.length = out_pos)
    (hm : out_pos + 10 < max_output_size) :
    ∃ o1, emitRun max_output_size count current out_pos output
        = some (out_pos + (runCode count current).length, o1) ∧
      Holds o1 (acc ++ runCode count current) := by
  unfold emitRun runCode
  by_cases c3 : count ≥ 3
  · rw [if_pos c3, if_pos c3]
    by_cases c9 : count ≤ 9 ∧ current ≠ 64
    · rw [if_pos c9, if_pos c9]
      obtain ⟨o1, h1, g1⟩ := @Holds_store max_output_size output acc out_pos (48 + count) h hp
        (by omega)
      obtain ⟨o2, h2, g2⟩ := @Holds_store max_output_size o1 (acc ++ [48 + count])
        (out_pos + 1) current g1 (by rw [List.length_append, List.length_singleton, hp])
        (by omega)
      simp only [h1, h2]
      refine ⟨o2, rfl, ?_⟩
      rw [List.append_assoc] at g2
      exact g2
    · rw [if_neg c9, if_neg c9]
      obtain ⟨o1, h1, g1⟩ := snprintf_marker_spec (count % 256) current h hp hm
      simp only [h1]
      exact ⟨o1, rfl, g1⟩
  · rw [if_neg c3, if_neg c3]
    by_cases cm : current = 64
    · rw [if_pos cm, if_pos cm]
      obtain ⟨o1, h1, g1⟩ := snprintf_marker_spec (count % 256) current h hp hm
      simp only [h1]
      exact ⟨o1, rfl, g1⟩
    · rw [if_neg cm, if_neg cm]
      obtain ⟨o1, h1, g1⟩ := writeRun_spec max_output_size current count out_pos output acc h hp
        (by omega)
      rw [h1, List.length_replicate]
      exact ⟨o1, rfl, g1⟩

theorem PosInv_step {input : Bytes} {input_size i out_pos : Nat} (hi : i < input_size)
    (h : PosInv input input_size i out_pos) :
    PosInv input input_size (i + countRun input input_size i (input i) 255 1)
      (out_pos + (runCode (countRun input input_size i (input i) 255 1) (input i)).length) := by
  obtain ⟨c1, _, _, cmax⟩ := countRun_run input input_size i hi
  generalize countRun input input_size i (input i) 255 1 = c at c1 cmax
  unfold PosInv at h ⊢
  unfold runCode
  by_cases c3 : c ≥ 3
  · rw [if_pos c3]
    left
    split_ifs <;> simp only [List.length_cons, List.length_nil] <;> omega
  · rw [if_neg c3]
    by_cases cm : input i = 64
    · rw [if_pos cm]
      simp only [List.length_cons, List.length_nil]
      have hp : out_pos ≤ 2 * i := by
        rcases h with h | ⟨_, h⟩
        · exact h
        · exact absurd cm (h hi)
      by_cases c2 : c = 2
      · left; omega
      · right
        have e1 : c = 1 := by omega
        subst e1
        refine ⟨by omega, fun hlt => ?_⟩
        have := cmax (by omega) hlt
        rw [cm] at this
        exact this
    · rw [if_neg cm, List.length_replicate]
      left
      rcases h with h | ⟨h, _⟩ <;> omega

/-- The main loop, started inside a buffer with room for `2 * input_size + 12` bytes, consumes
the whole input and leaves in the buffer the codes of all runs. -/
theorem rleLoop_spec (input : Bytes) (input_size max_output_size : Nat)
    (hmax : 2 * input_size + 11 < max_output_size) (fuel : Nat) :
    ∀ (i out_pos : Nat) (output : Bytes) (acc : List Nat), i ≤ input_size →
      input_size - i < fuel → Holds output acc → acc.length = out_pos →
      PosInv input input_size i out_pos →
      ∃ o1, rleLoop input input_size max_output_size fuel i out_pos output
          = some (input_size, (acc ++ encodeFrom input input_size fuel i).length, o1) ∧
        Holds o1 (acc ++ encodeFrom input input_size fuel i) ∧
        (acc ++ encodeFrom input input_size fuel i).length ≤ 2 * input_size + 1 := by
  induction fuel with
  | zero => intro i out_pos output acc _ h; omega
  | succ fuel ih =>
    intro i out_pos output acc hi hfuel h hp hinv
    unfold rleLoop encodeFrom
    by_cases hlt : i < input_size
    · have hpos : out_pos ≤ 2 * i + 1 := by
        rcases hinv with g | ⟨g, _⟩ <;> omega
      have hguard : (out_pos : Int) < (max_output_size : Int) - 10 := by omega
      rw [if_pos ⟨hlt, hguard⟩, if_pos hlt]
      obtain ⟨c1, _, c3, _⟩ := countRun_run input input_size i hlt
      obtain ⟨o1, h1, g1⟩ := emitRun_spec (countRun input input_size i (input i) 255 1)
        (input i) h hp (show out_pos + 10 < max_output_size by omega)
      simp only [h1]
      obtain ⟨o2, h2, g2, g3⟩ := ih (i + countRun input input_size i (input i) 255 1)
        (out_pos + (runCode (countRun input input_size i (input i) 255 1) (input i)).length) o1
        (acc ++ runCode (countRun input input_size i (input i) 255 1) (input i)) c3
        (by omega) g1 (by rw [List.length_append, hp]) (PosInv_step hlt hinv)
      rw [List.append_assoc] at h2 g2 g3
      exact ⟨o2, h2, g2, g3⟩
    · have hguard : ¬ (i < input_size ∧ (out_pos : Int) < (max_output_size : Int) - 10) :=
        fun g => hlt g.1
      have hin : i = input_size := by omega
      rw [if_neg hguard, if_neg hlt, List.append_nil, hp, hin]
      refine ⟨output, rfl, h, ?_⟩
      subst hin
      rcases hinv with g | ⟨g, _⟩ <;> omega

/-- C24: for an input of 1 to `CHUNK_SIZE` bytes and an output buffer of `3 * CHUNK_SIZE`
bytes, every store of `compress_rle` is inside the buffer, the terminating NUL included; the
main loop ends with the whole input consumed; the output holds the codes of all runs of the
input, none dropped or cut; and the length returned is at most `3 * input_size` and less
than `3 * CHUNK_SIZE`. -/
theorem C24_rle_worst_case_size (input : Bytes) (input_size : Nat) (h1 : 1 ≤ input_size)
    (h2 : input_size ≤ CHUNK_SIZE) (output : Bytes) :
    ∃ out_pos o1 o2,
      rleLoop input input_size (3 * CHUNK_SIZE) (input_size + 1) 0 0 output
        = some (input_size, out_pos, o1) ∧
      compress_rle input input_size output (3 * CHUNK_SIZE) = some (out_pos, o2) ∧
      out_pos = (encodeFrom input input_size (input_size + 1) 0).length ∧
      (∀ t, t < out_pos → o2 t = (encodeFrom input input_size (input_size + 1) 0).getD t 0) ∧
      o2 out_pos = 0 ∧
      out_pos ≤ 3 * input_size ∧ out_pos < 3 * CHUNK_SIZE := by
  unfold CHUNK_SIZE at h2 ⊢
  obtain ⟨o1, g1, g2, g3⟩ := rleLoop_spec input input_size (3 * 1024) (by omega)
    (input_size + 1) 0 0 output [] (by omega) (by omega) (fun t ht => by simp at ht) rfl
    (Or.inl (le_refl _))
  rw [List.nil_append] at g1 g2 g3
  obtain ⟨o2, g4, g5⟩ := @Holds_store (3 * 1024) o1 _ _ 0 g2 rfl (by omega)
  refine ⟨_, o1, o2, g1, ?_, rfl, ?_, ?_, by omega, by omega⟩
  · unfold compress_rle
    rw [if_neg (by omega)]
    simp only [g1, g4]
  · exact Holds_prefix g5
  · have := g5 (encodeFrom input input_size (input_size + 1) 0).length
      (by rw [List.length_append, List.length_singleton]; omega)
    rw [this, List.getD_append_right _ _ _ _ (le_refl _)]
    simp

theorem C24_rle_worst_case_size_witness :
    ∃ out_pos o1 o2,
      rleLoop exampleInput 8 (3 * CHUNK_SIZE) (8 + 1) 0 0 (fun _ => 0)
        = some (8, out_pos, o1) ∧
      compress_rle exampleInput 8 (fun _ => 0) (3 * CHUNK_SIZE) = some (out_pos, o2) ∧
      out_pos = (encodeFrom exampleInput 8 (8 + 1) 0).length ∧
      (∀ t, t < out_pos → o2 t = (encodeFrom exampleInput 8 (8 + 1) 0).getD t 0) ∧
      o2 out_pos = 0 ∧
      out_pos ≤ 3 * 8 ∧ out_pos < 3 * CHUNK_SIZE :=
  C24_rle_worst_case_size exampleInput 8 (by decide) (by decide) (fun _ => 0)

/-- C23 does not hold of the code: on the input "AAABBBCC" of the documentation, with an
output buffer of `3 * CHUNK_SIZE` bytes, `compress_rle` returns 6 and writes "3A3BCC"
followed by a NUL, not "3A3B2C": a run of one or two bytes other than `@` is written as
it is, without a count. -/
theorem C23_documented_example :
    (compress_rle exampleInput 8 (fun _ => 0) (3 * CHUNK_SIZE)).map
      (fun r => (r.1, (List.range 7).map r.2)) = some (6, [51, 65, 51, 66, 67, 67, 0]) ∧
    ([51, 65, 51, 66, 67, 67] : List Nat) ≠ [51, 65, 51, 66, 50, 67] := by
  decide

/-- C37 does not hold of the code: with an output buffer of `3 * CHUNK_SIZE` bytes,
`compress_rle` gives one and the same result, the length 2 and the output "3A" followed by
a NUL, for the three bytes "AAA" and for the two bytes "3A". -/
theorem C37_two_inputs_one_output :
    compress_rle inputAAA 3 (fun _ => 0) (3 * CHUNK_SIZE)
      = compress_rle input3A 2 (fun _ => 0) (3 * CHUNK_SIZE) ∧
    (compress_rle inputAAA 3 (fun _ => 0) (3 * CHUNK_SIZE)).map
      (fun r => (r.1, (List.range 3).map r.2)) = some (2, [51, 65, 0]) ∧
    (compress_rle input3A 2 (fun _ => 0) (3 * CHUNK_SIZE)).map
      (fun r => (r.1, (List.range 3).map r.2)) = some (2, [51, 65, 0]) ∧
    (List.range 3).map inputAAA ≠ (List.range 3).map input3A := by
  refine ⟨rfl, ?_⟩
  decide

end Compressor

